import Mathlib

/-!
# Verification of the UV-trial mesh-geodesic core

This file gives a shallow embedding, in Lean 4, of the mesh-graph /
geodesic code of the UV-trial repository and proves (or refutes) the
quantified properties stated in the repository's design specification.

Embedded source files:

* `src/web/src/features/segmentation/meshGraph.ts` (and the identical copy
  of the `MeshGraphBuilder` class inside `types.ts`): vertex welding,
  adjacency construction, the indexed `MinHeap`, the A* `shortestPath`,
  Douglas-Peucker `simplifyPath`, and `resampleByArcLength`.
* `src/src/... uv_geodesic.cpp` (heat-method solver translation unit):
  `HeatGeodesicSolver::initialize`, `computeDistance`, `tracePath`, and the
  anonymous-namespace helper `build_adjacency`.

Modelling conventions:

* JavaScript numbers / C++ doubles are modelled by an arbitrary linear
  ordered field `α`; concrete evaluations instantiate `α := ℚ`.
* The Euclidean norm is computed by the external libraries THREE.js
  (`Vector3.distanceTo`) and Eigen (`.norm()`).  Those libraries are
  outside the repository, so the distance function is a parameter
  `len : Vec3 α → Vec3 α → α` of the embedding; theorems that depend on
  metric facts assume exactly the properties (non-negativity, triangle
  inequality) that the Euclidean norm satisfies.  Concrete witnesses use
  the taxicab distance `distL1`, which satisfies the same properties and
  agrees with the Euclidean norm on the axis-aligned inputs used there.
* Eigen sparse factorizations and `igl` operator assembly are likewise
  external; they are modelled as oracle function fields of the solver
  state (a failing solve returns `none`, matching `info() != Success`).
* Mutable arrays become lists, JS `Map`s become association lists, and
  unbounded loops become fuel-indexed recursion, with the fuel taken from
  the source where the source bounds the loop (`max_steps = 2n`).
-/

namespace UVTrial

/-- A 3-component vector (`THREE.Vector3` / `Eigen::Vector3d`) with
coordinates in `α`. -/
structure Vec3 (α : Type) where
  x : α
  y : α
  z : α
deriving DecidableEq, Repr

variable {α : Type} [LinearOrderedField α]

/-- JavaScript `Math.round`: round half toward positive infinity,
`⌊q + 1/2⌋`.  (`Math.round(0.5) = 1`, `Math.round(-0.5) = 0`.) -/
def jsRound [FloorRing α] (q : α) : ℤ := ⌊q + 1 / 2⌋

/-- Taxicab distance on `Vec3 ℚ`.  This is the computable stand-in used by
concrete witnesses for the Euclidean `distanceTo` of THREE.js; it
satisfies the same axioms assumed of the `len` parameter (symmetry,
non-negativity, triangle inequality, zero on equal points) and coincides
with the Euclidean distance for points differing along a single axis. -/
def distL1 (p q : Vec3 ℚ) : ℚ := |p.x - q.x| + |p.y - q.y| + |p.z - q.z|

theorem distL1_nonneg (p q : Vec3 ℚ) : 0 ≤ distL1 p q := by
  unfold distL1
  positivity

theorem distL1_triangle (p q r : Vec3 ℚ) :
    distL1 p r ≤ distL1 p q + distL1 q r := by
  unfold distL1
  have hx := abs_sub_le p.x q.x r.x
  have hy := abs_sub_le p.y q.y r.y
  have hz := abs_sub_le p.z q.z r.z
  linarith

theorem distL1_self (p : Vec3 ℚ) : distL1 p p = 0 := by
  simp [distL1]

/-- Association-list lookup (model of a JS `Map` keyed by the quantized
coordinate string `"${rx}_${ry}_${rz}"`; the underscore-joined triple of
integers is injective, so the key is modelled by the integer triple). -/
def alookup {κ ν : Type} [DecidableEq κ] : List (κ × ν) → κ → Option ν
  | [], _ => none
  | (k, v) :: rest, key => if k = key then some v else alookup rest key

theorem alookup_append {κ ν : Type} [DecidableEq κ] (l₁ l₂ : List (κ × ν)) (key : κ) :
    alookup (l₁ ++ l₂) key =
      match alookup l₁ key with
      | some v => some v
      | none => alookup l₂ key := by
  induction l₁ with
  | nil => simp [alookup]
  | cons kv rest ih =>
    obtain ⟨k, v⟩ := kv
    by_cases h : k = key <;> simp [alookup, h, ih]

/-- Quantization key of the welding step
(`meshGraph.ts` line 297: `key = (x,y,z) =>
 round(x/eps)_round(y/eps)_round(z/eps)`). -/
def quantKey [FloorRing α] (mergeEps : α) (p : Vec3 α) : ℤ × ℤ × ℤ :=
  (jsRound (p.x / mergeEps), jsRound (p.y / mergeEps), jsRound (p.z / mergeEps))

/-- State of the vertex-welding loop of `MeshGraphBuilder.build`
(`meshGraph.ts` lines 296-313): the key map, the merged position list and
the original-to-merged index list. -/
structure WeldState (α : Type) where
  keyMap : List ((ℤ × ℤ × ℤ) × ℕ)
  positions : List (Vec3 α)
  origToMerged : List ℕ

/-- One iteration of the welding loop (`meshGraph.ts` lines 302-313). -/
def weldStep [FloorRing α] (mergeEps : α) (st : WeldState α) (v : Vec3 α) :
    WeldState α :=
  let k := quantKey mergeEps v
  match alookup st.keyMap k with
  | some idx => { st with origToMerged := st.origToMerged ++ [idx] }
  | none =>
      let idx := st.positions.length
      { keyMap := st.keyMap ++ [(k, idx)],
        positions := st.positions ++ [v],
        origToMerged := st.origToMerged ++ [idx] }

/-- The complete welding pass over the position attribute. -/
def weld [FloorRing α] (mergeEps : α) (posAttr : List (Vec3 α)) : WeldState α :=
  posAttr.foldl (weldStep mergeEps) ⟨[], [], []⟩

/-- Accumulator of the edge-insertion loop of `MeshGraphBuilder.build`
(`meshGraph.ts` lines 315-333): adjacency lists, the set of unordered
edge keys, and the running edge-length statistics. -/
structure EdgeAccum (α : Type) where
  adjacency : List (List (ℕ × α))
  edgeSet : List (ℕ × ℕ)
  totalEdgeLength : α
  edgeCount : ℕ

/-- `adjacency[i]` with the out-of-range default of an absent entry. -/
def adjGet (adj : List (List (ℕ × α))) (i : ℕ) : List (ℕ × α) :=
  adj.getD i []

/-- `this.adjacency[i].push(e)` on the list model. -/
def adjPush (adj : List (List (ℕ × α))) (i : ℕ) (e : ℕ × α) :
    List (List (ℕ × α)) :=
  adj.set i (adjGet adj i ++ [e])

/-- The unordered edge key `a < b ? a_b : b_a` (`meshGraph.ts` line 324). -/
def edgeKey (a b : ℕ) : ℕ × ℕ := if a < b then (a, b) else (b, a)

/-- `addEdge` of `MeshGraphBuilder.build` (`meshGraph.ts` lines 321-333).
`len` models `THREE.Vector3.distanceTo`. -/
def addEdge (len : Vec3 α → Vec3 α → α) (positions : List (Vec3 α))
    (st : EdgeAccum α) (a b : ℕ) : EdgeAccum α :=
  if a = b then st
  else if edgeKey a b ∈ st.edgeSet then st
  else
    let w := len (positions.getD a ⟨0, 0, 0⟩) (positions.getD b ⟨0, 0, 0⟩)
    { adjacency := adjPush (adjPush st.adjacency a (b, w)) b (a, w),
      edgeSet := st.edgeSet ++ [edgeKey a b],
      totalEdgeLength := st.totalEdgeLength + w,
      edgeCount := st.edgeCount + 1 }

/-- `addTriangle` (`meshGraph.ts` lines 335-339). -/
def addTriangle (len : Vec3 α → Vec3 α → α) (positions : List (Vec3 α))
    (st : EdgeAccum α) (t : ℕ × ℕ × ℕ) : EdgeAccum α :=
  addEdge len positions (addEdge len positions (addEdge len positions st t.1 t.2.1) t.2.1 t.2.2) t.2.2 t.1

/-- Group an index list into consecutive triples (the `i += 3` face loops
of `meshGraph.ts` lines 341-355; an incomplete trailing group is not a
face). -/
def triples : List ℕ → List (ℕ × ℕ × ℕ)
  | a :: b :: c :: rest => (a, b, c) :: triples rest
  | _ => []

/-- The built mesh graph: the fields of the `MeshGraphBuilder` class
(`meshGraph.ts` lines 85-89). -/
structure MeshGraphBuilder (α : Type) where
  positions : List (Vec3 α)
  adjacency : List (List (ℕ × α))
  origToMerged : List ℕ
  avgEdgeLength : α

/-- `MeshGraphBuilder.build` (`meshGraph.ts` lines 291-358).  The geometry
is a position list plus an optional index list, mirroring
`geometry.getAttribute("position")` / `geometry.getIndex()`. -/
def MeshGraphBuilder.build [FloorRing α] (len : Vec3 α → Vec3 α → α)
    (posAttr : List (Vec3 α)) (indexAttr : Option (List ℕ)) (mergeEps : α) :
    MeshGraphBuilder α :=
  let w := weld mergeEps posAttr
  let tris :=
    match indexAttr with
    | some idx => triples (idx.map fun i => w.origToMerged.getD i 0)
    | none => triples w.origToMerged
  let ea := tris.foldl (addTriangle len w.positions)
    ⟨List.replicate w.positions.length [], [], 0, 0⟩
  { positions := w.positions,
    adjacency := ea.adjacency,
    origToMerged := w.origToMerged,
    avgEdgeLength :=
      if 0 < ea.edgeCount then ea.totalEdgeLength / (ea.edgeCount : α)
      else 1 / 100 }

/-- `MeshGraphBuilder.getMergedIndex` (`meshGraph.ts` lines 99-102). -/
def MeshGraphBuilder.getMergedIndex (g : MeshGraphBuilder α) (i : ℕ) : ℤ :=
  if h : i < g.origToMerged.length then (g.origToMerged.get ⟨i, h⟩ : ℤ) else -1

/-! ## Welding invariant (claim C5) -/

theorem alookup_mem {κ ν : Type} [DecidableEq κ] :
    ∀ {l : List (κ × ν)} {k : κ} {v : ν}, alookup l k = some v → (k, v) ∈ l
  | [], _, _, h => by simp [alookup] at h
  | (k₀, v₀) :: rest, k, v, h => by
    by_cases hk : k₀ = k
    · subst hk
      rw [show alookup ((k₀, v₀) :: rest) k₀ = some v₀ from if_pos rfl] at h
      rw [show v = v₀ from (Option.some.injEq _ _ ▸ h).symm]
      exact List.mem_cons_self _ _
    · simp only [alookup, if_neg hk] at h
      exact List.mem_cons_of_mem _ (alookup_mem h)

/-- Invariant of the welding loop after processing the prefix `seen` of
the position attribute: the key map sends the quantization key of every
processed vertex to its merged index. -/
structure WeldInv [FloorRing α] (mergeEps : α) (seen : List (Vec3 α))
    (st : WeldState α) : Prop where
  len_eq : st.origToMerged.length = seen.length
  otm_lt : ∀ m ∈ st.origToMerged, m < st.positions.length
  map_lt : ∀ e ∈ st.keyMap, e.2 < st.positions.length
  lookup_eq : ∀ i v₀, seen[i]? = some v₀ →
    alookup st.keyMap (quantKey mergeEps v₀) = some (st.origToMerged.getD i 0)

theorem weldStep_inv [FloorRing α] (mergeEps : α) (seen : List (Vec3 α))
    (st : WeldState α) (v : Vec3 α) (hinv : WeldInv mergeEps seen st) :
    WeldInv mergeEps (seen ++ [v]) (weldStep mergeEps st v) := by
  obtain ⟨hlen, hotm, hmap, hlook⟩ := hinv
  cases hcase : alookup st.keyMap (quantKey mergeEps v) with
  | some idx =>
    have hst : weldStep mergeEps st v =
        { st with origToMerged := st.origToMerged ++ [idx] } := by
      simp [weldStep, hcase]
    rw [hst]
    refine ⟨by simp [hlen], ?_, hmap, ?_⟩
    · intro m hm
      rcases List.mem_append.mp hm with h | h
      · exact hotm m h
      · simp only [List.mem_singleton] at h
        subst h
        exact hmap _ (alookup_mem hcase)
    · intro i v₀ hv₀
      by_cases hlt : i < seen.length
      · rw [List.getElem?_append_left hlt] at hv₀
        rw [List.getD_append _ _ _ _ (by omega)]
        exact hlook i v₀ hv₀
      · have hi : i = seen.length := by
          by_contra hne
          have : seen.length + 1 ≤ i := by omega
          rw [List.getElem?_eq_none (by simp; omega)] at hv₀
          exact Option.noConfusion hv₀
        subst hi
        have : v₀ = v := by
          rw [List.getElem?_concat_length] at hv₀
          exact (Option.some.injEq _ _ ▸ hv₀).symm
        subst this
        rw [List.getD_append_right _ _ _ _ (by omega), hlen]
        simpa using hcase
  | none =>
    have hst : weldStep mergeEps st v =
        { keyMap := st.keyMap ++ [(quantKey mergeEps v, st.positions.length)],
          positions := st.positions ++ [v],
          origToMerged := st.origToMerged ++ [st.positions.length] } := by
      simp [weldStep, hcase]
    rw [hst]
    refine ⟨by simp [hlen], ?_, ?_, ?_⟩
    · intro m hm
      simp only [List.length_append, List.length_singleton]
      rcases List.mem_append.mp hm with h | h
      · exact Nat.lt_succ_of_lt (hotm m h)
      · simp only [List.mem_singleton] at h
        omega
    · intro e he
      simp only [List.length_append, List.length_singleton]
      rcases List.mem_append.mp he with h | h
      · exact Nat.lt_succ_of_lt (hmap e h)
      · simp only [List.mem_singleton] at h
        subst h
        omega
    · intro i v₀ hv₀
      by_cases hlt : i < seen.length
      · rw [List.getElem?_append_left hlt] at hv₀
        rw [List.getD_append _ _ _ _ (by omega), alookup_append,
          hlook i v₀ hv₀]
      · have hi : i = seen.length := by
          by_contra hne
          have : seen.length + 1 ≤ i := by omega
          rw [List.getElem?_eq_none (by simp; omega)] at hv₀
          exact Option.noConfusion hv₀
        subst hi
        have : v₀ = v := by
          rw [List.getElem?_concat_length] at hv₀
          exact (Option.some.injEq _ _ ▸ hv₀).symm
        subst this
        rw [List.getD_append_right _ _ _ _ (by omega), hlen, alookup_append, hcase]
        simp [alookup]

theorem weld_go_inv [FloorRing α] (mergeEps : α) :
    ∀ (rest seen : List (Vec3 α)) (st : WeldState α),
      WeldInv mergeEps seen st →
      WeldInv mergeEps (seen ++ rest) (rest.foldl (weldStep mergeEps) st)
  | [], seen, st, h => by simpa using h
  | v :: rest, seen, st, h => by
    have h' := weldStep_inv mergeEps seen st v h
    have := weld_go_inv mergeEps rest (seen ++ [v]) _ h'
    simpa using this

theorem weld_inv [FloorRing α] (mergeEps : α) (posAttr : List (Vec3 α)) :
    WeldInv mergeEps posAttr (weld mergeEps posAttr) := by
  have := weld_go_inv mergeEps posAttr [] ⟨[], [], []⟩
    ⟨rfl, by simp, by simp, by intro i v₀ h; simp at h⟩
  simpa [weld] using this

/-- C5 (amended): two original vertices whose coordinates quantize to the
same integer triple under `round(coord / mergeEps)` receive the same
welded (merged) index in `MeshGraphBuilder.build`. -/
theorem C5_weld_same_bucket [FloorRing α] (len : Vec3 α → Vec3 α → α)
    (posAttr : List (Vec3 α)) (indexAttr : Option (List ℕ)) (mergeEps : α)
    (i j : ℕ) (vi vj : Vec3 α)
    (hi : posAttr[i]? = some vi) (hj : posAttr[j]? = some vj)
    (hkey : quantKey mergeEps vi = quantKey mergeEps vj) :
    (MeshGraphBuilder.build len posAttr indexAttr mergeEps).origToMerged.getD i 0 =
      (MeshGraphBuilder.build len posAttr indexAttr mergeEps).origToMerged.getD j 0 := by
  have hbuild : (MeshGraphBuilder.build len posAttr indexAttr mergeEps).origToMerged =
      (weld mergeEps posAttr).origToMerged := by
    simp [MeshGraphBuilder.build]
  have hinv := weld_inv mergeEps posAttr
  have h₁ := hinv.lookup_eq i vi hi
  have h₂ := hinv.lookup_eq j vj hj
  rw [hkey, h₂] at h₁
  rw [hbuild]
  exact (Option.some.injEq _ _ ▸ h₁.symm)

/-- Witness for `C5_weld_same_bucket`: two exactly coincident vertices are
welded to the same index. -/
theorem C5_weld_same_bucket_witness :
    (MeshGraphBuilder.build distL1 [⟨1, 2, 3⟩, ⟨1, 2, 3⟩] (some []) (1/100000)).origToMerged.getD 0 0 =
      (MeshGraphBuilder.build distL1 [⟨1, 2, 3⟩, ⟨1, 2, 3⟩] (some []) (1/100000)).origToMerged.getD 1 0 :=
  C5_weld_same_bucket distL1 [⟨1, 2, 3⟩, ⟨1, 2, 3⟩] (some []) (1/100000) 0 1
    ⟨1, 2, 3⟩ ⟨1, 2, 3⟩ rfl rfl rfl

/-- C5 (counterexample): the original claim — coordinates agreeing within
the welding epsilon on every axis imply equal welded indices — is false.
The vertices `(4e-6, 0, 0)` and `(6e-6, 0, 0)` differ by `2e-6 < 1e-5` on
every axis, yet `round(x/ε)` quantizes them into the buckets `0` and `1`,
so they receive distinct welded indices `0` and `1`. -/
theorem C5_counterexample :
    (|(4 : ℚ)/1000000 - 6/1000000| < 1/100000 ∧
      |(0 : ℚ) - 0| < 1/100000 ∧ |(0 : ℚ) - 0| < 1/100000) ∧
    (MeshGraphBuilder.build distL1
        [⟨4/1000000, 0, 0⟩, ⟨6/1000000, 0, 0⟩] (some []) (1/100000)).origToMerged.getD 0 0 ≠
      (MeshGraphBuilder.build distL1
        [⟨4/1000000, 0, 0⟩, ⟨6/1000000, 0, 0⟩] (some []) (1/100000)).origToMerged.getD 1 0 := by
  constructor
  · refine ⟨?_, ?_, ?_⟩ <;>
    · rw [abs_sub_lt_iff]
      constructor <;> norm_num
  · norm_num [MeshGraphBuilder.build, weld, weldStep, quantKey, jsRound,
      alookup, triples, Prod.mk.injEq]
    decide

/-! ## Adjacency invariants (claim C6) -/

theorem edgeKey_comm (a b : ℕ) : edgeKey a b = edgeKey b a := by
  unfold edgeKey
  rcases Nat.lt_trichotomy a b with h | h | h
  · rw [if_pos h, if_neg (by omega)]
  · subst h
    rfl
  · rw [if_neg (by omega), if_pos h]

theorem edgeKey_eq_iff {a b x y : ℕ} (hab : a ≠ b) :
    edgeKey x y = edgeKey a b ↔ (x = a ∧ y = b) ∨ (x = b ∧ y = a) := by
  unfold edgeKey
  split_ifs with h₁ h₂ h₂ <;>
    simp only [Prod.mk.injEq] <;> omega

theorem adjGet_adjPush (adj : List (List (ℕ × α))) (i : ℕ) (e : ℕ × α) (j : ℕ) :
    adjGet (adjPush adj i e) j =
      if i = j ∧ i < adj.length then adjGet adj i ++ [e] else adjGet adj j := by
  unfold adjPush adjGet
  by_cases hij : i = j
  · subst hij
    by_cases hlt : i < adj.length
    · simp only [hlt, and_true, if_pos rfl, true_and, if_pos trivial]
      rw [List.getD_eq_getElem?_getD, List.getElem?_set_self (by omega),
        List.getD_eq_getElem?_getD]
      simp
    · simp only [hlt, and_false, if_false]
      rw [List.set_eq_of_length_le (by omega)]
  · simp only [hij, false_and, if_false]
    rw [List.getD_eq_getElem?_getD, List.getElem?_set_ne hij,
      ← List.getD_eq_getElem?_getD]

/-- Invariant of the edge-insertion fold: the edge-key set registers
exactly the unordered pairs present in the adjacency lists, each present
pair appears exactly once at each endpoint with a common weight, and no
self loops exist. -/
structure AdjInv (st : EdgeAccum α) : Prop where
  no_self : ∀ a, ∀ e ∈ adjGet st.adjacency a, e.1 ≠ a
  present : ∀ a b, a ≠ b → edgeKey a b ∈ st.edgeSet →
    ∃ w, (adjGet st.adjacency a).filter (fun e => e.1 = b) = [(b, w)] ∧
      (adjGet st.adjacency b).filter (fun e => e.1 = a) = [(a, w)]
  absent : ∀ a b, a ≠ b → edgeKey a b ∉ st.edgeSet →
    (adjGet st.adjacency a).filter (fun e => e.1 = b) = []

theorem addEdge_length (len : Vec3 α → Vec3 α → α) (positions : List (Vec3 α))
    (st : EdgeAccum α) (a b : ℕ) :
    (addEdge len positions st a b).adjacency.length = st.adjacency.length := by
  unfold addEdge
  split_ifs <;> simp [adjPush]

theorem addEdge_inv (len : Vec3 α → Vec3 α → α) (positions : List (Vec3 α))
    (st : EdgeAccum α) (a b : ℕ)
    (hbound : a = b ∨ (a < st.adjacency.length ∧ b < st.adjacency.length))
    (hinv : AdjInv st) : AdjInv (addEdge len positions st a b) := by
  obtain ⟨hself, hpres, habs⟩ := hinv
  by_cases hab : a = b
  · rw [show addEdge len positions st a b = st from by
      unfold addEdge; rw [if_pos hab]]
    exact ⟨hself, hpres, habs⟩
  rcases hbound with h | ⟨ha, hb⟩
  · exact absurd h hab
  by_cases hmem : edgeKey a b ∈ st.edgeSet
  · rw [show addEdge len positions st a b = st from by
      unfold addEdge; rw [if_neg hab, if_pos hmem]]
    exact ⟨hself, hpres, habs⟩
  have hstep : addEdge len positions st a b =
      { adjacency := adjPush (adjPush st.adjacency a
          (b, len (positions.getD a ⟨0, 0, 0⟩) (positions.getD b ⟨0, 0, 0⟩)))
          b (a, len (positions.getD a ⟨0, 0, 0⟩) (positions.getD b ⟨0, 0, 0⟩)),
        edgeSet := st.edgeSet ++ [edgeKey a b],
        totalEdgeLength := st.totalEdgeLength +
          len (positions.getD a ⟨0, 0, 0⟩) (positions.getD b ⟨0, 0, 0⟩),
        edgeCount := st.edgeCount + 1 } := by
    unfold addEdge
    rw [if_neg hab, if_neg hmem]
  set w := len (positions.getD a ⟨0, 0, 0⟩) (positions.getD b ⟨0, 0, 0⟩) with hw
  have hpl : (adjPush st.adjacency a (b, w)).length = st.adjacency.length := by
    simp [adjPush]
  have hget : ∀ j, adjGet (adjPush (adjPush st.adjacency a (b, w)) b (a, w)) j =
      if j = a then adjGet st.adjacency a ++ [(b, w)]
      else if j = b then adjGet st.adjacency b ++ [(a, w)]
      else adjGet st.adjacency j := by
    intro j
    by_cases hja : j = a
    · subst hja
      rw [if_pos rfl, adjGet_adjPush,
        if_neg (by rintro ⟨hc, -⟩; exact hab hc.symm), adjGet_adjPush,
        if_pos ⟨rfl, ha⟩]
    · by_cases hjb : j = b
      · subst hjb
        rw [if_neg hja, if_pos rfl, adjGet_adjPush,
          if_pos ⟨rfl, by rw [hpl]; exact hb⟩, adjGet_adjPush,
          if_neg (by rintro ⟨hc, -⟩; exact hab hc)]
      · rw [if_neg hja, if_neg hjb, adjGet_adjPush,
          if_neg (by rintro ⟨hc, -⟩; exact hjb hc.symm), adjGet_adjPush,
          if_neg (by rintro ⟨hc, -⟩; exact hja hc.symm)]
  have hfilt : ∀ j d, (adjGet (adjPush (adjPush st.adjacency a (b, w)) b (a, w)) j).filter
        (fun e => e.1 = d) =
      (adjGet st.adjacency j).filter (fun e => e.1 = d) ++
        (if j = a ∧ d = b then [(b, w)] else if j = b ∧ d = a then [(a, w)] else []) := by
    intro j d
    rw [hget]
    by_cases hja : j = a
    · subst hja
      rw [if_pos rfl, List.filter_append, List.filter_singleton]
      by_cases hdb : d = b
      · subst hdb
        simp
      · rw [if_neg (by exact fun hc => hdb hc.2),
          if_neg (by rintro ⟨hc, -⟩; exact hab hc)]
        simp only [cond_eq_if, decide_eq_true_eq]
        rw [if_neg (by exact fun hc => hdb hc.symm)]
    · by_cases hjb : j = b
      · subst hjb
        rw [if_neg hja, if_pos rfl, List.filter_append, List.filter_singleton]
        rw [if_neg (by exact fun hc => hja hc.1)]
        by_cases hda : d = a
        · subst hda
          simp
        · rw [if_neg (by exact fun hc => hda hc.2)]
          simp only [cond_eq_if, decide_eq_true_eq]
          rw [if_neg (by exact fun hc => hda hc.symm)]
      · rw [if_neg hja, if_neg hjb, if_neg (by exact fun hc => hja hc.1),
          if_neg (by exact fun hc => hjb hc.1)]
        simp
  rw [hstep]
  refine ⟨?_, ?_, ?_⟩
  · intro c e he
    simp only at he
    rw [hget] at he
    by_cases hca : c = a
    · subst hca
      rcases List.mem_append.mp (by rwa [if_pos rfl] at he) with h | h
      · exact hself c e h
      · simp only [List.mem_singleton] at h
        subst h
        exact Ne.symm hab
    · by_cases hcb : c = b
      · subst hcb
        rcases List.mem_append.mp (by rwa [if_neg hca, if_pos rfl] at he) with h | h
        · exact hself c e h
        · simp only [List.mem_singleton] at h
          subst h
          exact hab
      · rw [if_neg hca, if_neg hcb] at he
        exact hself c e he
  · intro x y hxy hmem'
    simp only [List.mem_append, List.mem_singleton] at hmem'
    rcases hmem' with hold | hnew
    · -- an old pair: defensively, {x,y} cannot be {a,b} since that key is fresh
      have hne : ¬((x = a ∧ y = b) ∨ (x = b ∧ y = a)) := by
        intro hc
        exact hmem (((edgeKey_eq_iff hab).mpr hc) ▸ hold)
      obtain ⟨w₀, hx, hy⟩ := hpres x y hxy hold
      refine ⟨w₀, ?_, ?_⟩
      · rw [hfilt, hx, if_neg (fun hc => hne (Or.inl hc)),
          if_neg (fun hc => hne (Or.inr hc)), List.append_nil]
      · rw [hfilt, hy, if_neg (fun hc => hne (Or.inr ⟨hc.2, hc.1⟩)),
          if_neg (fun hc => hne (Or.inl ⟨hc.2, hc.1⟩)), List.append_nil]
    · -- the new pair
      rcases (edgeKey_eq_iff hab).mp hnew with ⟨hxa, hyb⟩ | ⟨hxb, hya⟩
      · subst hxa; subst hyb
        refine ⟨w, ?_, ?_⟩
        · rw [hfilt, if_pos ⟨rfl, rfl⟩, habs x y hxy hmem, List.nil_append]
        · rw [hfilt, if_neg (fun hc => hxy hc.1.symm), if_pos ⟨rfl, rfl⟩,
            habs y x (Ne.symm hxy) (by rwa [edgeKey_comm y x]), List.nil_append]
      · subst hxb; subst hya
        refine ⟨w, ?_, ?_⟩
        · rw [hfilt, if_neg (fun hc => hxy hc.2.symm), if_pos ⟨rfl, rfl⟩,
            habs x y hxy (by rwa [edgeKey_comm x y]), List.nil_append]
        · rw [hfilt, if_pos ⟨rfl, rfl⟩, habs y x (Ne.symm hxy) hmem,
            List.nil_append]
  · intro x y hxy hmem'
    simp only [List.mem_append, List.mem_singleton, not_or] at hmem'
    obtain ⟨hold, hnew⟩ := hmem'
    have hne : ¬((x = a ∧ y = b) ∨ (x = b ∧ y = a)) := by
      intro hc
      exact hnew ((edgeKey_eq_iff hab).mpr hc)
    rw [hfilt, habs x y hxy hold, if_neg (fun hc => hne (Or.inl hc)),
      if_neg (fun hc => hne (Or.inr hc)), List.nil_append]

theorem addTriangle_length (len : Vec3 α → Vec3 α → α) (positions : List (Vec3 α))
    (st : EdgeAccum α) (t : ℕ × ℕ × ℕ) :
    (addTriangle len positions st t).adjacency.length = st.adjacency.length := by
  unfold addTriangle
  rw [addEdge_length, addEdge_length, addEdge_length]

/-- A triangle is harmless for the adjacency invariant when its corners
are in range or all coincide (the latter happens only for the degenerate
empty-mesh defaults). -/
def triOk (n : ℕ) (t : ℕ × ℕ × ℕ) : Prop :=
  (t.1 < n ∧ t.2.1 < n ∧ t.2.2 < n) ∨ (t.1 = t.2.1 ∧ t.2.1 = t.2.2)

theorem addTriangle_inv (len : Vec3 α → Vec3 α → α) (positions : List (Vec3 α))
    (st : EdgeAccum α) (t : ℕ × ℕ × ℕ) (hok : triOk st.adjacency.length t)
    (hinv : AdjInv st) : AdjInv (addTriangle len positions st t) := by
  obtain ⟨a, b, c⟩ := t
  rcases hok with ⟨ha, hb, hc⟩ | ⟨hab, hbc⟩
  · apply addEdge_inv _ _ _ _ _
      (Or.inr ⟨by rw [addEdge_length, addEdge_length]; exact hc,
        by rw [addEdge_length, addEdge_length]; exact ha⟩)
    apply addEdge_inv _ _ _ _ _
      (Or.inr ⟨by rw [addEdge_length]; exact hb, by rw [addEdge_length]; exact hc⟩)
    exact addEdge_inv _ _ _ _ _ (Or.inr ⟨ha, hb⟩) hinv
  · simp only at hab hbc
    subst hab
    subst hbc
    apply addEdge_inv _ _ _ _ _ (Or.inl rfl)
    apply addEdge_inv _ _ _ _ _ (Or.inl rfl)
    exact addEdge_inv _ _ _ _ _ (Or.inl rfl) hinv

theorem foldl_addTriangle_inv (len : Vec3 α → Vec3 α → α)
    (positions : List (Vec3 α)) :
    ∀ (tris : List (ℕ × ℕ × ℕ)) (st : EdgeAccum α),
      (∀ t ∈ tris, triOk st.adjacency.length t) → AdjInv st →
      AdjInv (tris.foldl (addTriangle len positions) st)
  | [], st, _, hinv => hinv
  | t :: rest, st, hok, hinv => by
    have hlen := addTriangle_length len positions st t
    refine foldl_addTriangle_inv len positions rest _ ?_
      (addTriangle_inv len positions st t (hok t (List.mem_cons_self _ _)) hinv)
    intro t' ht'
    rw [hlen]
    exact hok t' (List.mem_cons_of_mem _ ht')

theorem adjGet_replicate (n i : ℕ) :
    adjGet (List.replicate n ([] : List (ℕ × α))) i = [] := by
  unfold adjGet
  rw [List.getD_eq_getElem?_getD, List.getElem?_replicate]
  split_ifs <;> rfl

theorem adjInv_init (n : ℕ) :
    AdjInv (⟨List.replicate n [], [], 0, 0⟩ : EdgeAccum α) := by
  refine ⟨?_, ?_, ?_⟩
  · intro a e he
    rw [adjGet_replicate] at he
    exact absurd he (List.not_mem_nil e)
  · intro a b _ hmem
    exact absurd hmem (List.not_mem_nil _)
  · intro a b _ _
    rw [adjGet_replicate]
    rfl

theorem mem_triples : ∀ {l : List ℕ} {t : ℕ × ℕ × ℕ}, t ∈ triples l →
    t.1 ∈ l ∧ t.2.1 ∈ l ∧ t.2.2 ∈ l
  | a :: b :: c :: rest, t, ht => by
    rw [show triples (a :: b :: c :: rest) = (a, b, c) :: triples rest from rfl] at ht
    rcases List.mem_cons.mp ht with h | h
    · subst h
      refine ⟨List.mem_cons_self _ _, ?_, ?_⟩ <;> simp
    · obtain ⟨h1, h2, h3⟩ := mem_triples h
      refine ⟨?_, ?_, ?_⟩ <;>
      · apply List.mem_cons_of_mem
        apply List.mem_cons_of_mem
        apply List.mem_cons_of_mem
        assumption
  | [], t, ht => by simp [triples] at ht
  | [a], t, ht => by simp [triples] at ht
  | [a, b], t, ht => by simp [triples] at ht

/-- Every triangle fed to the edge loop by `build` is `triOk` for the
welded vertex count. -/
theorem build_tris_ok [FloorRing α] (mergeEps : α) (posAttr : List (Vec3 α))
    (indexAttr : Option (List ℕ)) (t : ℕ × ℕ × ℕ)
    (ht : t ∈ match indexAttr with
      | some idx => triples (idx.map fun i =>
          (weld mergeEps posAttr).origToMerged.getD i 0)
      | none => triples (weld mergeEps posAttr).origToMerged) :
    triOk (weld mergeEps posAttr).positions.length t := by
  set w := weld mergeEps posAttr with hw
  have hmem : ∀ m, m ∈ w.origToMerged → m < w.positions.length :=
    (weld_inv mergeEps posAttr).otm_lt
  have hval : ∀ m, (m ∈ w.origToMerged ∨ m = 0) →
      w.positions.length = 0 → m = 0 := by
    intro m hm hzero
    rcases hm with h | h
    · exact absurd (hmem m h) (by omega)
    · exact h
  have hcomp : ∀ m, (m ∈ w.origToMerged ∨ m = 0) →
      (0 < w.positions.length → m < w.positions.length) := by
    intro m hm hpos
    rcases hm with h | h
    · exact hmem m h
    · omega
  have hsrc : (t.1 ∈ w.origToMerged ∨ t.1 = 0) ∧
      (t.2.1 ∈ w.origToMerged ∨ t.2.1 = 0) ∧
      (t.2.2 ∈ w.origToMerged ∨ t.2.2 = 0) := by
    cases indexAttr with
    | some idx =>
      have hval' : ∀ m ∈ idx.map fun i => w.origToMerged.getD i 0,
          m ∈ w.origToMerged ∨ m = 0 := by
        intro m hm
        obtain ⟨i, -, heq⟩ := List.mem_map.mp hm
        rw [← heq, List.getD_eq_getElem?_getD]
        cases hx : w.origToMerged[i]? with
        | none => simp
        | some v => exact Or.inl (by simpa using List.getElem?_mem hx)
      obtain ⟨h1, h2, h3⟩ := mem_triples ht
      exact ⟨hval' _ h1, hval' _ h2, hval' _ h3⟩
    | none =>
      obtain ⟨h1, h2, h3⟩ := mem_triples ht
      exact ⟨Or.inl h1, Or.inl h2, Or.inl h3⟩
  obtain ⟨h1, h2, h3⟩ := hsrc
  by_cases hpos : 0 < w.positions.length
  · exact Or.inl ⟨hcomp _ h1 hpos, hcomp _ h2 hpos, hcomp _ h3 hpos⟩
  · have hz : w.positions.length = 0 := by omega
    exact Or.inr ⟨by rw [hval _ h1 hz, hval _ h2 hz],
      by rw [hval _ h2 hz, hval _ h3 hz]⟩

/-- The final state of the edge-insertion fold performed by `build`. -/
def buildAccum [FloorRing α] (len : Vec3 α → Vec3 α → α)
    (posAttr : List (Vec3 α)) (indexAttr : Option (List ℕ)) (mergeEps : α) :
    EdgeAccum α :=
  (match indexAttr with
    | some idx => triples (idx.map fun i =>
        (weld mergeEps posAttr).origToMerged.getD i 0)
    | none => triples (weld mergeEps posAttr).origToMerged).foldl
    (addTriangle len (weld mergeEps posAttr).positions)
    ⟨List.replicate (weld mergeEps posAttr).positions.length [], [], 0, 0⟩

theorem build_adjacency_eq [FloorRing α] (len : Vec3 α → Vec3 α → α)
    (posAttr : List (Vec3 α)) (indexAttr : Option (List ℕ)) (mergeEps : α) :
    (MeshGraphBuilder.build len posAttr indexAttr mergeEps).adjacency =
      (buildAccum len posAttr indexAttr mergeEps).adjacency := by
  cases indexAttr <;> simp only [MeshGraphBuilder.build, buildAccum]

/-- The adjacency invariant holds at the end of the edge fold of `build`. -/
theorem build_adjInv [FloorRing α] (len : Vec3 α → Vec3 α → α)
    (posAttr : List (Vec3 α)) (indexAttr : Option (List ℕ)) (mergeEps : α) :
    AdjInv (buildAccum len posAttr indexAttr mergeEps) := by
  unfold buildAccum
  apply foldl_addTriangle_inv
  · intro t ht
    simp only [List.length_replicate]
    exact build_tris_ok mergeEps posAttr indexAttr t ht
  · exact adjInv_init _

/-- C6: after `MeshGraphBuilder.build`, (i) no vertex lists itself as a
neighbor, (ii) every entry `(a → b, w)` has a reciprocal entry
`(b → a, w)` with the same weight, and (iii) every unordered vertex pair
appears at most once per endpoint in the adjacency structure. -/
theorem C6_adjacency_wellformed [FloorRing α] (len : Vec3 α → Vec3 α → α)
    (posAttr : List (Vec3 α)) (indexAttr : Option (List ℕ)) (mergeEps : α) :
    (∀ a, ∀ e ∈ adjGet
      (MeshGraphBuilder.build len posAttr indexAttr mergeEps).adjacency a,
      e.1 ≠ a) ∧
    (∀ a b w, (b, w) ∈ adjGet
      (MeshGraphBuilder.build len posAttr indexAttr mergeEps).adjacency a →
      (a, w) ∈ adjGet
        (MeshGraphBuilder.build len posAttr indexAttr mergeEps).adjacency b) ∧
    (∀ a b, ((adjGet
      (MeshGraphBuilder.build len posAttr indexAttr mergeEps).adjacency a).filter
        (fun e => e.1 = b)).length ≤ 1) := by
  rw [build_adjacency_eq]
  obtain ⟨hself, hpres, habs⟩ := build_adjInv len posAttr indexAttr mergeEps
  set acc := buildAccum len posAttr indexAttr mergeEps with hacc
  refine ⟨hself, ?_, ?_⟩
  · intro a b w hmem
    have hab : a ≠ b := fun hc => (hself a (b, w) hmem) (by rw [hc])
    have hfmem : (b, w) ∈ (adjGet acc.adjacency a).filter (fun e => e.1 = b) :=
      List.mem_filter.mpr ⟨hmem, by simp⟩
    by_cases hk : edgeKey a b ∈ acc.edgeSet
    · obtain ⟨w₀, hx, hy⟩ := hpres a b hab hk
      rw [hx] at hfmem
      simp only [List.mem_singleton, Prod.mk.injEq] at hfmem
      rw [hfmem.2]
      exact List.mem_of_mem_filter (hy ▸ List.mem_singleton_self (a, w₀))
    · rw [habs a b hab hk] at hfmem
      exact absurd hfmem (List.not_mem_nil _)
  · intro a b
    by_cases hab : a = b
    · subst hab
      have : (adjGet acc.adjacency a).filter (fun e => e.1 = a) = [] := by
        rw [List.filter_eq_nil_iff]
        intro e he
        simpa using hself a e he
      rw [this]
      exact Nat.zero_le 1
    · by_cases hk : edgeKey a b ∈ acc.edgeSet
      · obtain ⟨w₀, hx, -⟩ := hpres a b hab hk
        rw [hx]
        exact le_refl 1
      · rw [habs a b hab hk]
        exact Nat.zero_le 1

set_option maxHeartbeats 1000000 in
/-- Witness for `C6_adjacency_wellformed`: on a single welded triangle the
edge `0-1` of weight `1` is stored reciprocally. -/
theorem C6_adjacency_wellformed_witness :
    ((0 : ℕ), (1 : ℚ)) ∈ adjGet
      (MeshGraphBuilder.build distL1 [⟨0, 0, 0⟩, ⟨1, 0, 0⟩, ⟨0, 1, 0⟩]
        none 1).adjacency 1 := by
  apply (C6_adjacency_wellformed distL1 [⟨0, 0, 0⟩, ⟨1, 0, 0⟩, ⟨0, 1, 0⟩]
    none 1).2.1 0 1 1
  norm_num [MeshGraphBuilder.build, weld, weldStep, quantKey, jsRound, alookup,
    triples, addTriangle, addEdge, adjPush, adjGet, edgeKey, distL1,
    Prod.mk.injEq, -Prod.mk_zero_zero]

/-! ## The C++ heat-method solver (`uv_geodesic.cpp`, `src/unnamed/part_015`)

The `igl` operator assemblies and Eigen's sparse Cholesky are external
libraries; they are modelled as oracles.  A sparse matrix is modelled by
its action on vectors (`LinOp`), which is the only way `computeDistance`
uses the cached matrices; a factorization is a possibly-failing solve
function (`SolveOp`, `none` modelling `info() != Eigen::Success`). -/

/-- Exceptions thrown by the solver, by throw site. -/
inductive GeoErr : Type
  | emptyMesh
  | nonPositiveTime
  | factorFailed
  | notReady
  | noSources
  | sourceOutOfBounds
  | solveFailed
  | fieldSizeMismatch
  | vertexOutOfBounds
deriving DecidableEq, Repr

/-- A sparse matrix, modelled by its matrix-vector product. -/
def LinOp (α : Type) := List α → List α

/-- A pre-factorized solver: `solve` with the `info()` success check. -/
def SolveOp (α : Type) := List α → Option (List α)

def opNeg (A : LinOp α) : LinOp α := fun v => (A v).map (fun x => -x)

def opAdd (A B : LinOp α) : LinOp α := fun v => List.zipWith (· + ·) (A v) (B v)

def opSmul (c : α) (A : LinOp α) : LinOp α := fun v => (A v).map (fun x => c * x)

/-- Insertion into a sorted list (model for `std::sort`, whose algorithm
is unspecified by the repository; only the sorted result matters). -/
def insertSorted (x : ℕ) : List ℕ → List ℕ
  | [] => [x]
  | y :: ys => if x ≤ y then x :: y :: ys else y :: insertSorted x ys

def sortNat (l : List ℕ) : List ℕ := l.foldr insertSorted []

/-- `std::unique` on a sorted list: drop adjacent duplicates. -/
def dedupAdjacent : List ℕ → List ℕ
  | [] => []
  | [x] => [x]
  | x :: y :: rest =>
      if x = y then dedupAdjacent (y :: rest) else x :: dedupAdjacent (y :: rest)

/-- `adjacency[i].push_back(v)` on the list-of-lists model. -/
def adjPushN (adj : List (List ℕ)) (i v : ℕ) : List (List ℕ) :=
  adj.set i (adj.getD i [] ++ [v])

/-- The anonymous-namespace helper `build_adjacency`
(`uv_geodesic.cpp` lines 33-53): push both directions of every triangle
edge, then sort each neighbor list and remove duplicates. -/
def buildAdjacency (F : List (ℕ × ℕ × ℕ)) (vertexCount : ℕ) : List (List ℕ) :=
  let raw := F.foldl (fun adj t =>
      adjPushN (adjPushN (adjPushN (adjPushN (adjPushN (adjPushN adj
        t.1 t.2.1) t.2.1 t.1) t.2.1 t.2.2) t.2.2 t.2.1) t.2.2 t.1) t.1 t.2.2)
    (List.replicate vertexCount [])
  raw.map (fun nbs => dedupAdjacent (sortNat nbs))

/-- The anonymous-namespace helper `compute_mean_edge_length`
(`uv_geodesic.cpp` lines 15-31).  `len` models the Eigen row-difference
norm. -/
def computeMeanEdgeLength (len : Vec3 α → Vec3 α → α) (V : List (Vec3 α))
    (F : List (ℕ × ℕ × ℕ)) : α :=
  if F.length = 0 then 1
  else
    (F.foldl (fun acc t =>
      acc + len (V.getD t.1 ⟨0, 0, 0⟩) (V.getD t.2.1 ⟨0, 0, 0⟩)
          + len (V.getD t.2.1 ⟨0, 0, 0⟩) (V.getD t.2.2 ⟨0, 0, 0⟩)
          + len (V.getD t.2.2 ⟨0, 0, 0⟩) (V.getD t.1 ⟨0, 0, 0⟩)) 0) /
      ((3 * F.length : ℕ) : α)

/-- The external `igl` / Eigen routines used by the solver, as oracles.
`grad` returns the actions of the gradient matrix and of its transpose;
`cholesky` models `SimplicialLLT::compute` plus the `info()` check;
`norm3` models `Eigen::Vector3d::norm`; `len` models the row norm used by
`compute_mean_edge_length`. -/
structure EigenOracles (α : Type) where
  cotmatrix : List (Vec3 α) → List (ℕ × ℕ × ℕ) → LinOp α
  massmatrix : List (Vec3 α) → List (ℕ × ℕ × ℕ) → LinOp α
  grad : List (Vec3 α) → List (ℕ × ℕ × ℕ) → LinOp α × LinOp α
  doublearea : List (Vec3 α) → List (ℕ × ℕ × ℕ) → List α
  cholesky : LinOp α → Option (SolveOp α)
  norm3 : α → α → α → α
  len : Vec3 α → Vec3 α → α

/-- Member state of `HeatGeodesicSolver` (header `uv_geodesic.h`). -/
structure HeatGeodesicSolver (α : Type) where
  Vm : List (Vec3 α)
  Fm : List (ℕ × ℕ × ℕ)
  laplace : LinOp α
  mass : LinOp α
  gradMul : LinOp α
  gradTMul : LinOp α
  heatMatrix : LinOp α
  poissonMatrix : LinOp α
  heatSolve : SolveOp α
  poissonSolve : SolveOp α
  adjacency : List (List ℕ)
  faceAreas : List α
  faceAreaWeights : List α
  timeStep : α
  inited : Bool

/-- `HeatGeodesicSolver::initialize` (`uv_geodesic.cpp` lines 59-108),
modelled as the C++ member-state mutation: the result is the state of the
object when the function returns or throws (`some err`).  The two
argument checks precede every assignment to member state. -/
def initSolver (O : EigenOracles α) (s : HeatGeodesicSolver α)
    (V : List (Vec3 α)) (F : List (ℕ × ℕ × ℕ)) (timeScale : α) :
    HeatGeodesicSolver α × Option GeoErr :=
  if V.length = 0 ∨ F.length = 0 then (s, some .emptyMesh)
  else if timeScale ≤ 0 then (s, some .nonPositiveTime)
  else
    let cotL := O.cotmatrix V F
    let ts := max (1 / 10000000) (timeScale * (computeMeanEdgeLength O.len V F) ^ 2)
    let s₁ : HeatGeodesicSolver α :=
      { s with
        Vm := V
        Fm := F
        laplace := opNeg cotL
        mass := O.massmatrix V F
        timeStep := ts
        heatMatrix := opAdd (O.massmatrix V F) (opSmul ts (opNeg cotL))
        poissonMatrix := opAdd (opNeg cotL)
          (opSmul (1 / 100000000) (O.massmatrix V F)) }
    match O.cholesky s₁.heatMatrix with
    | none => (s₁, some .factorFailed)
    | some hs =>
      let s₂ := { s₁ with heatSolve := hs }
      match O.cholesky s₂.poissonMatrix with
      | none => (s₂, some .factorFailed)
      | some ps =>
        let fa := (O.doublearea V F).map (fun x => (1 / 2) * x)
        ({ s₂ with
          poissonSolve := ps
          gradMul := (O.grad V F).1
          gradTMul := (O.grad V F).2
          faceAreas := fa
          faceAreaWeights := (fa.map (fun a => [a, a, a])).flatten
          adjacency := buildAdjacency F V.length
          inited := true }, none)

/-- The source indicator vector `δ` (`computeDistance`, lines 119-125). -/
def buildDelta (n : ℕ) (sources : List ℕ) : List α :=
  sources.foldl (fun d idx => d.set idx 1) (List.replicate n 0)

/-- Per-face normalization of `-∇u` (`computeDistance`, lines 133-149):
process the stacked gradient three entries at a time; negate, then
normalize to unit length unless the norm is below `1e-12`. -/
def normalizeChunks (norm3 : α → α → α → α) : List α → List α
  | gx :: gy :: gz :: rest =>
      let nx := -gx
      let ny := -gy
      let nz := -gz
      let nrm := norm3 nx ny nz
      (if 1 / 1000000000000 < nrm then [nx / nrm, ny / nrm, nz / nrm]
        else [0, 0, 0]) ++ normalizeChunks norm3 rest
  | _ => []

/-- `phi.minCoeff()`; the empty case cannot occur for an initialized
solver (Eigen asserts on it). -/
def minCoeffD : List α → α
  | [] => 0
  | x :: xs => xs.foldl min x

/-- `HeatGeodesicSolver::computeDistance` (`uv_geodesic.cpp` lines
110-166).  `norm3` models the `Eigen::Vector3d::norm()` call of the
per-face normalization step. -/
def computeDistance (norm3 : α → α → α → α) (s : HeatGeodesicSolver α)
    (sources : List ℕ) : Except GeoErr (List α) :=
  if s.inited = false then .error .notReady
  else if sources.isEmpty then .error .noSources
  else if sources.any (fun idx => s.Vm.length ≤ idx) then .error .sourceOutOfBounds
  else
    let delta : List α := buildDelta s.Vm.length sources
    let heatRhs := s.mass delta
    match s.heatSolve heatRhs with
    | none => .error .solveFailed
    | some u =>
      let gradU := s.gradMul u
      let stackedField := normalizeChunks norm3 gradU
      let weightedField := List.zipWith (· * ·) s.faceAreaWeights stackedField
      let div := (s.gradTMul weightedField).map (fun x => -x)
      match s.poissonSolve div with
      | none => .error .solveFailed
      | some phi =>
        let reference := minCoeffD phi
        .ok (phi.map (fun x => if x - reference < 0 then 0 else x - reference))

/-- Result record `GeodesicPath` (`uv_geodesic.h`). -/
structure GeodesicPath (α : Type) where
  vertex_indices : List ℕ
  polyline : List (Vec3 α)
  length : α
deriving Repr

/-- The neighbor scan of one `tracePath` iteration (`uv_geodesic.cpp`
lines 190-198): fold over the sorted neighbor list, accepting a neighbor
whenever its field value undercuts the running best by more than
`descent_epsilon`. -/
def traceStepNeighbor (d : List α) (eps : α) (cur : ℕ) (nbs : List ℕ) : ℕ :=
  (nbs.foldl (fun acc nb =>
    let value := d.getD nb 0
    if value + eps < acc.1 then (value, nb) else acc)
    (d.getD cur 0, cur)).2

/-- The descent loop of `tracePath` (`uv_geodesic.cpp` lines 187-205):
the fuel is the source's own iteration bound `max_steps = 2n`. -/
def traceWalk (adj : List (List ℕ)) (d : List α) (eps : α) (source : ℕ) :
    ℕ → ℕ → List ℕ → List ℕ
  | 0, _, acc => acc
  | fuel + 1, current, acc =>
      if current = source then acc
      else
        let nxt := traceStepNeighbor d eps current (adj.getD current [])
        if nxt = current then acc
        else traceWalk adj d eps source fuel nxt (acc ++ [nxt])

/-- `HeatGeodesicSolver::tracePath` (`uv_geodesic.cpp` lines 168-221). -/
def tracePath (s : HeatGeodesicSolver α) (distance_field : List α)
    (source target : ℕ) (descent_epsilon : α) :
    Except GeoErr (GeodesicPath α) :=
  if s.inited = false then .error .notReady
  else if distance_field.length ≠ s.Vm.length then .error .fieldSizeMismatch
  else if s.Vm.length ≤ source ∨ s.Vm.length ≤ target then .error .vertexOutOfBounds
  else
    let reversedWalk := traceWalk s.adjacency distance_field descent_epsilon
      source (2 * s.Vm.length) target [target]
    let reversedFull :=
      if reversedWalk.getLast? = some source then reversedWalk
      else reversedWalk ++ [source]
    .ok { vertex_indices := reversedFull.reverse
          polyline := reversedFull.reverse.map (fun v => s.Vm.getD v ⟨0, 0, 0⟩)
          length := distance_field.getD target 0 }

/-- Spec-level accessor: the vertex sequence of a successful trace
(used to state concrete evaluations without binders). -/
def pathVerts (r : Except GeoErr (GeodesicPath α)) : List ℕ :=
  match r with
  | .ok p => p.vertex_indices
  | .error _ => []

/-! ## Claim C10: initialization guards precede mutation -/

/-- C10: `initialize` fails for an empty `V` or `F` or a non-positive
`time_scale`, and both checks happen before any member assignment, so the
entire solver state — in particular `isInitialized()` and every cached
operator — is exactly what it was before the call. -/
theorem C10_init_guards (O : EigenOracles α) (s : HeatGeodesicSolver α)
    (V : List (Vec3 α)) (F : List (ℕ × ℕ × ℕ)) (timeScale : α)
    (h : V.length = 0 ∨ F.length = 0 ∨ timeScale ≤ 0) :
    (initSolver O s V F timeScale).2.isSome ∧
      (initSolver O s V F timeScale).1 = s ∧
      (initSolver O s V F timeScale).1.inited = s.inited := by
  have hmain : (initSolver O s V F timeScale).2.isSome ∧
      (initSolver O s V F timeScale).1 = s := by
    unfold initSolver
    rcases h with h | h | h
    · rw [if_pos (Or.inl h)]
      exact ⟨rfl, rfl⟩
    · rw [if_pos (Or.inr h)]
      exact ⟨rfl, rfl⟩
    · by_cases hVF : V.length = 0 ∨ F.length = 0
      · rw [if_pos hVF]
        exact ⟨rfl, rfl⟩
      · rw [if_neg hVF, if_pos h]
        exact ⟨rfl, rfl⟩
  exact ⟨hmain.1, hmain.2, by rw [hmain.2]⟩

/-- Concrete oracle instance for witnesses (taxicab norms, identity
operators, always-successful factorization). -/
def trivOracles : EigenOracles ℚ :=
  { cotmatrix := fun _ _ => fun v => v
    massmatrix := fun _ _ => fun v => v
    grad := fun _ _ => (fun v => v, fun v => v)
    doublearea := fun _ _ => []
    cholesky := fun A => some (fun v => some (A v))
    norm3 := fun x y z => |x| + |y| + |z|
    len := distL1 }

/-- A default-constructed solver. -/
def blankSolver : HeatGeodesicSolver ℚ :=
  { Vm := []
    Fm := []
    laplace := fun _ => []
    mass := fun _ => []
    gradMul := fun _ => []
    gradTMul := fun _ => []
    heatMatrix := fun _ => []
    poissonMatrix := fun _ => []
    heatSolve := fun _ => none
    poissonSolve := fun _ => none
    adjacency := []
    faceAreas := []
    faceAreaWeights := []
    timeStep := 0
    inited := false }

/-- Witness for `C10_init_guards`: initializing a fresh solver with
`time_scale = 0` fails and leaves the solver untouched. -/
theorem C10_init_guards_witness :
    (initSolver trivOracles blankSolver [⟨0, 0, 0⟩] [(0, 0, 0)] 0).2.isSome ∧
      (initSolver trivOracles blankSolver [⟨0, 0, 0⟩] [(0, 0, 0)] 0).1 = blankSolver ∧
      (initSolver trivOracles blankSolver [⟨0, 0, 0⟩] [(0, 0, 0)] 0).1.inited = blankSolver.inited :=
  C10_init_guards trivOracles blankSolver [⟨0, 0, 0⟩] [(0, 0, 0)] 0
    (Or.inr (Or.inr (le_refl 0)))

/-! ## Claim C2: the distance field after shift and clamp -/

theorem foldl_min_mem (x : α) : ∀ (l : List α), l.foldl min x ∈ x :: l
  | [] => List.mem_singleton_self x
  | a :: l => by
    rw [List.foldl_cons]
    rcases List.mem_cons.mp (foldl_min_mem (min x a) l) with h | h
    · rw [h]
      rcases min_choice x a with hm | hm <;> rw [hm]
      · exact List.mem_cons_self _ _
      · exact List.mem_cons_of_mem _ (List.mem_cons_self _ _)
    · exact List.mem_cons_of_mem _ (List.mem_cons_of_mem _ h)

theorem minCoeffD_mem {l : List α} (h : l ≠ []) : minCoeffD l ∈ l := by
  cases l with
  | nil => exact absurd rfl h
  | cons x xs => exact foldl_min_mem x xs

/-- C2 (amended): when `computeDistance` succeeds, the returned field has
only non-negative entries and contains an exact zero — at the argmin of
the Poisson solution `φ`, which is where the affine shift
`φ − min(φ)` lands; no entry in general vanishes at a requested source. -/
theorem C2_distance_shift_clamp (norm3 : α → α → α → α)
    (s : HeatGeodesicSolver α) (sources : List ℕ) (d : List α)
    (hps : ∀ v w, s.poissonSolve v = some w → w ≠ [])
    (hres : computeDistance norm3 s sources = .ok d) :
    (∀ x ∈ d, 0 ≤ x) ∧ (0 : α) ∈ d := by
  unfold computeDistance at hres
  split_ifs at hres
  simp only [] at hres
  split at hres
  next => exact absurd hres (by simp)
  next u hu =>
  split at hres
  next => exact absurd hres (by simp)
  next phi hphi =>
  simp only [Except.ok.injEq] at hres
  subst hres
  have hne : phi ≠ [] := hps _ _ hphi
  constructor
  · intro x hx
    obtain ⟨y, -, rfl⟩ := List.mem_map.mp hx
    split_ifs with hy
    · exact le_refl 0
    · linarith [not_lt.mp hy]
  · refine List.mem_map.mpr ⟨minCoeffD phi, minCoeffD_mem hne, ?_⟩
    rw [if_neg (by simp)]
    exact sub_self _

/-- The concrete two-vertex solver used by the C2 evaluations: the mass
operator is the identity and the Poisson oracle returns `φ = [1, 0]`. -/
def solverC2 : HeatGeodesicSolver ℚ :=
  { Vm := [⟨0, 0, 0⟩, ⟨1, 0, 0⟩]
    Fm := [(0, 1, 0)]
    laplace := fun _ => []
    mass := fun v => v
    gradMul := fun _ => []
    gradTMul := fun _ => []
    heatMatrix := fun _ => []
    poissonMatrix := fun _ => []
    heatSolve := fun _ => some []
    poissonSolve := fun _ => some [1, 0]
    adjacency := []
    faceAreas := []
    faceAreaWeights := []
    timeStep := 0
    inited := true }

/-- Witness for `C2_distance_shift_clamp` at `solverC2` with `S = [0]`. -/
theorem C2_distance_shift_clamp_witness :
    (∀ x ∈ [(1 : ℚ), 0], 0 ≤ x) ∧ (0 : ℚ) ∈ [(1 : ℚ), 0] :=
  C2_distance_shift_clamp (fun x y z => |x| + |y| + |z|) solverC2 [0] [1, 0]
    (fun v w hw => by
      simp only [solverC2, Option.some.injEq] at hw
      rw [← hw]
      simp)
    (by norm_num [computeDistance, buildDelta, normalizeChunks, minCoeffD,
      solverC2])

/-- C2 (counterexample): the original claim — the minimum of the returned
field is attained at some requested source — is false.  With the Poisson
solution `φ = [1, 0]` and source set `S = {0}`, the returned field is
`[1, 0]`: its minimum `0` is attained only at vertex `1 ∉ S`, while the
entry at the requested source is `1 ≠ 0`. -/
theorem C2_counterexample :
    computeDistance (fun x y z => |x| + |y| + |z|) solverC2 [0] = .ok [1, 0] ∧
      ∀ i ∈ [(0 : ℕ)], [(1 : ℚ), 0].getD i 0 ≠ 0 := by
  constructor
  · norm_num [computeDistance, buildDelta, normalizeChunks, minCoeffD, solverC2]
  · intro i hi
    rw [List.mem_singleton] at hi
    subst hi
    norm_num

/-! ## Claims C3/C4: the greedy descent walk -/

/-- One accepted step of the neighbor scan, as the claim describes it:
the next vertex is a neighbor of the current one, undercuts it by more
than `descent_epsilon`, and is exactly what the sequential scan picked. -/
def walkRel (adj : List (List ℕ)) (d : List α) (eps : α) (c nxt : ℕ) : Prop :=
  nxt ∈ adj.getD c [] ∧ d.getD nxt 0 + eps < d.getD c 0 ∧
    nxt = traceStepNeighbor d eps c (adj.getD c [])

theorem traceFold_spec (d : List α) (eps : α) (cur : ℕ) (heps : 0 ≤ eps) :
    ∀ (nbs : List ℕ) (acc : α × ℕ),
      (nbs.foldl (fun acc nb =>
        let value := d.getD nb 0
        if value + eps < acc.1 then (value, nb) else acc) acc) = acc ∨
      ((nbs.foldl (fun acc nb =>
        let value := d.getD nb 0
        if value + eps < acc.1 then (value, nb) else acc) acc).2 ∈ nbs ∧
       (nbs.foldl (fun acc nb =>
        let value := d.getD nb 0
        if value + eps < acc.1 then (value, nb) else acc) acc).1 =
          d.getD (nbs.foldl (fun acc nb =>
        let value := d.getD nb 0
        if value + eps < acc.1 then (value, nb) else acc) acc).2 0 ∧
       (nbs.foldl (fun acc nb =>
        let value := d.getD nb 0
        if value + eps < acc.1 then (value, nb) else acc) acc).1 + eps < acc.1)
  | [], acc => Or.inl rfl
  | nb :: rest, acc => by
    rw [List.foldl_cons]
    by_cases hcond : d.getD nb 0 + eps < acc.1
    · rw [show (if d.getD nb 0 + eps < acc.1 then (d.getD nb 0, nb) else acc) =
        (d.getD nb 0, nb) from if_pos hcond]
      rcases traceFold_spec d eps cur heps rest (d.getD nb 0, nb) with h | ⟨h1, h2, h3⟩
      · rw [h]
        exact Or.inr ⟨List.mem_cons_self _ _, rfl, hcond⟩
      · refine Or.inr ⟨List.mem_cons_of_mem _ h1, h2, ?_⟩
        have : d.getD nb 0 ≤ acc.1 := le_of_lt (lt_of_le_of_lt (le_add_of_nonneg_right heps) hcond)
        linarith
    · rw [show (if d.getD nb 0 + eps < acc.1 then (d.getD nb 0, nb) else acc) =
        acc from if_neg hcond]
      rcases traceFold_spec d eps cur heps rest acc with h | ⟨h1, h2, h3⟩
      · exact Or.inl h
      · exact Or.inr ⟨List.mem_cons_of_mem _ h1, h2, h3⟩

/-- If the scan moved, it moved to a qualifying neighbor that the
sequential scan selected. -/
theorem traceStepNeighbor_spec (d : List α) (eps : α) (cur : ℕ) (nbs : List ℕ)
    (heps : 0 ≤ eps) :
    traceStepNeighbor d eps cur nbs = cur ∨
      (traceStepNeighbor d eps cur nbs ∈ nbs ∧
        d.getD (traceStepNeighbor d eps cur nbs) 0 + eps < d.getD cur 0) := by
  rcases traceFold_spec d eps cur heps nbs (d.getD cur 0, cur) with h | ⟨h1, h2, h3⟩
  · unfold traceStepNeighbor
    rw [h]
    exact Or.inl rfl
  · unfold traceStepNeighbor
    exact Or.inr ⟨h1, h2 ▸ h3⟩

theorem traceFold_no_qualify (d : List α) (eps : α) (cur : ℕ) :
    ∀ (nbs : List ℕ), (∀ nb ∈ nbs, ¬(d.getD nb 0 + eps < d.getD cur 0)) →
      (nbs.foldl (fun acc nb =>
        let value := d.getD nb 0
        if value + eps < acc.1 then (value, nb) else acc) (d.getD cur 0, cur)) =
        (d.getD cur 0, cur)
  | [], _ => rfl
  | nb :: rest, h => by
    rw [List.foldl_cons,
      show (if d.getD nb 0 + eps < d.getD cur 0 then (d.getD nb 0, nb)
        else (d.getD cur 0, cur)) = (d.getD cur 0, cur) from
        if_neg (h nb (List.mem_cons_self _ _))]
    exact traceFold_no_qualify d eps cur rest
      (fun nb hnb => h nb (List.mem_cons_of_mem _ hnb))

/-- When the scan stays put, no neighbor qualifies against the current
vertex (the converse of the stop condition; needs `0 ≤ eps`). -/
theorem traceStepNeighbor_stop (d : List α) (eps : α) (cur : ℕ) (nbs : List ℕ)
    (heps : 0 ≤ eps) (hstop : traceStepNeighbor d eps cur nbs = cur) :
    ∀ nb ∈ nbs, ¬(d.getD nb 0 + eps < d.getD cur 0) := by
  have main : ∀ (l : List ℕ) (acc : α × ℕ), acc.1 ≤ d.getD cur 0 →
      (l.foldl (fun acc nb =>
        let value := d.getD nb 0
        if value + eps < acc.1 then (value, nb) else acc) acc).2 = cur →
      acc.2 = cur ∧ ∀ nb ∈ l, ¬(d.getD nb 0 + eps < acc.1) := by
    intro l
    induction l with
    | nil =>
      intro acc _ hres
      exact ⟨hres, by intro nb hnb; exact absurd hnb (List.not_mem_nil nb)⟩
    | cons x rest ih =>
      intro acc hle hres
      rw [List.foldl_cons] at hres
      by_cases hcond : d.getD x 0 + eps < acc.1
      · rw [show (if d.getD x 0 + eps < acc.1 then (d.getD x 0, x) else acc) =
          (d.getD x 0, x) from if_pos hcond] at hres
        have hlt : d.getD x 0 ≤ d.getD cur 0 := by
          calc d.getD x 0 ≤ d.getD x 0 + eps := le_add_of_nonneg_right heps
            _ ≤ acc.1 := le_of_lt hcond
            _ ≤ d.getD cur 0 := hle
        obtain ⟨hx, -⟩ := ih (d.getD x 0, x) hlt hres
        simp only at hx
        subst hx
        exact absurd hcond (by simp only [not_lt]; linarith)
      · rw [show (if d.getD x 0 + eps < acc.1 then (d.getD x 0, x) else acc) =
          acc from if_neg hcond] at hres
        obtain ⟨h1, h2⟩ := ih acc hle hres
        refine ⟨h1, ?_⟩
        intro nb hnb
        rcases List.mem_cons.mp hnb with h | h
        · subst h
          exact hcond
        · exact h2 nb h
  unfold traceStepNeighbor at hstop
  exact (main nbs (d.getD cur 0, cur) (le_refl _) hstop).2

/-- Termination measure of the descent walk: the number of vertices whose
field value is strictly below the current one. -/
def descMeasure (d : List α) (n c : ℕ) : ℕ :=
  ((Finset.range n).filter (fun j => d.getD j 0 < d.getD c 0)).card

theorem descMeasure_lt (d : List α) (n : ℕ) {cur nxt : ℕ} (hn : nxt < n)
    (hd : d.getD nxt 0 < d.getD cur 0) :
    descMeasure d n nxt < descMeasure d n cur := by
  apply Finset.card_lt_card
  constructor
  · intro j hj
    rw [Finset.mem_filter] at hj ⊢
    exact ⟨hj.1, lt_trans hj.2 hd⟩
  · intro hsub
    have hmem : nxt ∈ (Finset.range n).filter (fun j => d.getD j 0 < d.getD cur 0) :=
      Finset.mem_filter.mpr ⟨Finset.mem_range.mpr hn, hd⟩
    have := Finset.mem_filter.mp (hsub hmem)
    exact absurd this.2 (lt_irrefl _)

theorem descMeasure_le (d : List α) (n c : ℕ) : descMeasure d n c ≤ n := by
  calc descMeasure d n c ≤ (Finset.range n).card := Finset.card_filter_le _ _
    _ = n := Finset.card_range n

/-- Full characterization of the descent walk: every step obeys the scan
relation, and with enough fuel the walk ends at `source` or at a vertex
with no neighbor more than `descent_epsilon` below it. -/
theorem traceWalk_spec (adj : List (List ℕ)) (d : List α) (eps : α)
    (source n : ℕ) (heps : 0 ≤ eps)
    (hadj : ∀ u, ∀ v ∈ adj.getD u [], v < n) :
    ∀ (fuel current : ℕ) (acc : List ℕ), current < n →
      descMeasure d n current < fuel →
      acc.getLast? = some current →
      List.Chain' (walkRel adj d eps) acc →
      List.Chain' (walkRel adj d eps) (traceWalk adj d eps source fuel current acc) ∧
      ∃ z, (traceWalk adj d eps source fuel current acc).getLast? = some z ∧
        (z = source ∨ ∀ nb ∈ adj.getD z [], ¬(d.getD nb 0 + eps < d.getD z 0))
  | 0, current, acc, _, hfuel, _, _ => absurd hfuel (Nat.not_lt_zero _)
  | fuel + 1, current, acc, hcur, hfuel, hlast, hchain => by
    rw [show traceWalk adj d eps source (fuel + 1) current acc =
      if current = source then acc
      else
        let nxt := traceStepNeighbor d eps current (adj.getD current [])
        if nxt = current then acc
        else traceWalk adj d eps source fuel nxt (acc ++ [nxt]) from rfl]
    by_cases hsrc : current = source
    · rw [if_pos hsrc]
      exact ⟨hchain, current, hlast, Or.inl hsrc⟩
    rw [if_neg hsrc]
    simp only []
    by_cases hstay : traceStepNeighbor d eps current (adj.getD current []) = current
    · rw [if_pos hstay]
      exact ⟨hchain, current, hlast,
        Or.inr (traceStepNeighbor_stop d eps current _ heps hstay)⟩
    rw [if_neg hstay]
    set nxt := traceStepNeighbor d eps current (adj.getD current []) with hnxt
    have hqual : nxt ∈ adj.getD current [] ∧
        d.getD nxt 0 + eps < d.getD current 0 :=
      (traceStepNeighbor_spec d eps current _ heps).resolve_left hstay
    have hrel : walkRel adj d eps current nxt := ⟨hqual.1, hqual.2, hnxt⟩
    have hnlt : nxt < n := hadj current nxt hqual.1
    have hdlt : d.getD nxt 0 < d.getD current 0 :=
      lt_of_le_of_lt (le_add_of_nonneg_right heps) hqual.2
    have hm : descMeasure d n nxt < fuel :=
      lt_of_lt_of_le (descMeasure_lt d n hnlt hdlt) (Nat.lt_succ_iff.mp hfuel)
    refine traceWalk_spec adj d eps source n heps hadj fuel nxt (acc ++ [nxt])
      hnlt hm (by simp) ?_
    rw [List.chain'_append]
    refine ⟨hchain, List.chain'_singleton _, ?_⟩
    intro x hx y hy
    rw [hlast] at hx
    simp only [Option.mem_def, Option.some.injEq] at hx
    simp only [List.head?_cons, Option.mem_def, Option.some.injEq] at hy
    subst hx
    subst hy
    exact hrel

theorem traceWalk_ne (adj : List (List ℕ)) (d : List α) (eps : α) (source : ℕ) :
    ∀ (fuel current : ℕ) (acc : List ℕ), acc ≠ [] →
      acc.getLast? = some current →
      List.Chain' (fun a b => a ≠ b) acc →
      traceWalk adj d eps source fuel current acc ≠ [] ∧
        List.Chain' (fun a b => a ≠ b) (traceWalk adj d eps source fuel current acc)
  | 0, current, acc, hne, _, hchain => ⟨hne, hchain⟩
  | fuel + 1, current, acc, hne, hlast, hchain => by
    rw [show traceWalk adj d eps source (fuel + 1) current acc =
      if current = source then acc
      else
        let nxt := traceStepNeighbor d eps current (adj.getD current [])
        if nxt = current then acc
        else traceWalk adj d eps source fuel nxt (acc ++ [nxt]) from rfl]
    by_cases hsrc : current = source
    · rw [if_pos hsrc]
      exact ⟨hne, hchain⟩
    rw [if_neg hsrc]
    simp only []
    by_cases hstay : traceStepNeighbor d eps current (adj.getD current []) = current
    · rw [if_pos hstay]
      exact ⟨hne, hchain⟩
    rw [if_neg hstay]
    refine traceWalk_ne adj d eps source fuel _ (acc ++ [_]) (by simp) (by simp) ?_
    rw [List.chain'_append]
    refine ⟨hchain, List.chain'_singleton _, ?_⟩
    intro x hx y hy
    rw [hlast] at hx
    simp only [Option.mem_def, Option.some.injEq] at hx
    simp only [List.head?_cons, Option.mem_def, Option.some.injEq] at hy
    subst hx
    subst hy
    exact fun hc => hstay hc.symm

/-- C4 (amended / negation of the original claim): `tracePath` appends
`source` to the walk only when the walk did not reach it; consequently the
returned vertex sequence always starts with `source` and never contains
the same vertex — in particular the source — twice in a row. -/
theorem C4_trace_no_duplicate_source (s : HeatGeodesicSolver α) (d : List α)
    (source target : ℕ) (eps : α) (p : GeodesicPath α)
    (hres : tracePath s d source target eps = .ok p) :
    p.vertex_indices.head? = some source ∧
      List.Chain' (fun a b => a ≠ b) p.vertex_indices := by
  unfold tracePath at hres
  split_ifs at hres
  simp only [Except.ok.injEq] at hres
  subst hres
  simp only []
  obtain ⟨hwne, hwchain⟩ := traceWalk_ne s.adjacency d eps source
    (2 * s.Vm.length) target [target] (by simp) (by simp)
    (List.chain'_singleton _)
  set w := traceWalk s.adjacency d eps source (2 * s.Vm.length) target [target]
    with hw
  by_cases hend : w.getLast? = some source
  · rw [if_pos hend]
    constructor
    · rw [List.head?_reverse]
      exact hend
    · rw [List.chain'_reverse]
      exact hwchain.imp (fun a b h => Ne.symm h)
  · rw [if_neg hend]
    constructor
    · rw [List.head?_reverse]
      simp
    · rw [List.chain'_reverse]
      refine List.Chain'.imp (fun a b h => Ne.symm h) ?_
      rw [List.chain'_append]
      refine ⟨hwchain, List.chain'_singleton _, ?_⟩
      intro x hx y hy
      simp only [List.head?_cons, Option.mem_def, Option.some.injEq] at hy
      subst hy
      intro hc
      subst hc
      exact hend (by rwa [Option.mem_def] at hx)

/-- The concrete single-triangle solver used by the C3/C4 evaluations:
three vertices with `adjacency_` built by `build_adjacency` from the face
`(0,1,2)`. -/
def solverTri : HeatGeodesicSolver ℚ :=
  { Vm := [⟨0, 0, 0⟩, ⟨1, 0, 0⟩, ⟨0, 1, 0⟩]
    Fm := [(0, 1, 2)]
    laplace := fun _ => []
    mass := fun v => v
    gradMul := fun _ => []
    gradTMul := fun _ => []
    heatMatrix := fun _ => []
    poissonMatrix := fun _ => []
    heatSolve := fun _ => some []
    poissonSolve := fun _ => some []
    adjacency := buildAdjacency [(0, 1, 2)] 3
    faceAreas := []
    faceAreaWeights := []
    timeStep := 0
    inited := true }

/-- C4 (counterexample to the original claim): in the very scenario the
claim describes — the walk reaches `source` — no duplicate is produced:
with field `[0, 1, 2]`, `source = 0`, `target = 2` the walk `[2, 0]`
already ends at the source, nothing is appended, and the returned
sequence is `[0, 2]` with the source exactly once at its head. -/
theorem C4_counterexample :
    pathVerts (tracePath solverTri [0, 1, 2] 0 2 (1 / 1000000)) = [0, 2] := by
  norm_num [pathVerts, tracePath, solverTri, traceWalk, traceStepNeighbor,
    buildAdjacency, adjPushN, sortNat, insertSorted, dedupAdjacent]

/-- Witness for `C4_trace_no_duplicate_source` at the `solverTri`
scenario. -/
theorem C4_trace_no_duplicate_source_witness :
    (pathVerts (tracePath solverTri [0, 1, 2] 0 2 (1 / 1000000))).head? = some 0 ∧
      List.Chain' (fun a b => a ≠ b)
        (pathVerts (tracePath solverTri [0, 1, 2] 0 2 (1 / 1000000))) := by
  have hrun : ∃ p, tracePath solverTri [0, 1, 2] 0 2 (1 / 1000000) = .ok p := by
    unfold tracePath
    rw [if_neg (by norm_num [solverTri]), if_neg (by norm_num [solverTri]),
      if_neg (by norm_num [solverTri])]
    exact ⟨_, rfl⟩
  obtain ⟨p, hp⟩ := hrun
  have := C4_trace_no_duplicate_source solverTri [0, 1, 2] 0 2 (1 / 1000000) p hp
  rw [show pathVerts (tracePath solverTri [0, 1, 2] 0 2 (1 / 1000000)) =
    p.vertex_indices from by rw [hp]; rfl]
  exact this

/-- C3 (amended): at every iteration of the walk in `tracePath`, the
vertex stepped to is a neighbor of the current vertex whose field value is
below the current one by more than `descent_epsilon` — namely the vertex
selected by the left-to-right scan of the sorted neighbor list, which
accepts a neighbor whenever it undercuts the running best by more than
`descent_epsilon` (not necessarily the minimum-qualifying neighbor) — and
the walk stops at the current vertex exactly when no neighbor is below it
by more than `descent_epsilon` (unless it reached `source`). -/
theorem C3_trace_walk_steps (s : HeatGeodesicSolver α) (d : List α)
    (source target : ℕ) (eps : α) (p : GeodesicPath α)
    (heps : 0 ≤ eps)
    (hadj : ∀ u, ∀ v ∈ s.adjacency.getD u [], v < s.Vm.length)
    (hres : tracePath s d source target eps = .ok p) :
    List.Chain' (walkRel s.adjacency d eps)
      (traceWalk s.adjacency d eps source (2 * s.Vm.length) target [target]) ∧
    (∃ z, (traceWalk s.adjacency d eps source (2 * s.Vm.length) target
        [target]).getLast? = some z ∧
      (z = source ∨ ∀ nb ∈ s.adjacency.getD z [],
        ¬(d.getD nb 0 + eps < d.getD z 0))) ∧
    p.vertex_indices =
      (if (traceWalk s.adjacency d eps source (2 * s.Vm.length) target
          [target]).getLast? = some source then
        traceWalk s.adjacency d eps source (2 * s.Vm.length) target [target]
      else traceWalk s.adjacency d eps source (2 * s.Vm.length) target
        [target] ++ [source]).reverse := by
  unfold tracePath at hres
  split_ifs at hres with h1 h2 h3
  have htar : target < s.Vm.length := by
    push_neg at h3
    exact h3.2
  have hfuel : descMeasure d s.Vm.length target < 2 * s.Vm.length := by
    have h₁ := descMeasure_le d s.Vm.length target
    omega
  obtain ⟨hchain, z, hz, hstop⟩ := traceWalk_spec s.adjacency d eps source
    s.Vm.length heps hadj (2 * s.Vm.length) target [target] htar hfuel
    (by simp) (List.chain'_singleton _)
  refine ⟨hchain, ⟨z, hz, hstop⟩, ?_⟩
  simp only [Except.ok.injEq] at hres
  subst hres
  rfl

/-- Witness for `C3_trace_walk_steps` on `solverTri` with field
`[0, 1, 2]`, tracing from `target = 2` to `source = 0`. -/
theorem C3_trace_walk_steps_witness :
    List.Chain' (walkRel solverTri.adjacency ([0, 1, 2] : List ℚ) (1 / 1000000))
      (traceWalk solverTri.adjacency ([0, 1, 2] : List ℚ) (1 / 1000000) 0
        (2 * solverTri.Vm.length) 2 [2]) ∧
    (∃ z, (traceWalk solverTri.adjacency ([0, 1, 2] : List ℚ) (1 / 1000000) 0
        (2 * solverTri.Vm.length) 2 [2]).getLast? = some z ∧
      (z = 0 ∨ ∀ nb ∈ solverTri.adjacency.getD z [],
        ¬(([0, 1, 2] : List ℚ).getD nb 0 + 1 / 1000000 <
          ([0, 1, 2] : List ℚ).getD z 0))) ∧
    (pathVerts (tracePath solverTri ([0, 1, 2] : List ℚ) 0 2 (1 / 1000000))) =
      (if (traceWalk solverTri.adjacency ([0, 1, 2] : List ℚ) (1 / 1000000) 0
          (2 * solverTri.Vm.length) 2 [2]).getLast? = some 0 then
        traceWalk solverTri.adjacency ([0, 1, 2] : List ℚ) (1 / 1000000) 0
          (2 * solverTri.Vm.length) 2 [2]
      else traceWalk solverTri.adjacency ([0, 1, 2] : List ℚ) (1 / 1000000) 0
        (2 * solverTri.Vm.length) 2 [2] ++ [0]).reverse := by
  have hrun : ∃ p, tracePath solverTri ([0, 1, 2] : List ℚ) 0 2 (1 / 1000000) =
      .ok p := by
    unfold tracePath
    rw [if_neg (by norm_num [solverTri]), if_neg (by norm_num [solverTri]),
      if_neg (by norm_num [solverTri])]
    exact ⟨_, rfl⟩
  obtain ⟨p, hp⟩ := hrun
  have hmain := C3_trace_walk_steps solverTri ([0, 1, 2] : List ℚ) 0 2
    (1 / 1000000) p (by norm_num)
    (by
      intro u v hv
      have hadjval : solverTri.adjacency = [[1, 2], [0, 2], [0, 1]] := by decide
      have hlen : solverTri.Vm.length = 3 := rfl
      rw [hadjval] at hv
      rw [hlen]
      rcases u with - | - | - | u
      · simp only [List.getD] at hv
        simp at hv
        rcases hv with rfl | rfl <;> omega
      · simp only [List.getD] at hv
        simp at hv
        rcases hv with rfl | rfl <;> omega
      · simp only [List.getD] at hv
        simp at hv
        rcases hv with rfl | rfl <;> omega
      · simp [List.getD] at hv)
    hp
  refine ⟨hmain.1, hmain.2.1, ?_⟩
  rw [show pathVerts (tracePath solverTri ([0, 1, 2] : List ℚ) 0 2 (1 / 1000000)) =
    p.vertex_indices from by rw [hp]; rfl]
  exact hmain.2.2

/-- C3 (counterexample to the original claim): the walk steps to the
first sequentially-accepted neighbor, not to the smallest qualifying one.
On `solverTri` with field `[10, 8, 15/2]`, `descent_epsilon = 1`,
`target = 0`: neighbor `1` (value `8`) is accepted first, after which
neighbor `2` (value `15/2`) no longer undercuts the running best `8` by
more than `1` — although `2` qualifies against the current vertex
(`15/2 + 1 < 10`) and has the smallest value (`15/2 < 8`).  The claim
requires the step `0 → 2`; the code walks `0 → 1` and returns `[2,1,0]`. -/
theorem C3_counterexample :
    pathVerts (tracePath solverTri [10, 8, 15/2] 2 0 1) = [2, 1, 0] ∧
      (2 : ℕ) ∈ solverTri.adjacency.getD 0 [] ∧
      (15 / 2 : ℚ) + 1 < 10 ∧ (15 / 2 : ℚ) < 8 := by
  refine ⟨?_, ?_, by norm_num, by norm_num⟩
  · norm_num [pathVerts, tracePath, solverTri, traceWalk, traceStepNeighbor,
      buildAdjacency, adjPushN, sortNat, insertSorted, dedupAdjacent]
  · norm_num [solverTri, buildAdjacency, adjPushN, sortNat, insertSorted,
      dedupAdjacent]

/-! ## Claim C8: `resampleByArcLength` (`types.ts` lines 293-350) -/

/-- `THREE.Vector3.lerpVectors a b t = a + (b - a) * t`. -/
def lerpV (a b : Vec3 α) (t : α) : Vec3 α :=
  ⟨a.x + (b.x - a.x) * t, a.y + (b.y - a.y) * t, a.z + (b.z - a.z) * t⟩

/-- The consecutive segments of the polyline with their lengths
(`types.ts` lines 297-303; the code measures `points[i].distanceTo
(points[i-1])`). -/
def segsOf (len : Vec3 α → Vec3 α → α) (points : List (Vec3 α)) :
    List (Vec3 α × Vec3 α × α) :=
  (points.zip points.tail).map (fun ab => (ab.1, ab.2, len ab.2 ab.1))

/-- Total arc length (the left-to-right accumulation of the source
computes the same exact value). -/
def totalLen (len : Vec3 α → Vec3 α → α) (points : List (Vec3 α)) : α :=
  ((segsOf len points).map (fun s => s.2.2)).sum

/-- The inner sampling loop over one segment (`types.ts` lines 322-332):
emit interpolated samples while the running arc-length target stays
within the segment and the sample budget is not exhausted.  The loop
executes at most `numSamples - result.length` iterations, so the fuel
`numSamples + 1` is never the reason it stops. -/
def resampleSeg (pA pB : Vec3 α) (segStart segLen sampleSpacing : α)
    (numSamples : ℕ) : ℕ → α → List (Vec3 α) → α × List (Vec3 α)
  | 0, targetLength, result => (targetLength, result)
  | fuel + 1, targetLength, result =>
      if targetLength ≤ segStart + segLen ∧ result.length < numSamples then
        resampleSeg pA pB segStart segLen sampleSpacing numSamples fuel
          (targetLength + sampleSpacing)
          (result ++ [lerpV pA pB ((targetLength - segStart) / segLen)])
      else (targetLength, result)

/-- The outer segment loop (`types.ts` lines 319-336). -/
def resampleLoop (sampleSpacing : α) (numSamples : ℕ) :
    List (Vec3 α × Vec3 α × α) → α → α → List (Vec3 α) → List (Vec3 α)
  | [], _, _, result => result
  | (pA, pB, segLen) :: rest, segStart, targetLength, result =>
      if result.length < numSamples then
        let r := resampleSeg pA pB segStart segLen sampleSpacing numSamples
          (numSamples + 1) targetLength result
        resampleLoop sampleSpacing numSamples rest (segStart + segLen) r.1 r.2
      else result

/-- `MeshGraphBuilder.resampleByArcLength` (`types.ts` lines 293-350).
`len` models `distanceTo`; `avgEdgeLength` supplies the default spacing
`avgEdgeLength * 2`. -/
def resampleByArcLength [FloorRing α] (len : Vec3 α → Vec3 α → α)
    (avgEdgeLength : α) (points : List (Vec3 α)) (spacing : Option α) :
    List (Vec3 α) :=
  if points.length < 2 then points
  else
    let total := totalLen len points
    if total < 1 / 1000000 then [points.getD 0 ⟨0, 0, 0⟩]
    else
      let targetSpacing := spacing.getD (avgEdgeLength * 2)
      let numSamples := (max 2 (⌈total / targetSpacing⌉ + 1)).toNat
      let sampleSpacing := total / ((numSamples : α) - 1)
      let result := resampleLoop sampleSpacing numSamples (segsOf len points)
        0 sampleSpacing [points.getD 0 ⟨0, 0, 0⟩]
      let endPoint := points.getD (points.length - 1) ⟨0, 0, 0⟩
      match result.getLast? with
      | none => result
      | some lastPoint =>
          if sampleSpacing * (1 / 10) < len lastPoint endPoint then
            result ++ [endPoint]
          else result.dropLast ++ [endPoint]

/-- C8 (counterexample): the original claim fails for a degenerate
polyline.  Two coincident points have total arc length `0 < 1e-6`, so the
early return yields the single-point list `[points[0]]`, not a polyline
with at least two points. -/
theorem C8_counterexample :
    (resampleByArcLength distL1 1 [⟨0, 0, 0⟩, ⟨0, 0, 0⟩] none).length = 1 := by
  norm_num [resampleByArcLength, totalLen, segsOf, distL1]

theorem resampleSeg_spec (pA pB : Vec3 α) (segStart segLen sampleSpacing : α)
    (numSamples : ℕ) :
    ∀ (fuel : ℕ) (tl : α) (res : List (Vec3 α)), res ≠ [] →
      numSamples + 1 ≤ res.length + fuel →
      (resampleSeg pA pB segStart segLen sampleSpacing numSamples fuel tl res).2 ≠ [] ∧
      (resampleSeg pA pB segStart segLen sampleSpacing numSamples fuel tl res).2.head? =
        res.head? ∧
      res.length ≤ (resampleSeg pA pB segStart segLen sampleSpacing numSamples fuel tl res).2.length ∧
      ((resampleSeg pA pB segStart segLen sampleSpacing numSamples fuel tl res) = (tl, res) ∧
        ¬(tl ≤ segStart + segLen ∧ res.length < numSamples) ∨
       res.length < (resampleSeg pA pB segStart segLen sampleSpacing numSamples fuel tl res).2.length)
  | 0, tl, res, hne, hfuel => by
    refine ⟨hne, rfl, le_refl _, Or.inl ⟨rfl, ?_⟩⟩
    rintro ⟨-, hlt⟩
    omega
  | fuel + 1, tl, res, hne, hfuel => by
    rw [show resampleSeg pA pB segStart segLen sampleSpacing numSamples (fuel + 1) tl res =
      if tl ≤ segStart + segLen ∧ res.length < numSamples then
        resampleSeg pA pB segStart segLen sampleSpacing numSamples fuel
          (tl + sampleSpacing)
          (res ++ [lerpV pA pB ((tl - segStart) / segLen)])
      else (tl, res) from rfl]
    by_cases hcond : tl ≤ segStart + segLen ∧ res.length < numSamples
    · rw [if_pos hcond]
      have hres' : res ++ [lerpV pA pB ((tl - segStart) / segLen)] ≠ [] := by simp
      have hfuel' : numSamples + 1 ≤
          (res ++ [lerpV pA pB ((tl - segStart) / segLen)]).length + fuel := by
        simp only [List.length_append, List.length_singleton]
        omega
      obtain ⟨h1, h2, h3, h4⟩ := resampleSeg_spec pA pB segStart segLen
        sampleSpacing numSamples fuel (tl + sampleSpacing)
        (res ++ [lerpV pA pB ((tl - segStart) / segLen)]) hres' hfuel'
      refine ⟨h1, ?_, ?_, Or.inr ?_⟩
      · rw [h2]
        obtain ⟨a, t, rfl⟩ := List.exists_cons_of_ne_nil hne
        rfl
      · exact le_trans (by simp) h3
      · exact lt_of_lt_of_le (by simp) h3
    · rw [if_neg hcond]
      exact ⟨hne, rfl, le_refl _, Or.inl ⟨rfl, hcond⟩⟩

theorem resampleLoop_spec (p0 : Vec3 α) (sampleSpacing : α) (numSamples : ℕ)
    (hns : 2 ≤ numSamples) :
    ∀ (segs : List (Vec3 α × Vec3 α × α)) (segStart tl : α) (res : List (Vec3 α)),
      res ≠ [] → res.head? = some p0 →
      resampleLoop sampleSpacing numSamples segs segStart tl res ≠ [] ∧
      (resampleLoop sampleSpacing numSamples segs segStart tl res).head? = some p0 ∧
      res.length ≤ (resampleLoop sampleSpacing numSamples segs segStart tl res).length ∧
      (segStart < tl → tl ≤ segStart + (segs.map (fun st => st.2.2)).sum →
        res.length = 1 →
        2 ≤ (resampleLoop sampleSpacing numSamples segs segStart tl res).length)
  | [], segStart, tl, res, hne, hhead => by
    refine ⟨hne, hhead, le_refl _, ?_⟩
    intro hlt hle _
    rw [List.map_nil, List.sum_nil, add_zero] at hle
    exact absurd (lt_of_lt_of_le hlt hle) (lt_irrefl _)
  | (pA, pB, segLen) :: rest, segStart, tl, res, hne, hhead => by
    rw [show resampleLoop sampleSpacing numSamples ((pA, pB, segLen) :: rest) segStart tl res =
      if res.length < numSamples then
        resampleLoop sampleSpacing numSamples rest (segStart + segLen)
          (resampleSeg pA pB segStart segLen sampleSpacing numSamples
            (numSamples + 1) tl res).1
          (resampleSeg pA pB segStart segLen sampleSpacing numSamples
            (numSamples + 1) tl res).2
      else res from rfl]
    by_cases hcap : res.length < numSamples
    · rw [if_pos hcap]
      obtain ⟨i1, i2, i3, i4⟩ := resampleSeg_spec pA pB segStart segLen
        sampleSpacing numSamples (numSamples + 1) tl res hne (by omega)
      obtain ⟨o1, o2, o3, o4⟩ := resampleLoop_spec p0 sampleSpacing numSamples hns
        rest (segStart + segLen)
        (resampleSeg pA pB segStart segLen sampleSpacing numSamples
          (numSamples + 1) tl res).1
        (resampleSeg pA pB segStart segLen sampleSpacing numSamples
          (numSamples + 1) tl res).2 i1 (i2.trans hhead)
      refine ⟨o1, o2, le_trans i3 o3, ?_⟩
      intro hlt hle hone
      rcases i4 with ⟨heq, hnot⟩ | hgrow
      · have hfst : (resampleSeg pA pB segStart segLen sampleSpacing numSamples
            (numSamples + 1) tl res).1 = tl := by rw [heq]
        have hsnd : (resampleSeg pA pB segStart segLen sampleSpacing numSamples
            (numSamples + 1) tl res).2 = res := by rw [heq]
        have hseg : segStart + segLen < tl := by
          by_contra hc
          push_neg at hc
          exact hnot ⟨hc, by omega⟩
        apply o4
        · rw [hfst]
          exact hseg
        · rw [hfst]
          rw [List.map_cons, List.sum_cons, ← add_assoc] at hle
          exact hle
        · rw [hsnd]
          exact hone
      · have : 2 ≤ (resampleSeg pA pB segStart segLen sampleSpacing numSamples
            (numSamples + 1) tl res).2.length := by omega
        omega
    · rw [if_neg hcap]
      refine ⟨hne, hhead, le_refl _, ?_⟩
      intro _ _ hone
      omega

/-- C8 (amended): for every polyline with at least two points whose total
arc length is at least the degeneracy threshold `1e-6`, the resampled
polyline has at least two points, starts at the input's first point, and
ends at the input's last point. -/
theorem C8_resample_endpoints [FloorRing α] (len : Vec3 α → Vec3 α → α)
    (avgEdgeLength : α) (points : List (Vec3 α)) (spacing : Option α)
    (h2 : 2 ≤ points.length)
    (htot : 1 / 1000000 ≤ totalLen len points) :
    2 ≤ (resampleByArcLength len avgEdgeLength points spacing).length ∧
    (resampleByArcLength len avgEdgeLength points spacing).head? = points.head? ∧
    (resampleByArcLength len avgEdgeLength points spacing).getLast? =
      points.getLast? := by
  have hnn : (0 : α) < totalLen len points := lt_of_lt_of_le (by norm_num) htot
  unfold resampleByArcLength
  rw [if_neg (by omega), if_neg (by push_neg; exact htot)]
  simp only []
  set p0 := points.getD 0 ⟨0, 0, 0⟩ with hp0
  set endPoint := points.getD (points.length - 1) ⟨0, 0, 0⟩ with hep
  set targetSpacing := spacing.getD (avgEdgeLength * 2) with hts
  set ns := (max 2 (⌈totalLen len points / targetSpacing⌉ + 1)).toNat with hns
  have hns2 : 2 ≤ ns := by
    rw [hns]
    have : (2 : ℤ) ≤ max 2 (⌈totalLen len points / targetSpacing⌉ + 1) :=
      le_max_left _ _
    omega
  set ssp := totalLen len points / ((ns : α) - 1) with hssp
  have hden : (1 : α) ≤ (ns : α) - 1 := by
    have : (2 : α) ≤ (ns : α) := by exact_mod_cast hns2
    linarith
  have hssp_pos : 0 < ssp := by
    rw [hssp]
    exact div_pos hnn (by linarith)
  have hssp_le : ssp ≤ totalLen len points := by
    rw [hssp]
    exact div_le_self (le_of_lt hnn) hden
  obtain ⟨l1, l2, l3, l4⟩ := resampleLoop_spec p0 ssp ns hns2
    (segsOf len points) 0 ssp [p0] (by simp) rfl
  have hsum : ((segsOf len points).map (fun st => st.2.2)).sum =
      totalLen len points := rfl
  have hr2 : 2 ≤ (resampleLoop ssp ns (segsOf len points) 0 ssp [p0]).length :=
    l4 hssp_pos (by rw [hsum, zero_add]; exact hssp_le) rfl
  set r := resampleLoop ssp ns (segsOf len points) 0 ssp [p0] with hr
  have hhead : points.head? = some p0 := by
    obtain ⟨a, t, rfl⟩ := List.exists_cons_of_ne_nil
      (show points ≠ [] by intro hc; rw [hc] at h2; simp at h2)
    rfl
  have hlastp : points.getLast? = some endPoint := by
    rw [List.getLast?_eq_getElem?, hep, List.getD_eq_getElem?_getD,
      List.getElem?_eq_getElem (by omega)]
    rfl
  cases hlast : r.getLast? with
  | none =>
    rw [List.getLast?_eq_none_iff] at hlast
    rw [hlast] at hr2
    simp at hr2
  | some lastPoint =>
    simp only []
    by_cases hfar : ssp * (1 / 10) < len lastPoint endPoint
    · rw [if_pos hfar]
      refine ⟨by simp; omega, ?_, ?_⟩
      · rw [hhead, ← l2]
        obtain ⟨a, t, hrat⟩ := List.exists_cons_of_ne_nil l1
        rw [hrat]
        rfl
      · rw [List.getLast?_concat, hlastp]
    · rw [if_neg hfar]
      refine ⟨?_, ?_, ?_⟩
      · have : r.dropLast.length = r.length - 1 := List.length_dropLast r
        simp only [List.length_append, List.length_singleton, this]
        omega
      · rw [hhead, ← l2]
        obtain ⟨a, t, ht⟩ : ∃ a t, r = a :: t ∧ t ≠ [] := by
          rcases r with - | ⟨a, t⟩
          · simp at hr2
          · rcases t with - | ⟨b, t'⟩
            · simp at hr2
            · exact ⟨a, b :: t', rfl, by simp⟩
        obtain ⟨hra, hrt⟩ := ht
        rw [hra, List.dropLast_cons_of_ne_nil hrt]
        rfl
      · rw [List.getLast?_concat, hlastp]

/-- Witness for `C8_resample_endpoints`: resampling the unit segment with
spacing `1` returns exactly its two endpoints. -/
theorem C8_resample_endpoints_witness :
    2 ≤ (resampleByArcLength distL1 1 [⟨0, 0, 0⟩, ⟨1, 0, 0⟩] (some 1)).length ∧
    (resampleByArcLength distL1 1 [⟨0, 0, 0⟩, ⟨1, 0, 0⟩] (some 1)).head? =
      ([⟨0, 0, 0⟩, ⟨1, 0, 0⟩] : List (Vec3 ℚ)).head? ∧
    (resampleByArcLength distL1 1 [⟨0, 0, 0⟩, ⟨1, 0, 0⟩] (some 1)).getLast? =
      ([⟨0, 0, 0⟩, ⟨1, 0, 0⟩] : List (Vec3 ℚ)).getLast? :=
  C8_resample_endpoints distL1 1 [⟨0, 0, 0⟩, ⟨1, 0, 0⟩] (some 1)
    (by norm_num)
    (by norm_num [totalLen, segsOf, distL1])

/-! ## Claim C9: Douglas-Peucker simplification
(`meshGraph.ts` lines 170-235)

The vector arithmetic (`subVectors`, `dot`, `addScaledVector`) is
elementary and embedded directly; only `.length()` — the Euclidean norm —
is the external THREE.js routine, passed as the parameter `vlen`
(`distanceTo p q = (p - q).length()`). -/

def vsub (a b : Vec3 α) : Vec3 α := ⟨a.x - b.x, a.y - b.y, a.z - b.z⟩

def vdot (a b : Vec3 α) : α := a.x * b.x + a.y * b.y + a.z * b.z

def vscaleAdd (a d : Vec3 α) (s : α) : Vec3 α :=
  ⟨a.x + d.x * s, a.y + d.y * s, a.z + d.z * s⟩

/-- Taxicab stand-in for `.length()` in concrete witnesses. -/
def vlenL1 (v : Vec3 ℚ) : ℚ := |v.x| + |v.y| + |v.z|

/-- Clamped point-to-segment distance (`douglasPeuckerRecursive`, lines
206-221): project onto the normalized chord direction and clamp to the
segment span. -/
def distToSegment (vlen : Vec3 α → α) (point lineStart lineEnd : Vec3 α) : α :=
  let lineDir := vsub lineEnd lineStart
  let lineLength := vlen lineDir
  let dirN : Vec3 α := ⟨lineDir.x / lineLength, lineDir.y / lineLength,
    lineDir.z / lineLength⟩
  let toPoint := vsub point lineStart
  let projection := vdot toPoint dirN
  if projection ≤ 0 then vlen (vsub point lineStart)
  else if lineLength ≤ projection then vlen (vsub point lineEnd)
  else vlen (vsub point (vscaleAdd lineStart dirN projection))

/-- The max-distance scan of `douglasPeuckerRecursive` (lines 195-228):
running `(maxDist, maxIndex)` over the interior indices, updating on
strict improvement (so `maxIndex` is the first maximizer). -/
def dpScan (vlen : Vec3 α → α) (points : List (Vec3 α)) (eps0 : α)
    (start : ℕ) (idxs : List ℕ) (lineStart lineEnd : Vec3 α) : α × ℕ :=
  idxs.foldl (fun acc i =>
    let dist := distToSegment vlen (points.getD i ⟨0, 0, 0⟩) lineStart lineEnd
    if acc.1 < dist then (dist, i) else acc) (eps0, start)

/-- `douglasPeuckerRecursive` (lines 186-235).  The fuel models the call
stack: the source recursion can fail to terminate (see
`C9_counterexample`), so exhausted fuel returns `none`. -/
def dpRec (vlen : Vec3 α → α) (points : List (Vec3 α)) (epsilon : α) :
    ℕ → ℕ → ℕ → (ℕ → Bool) → Option (ℕ → Bool)
  | 0, _, _, _ => none
  | fuel + 1, start, stop, keep =>
      if stop - start < 2 then some keep
      else
        let lineStart := points.getD start ⟨0, 0, 0⟩
        let lineEnd := points.getD stop ⟨0, 0, 0⟩
        let scan :=
          if 1 / 10000000000 < vlen (vsub lineEnd lineStart) then
            dpScan vlen points 0 start (List.range' (start + 1) (stop - start - 1))
              lineStart lineEnd
          else (0, start)
        if epsilon < scan.1 then
          match dpRec vlen points epsilon fuel start scan.2
            (Function.update keep scan.2 true) with
          | none => none
          | some keep1 => dpRec vlen points epsilon fuel scan.2 stop keep1
        else some keep

/-- `vertexIndices.filter((_, i) => keep[i])`. -/
def filterIdx {β : Type} (keep : ℕ → Bool) : List β → ℕ → List β
  | [], _ => []
  | x :: xs, i =>
      if keep i then x :: filterIdx keep xs (i + 1) else filterIdx keep xs (i + 1)

/-- `MeshGraphBuilder.simplifyPath` (lines 170-184).  Result `none` means
the source recursion does not terminate on this input. -/
def simplifyPath (vlen : Vec3 α → α) (positions : List (Vec3 α))
    (avgEdgeLength : α) (vertexIndices : List ℕ) (epsilon : Option α) :
    Option (List ℕ) :=
  if vertexIndices.length ≤ 2 then some vertexIndices
  else
    let eps := epsilon.getD (avgEdgeLength * (1 / 10))
    let points := vertexIndices.map (fun i => positions.getD i ⟨0, 0, 0⟩)
    let keep0 : ℕ → Bool := fun i => i = 0 ∨ i = points.length - 1
    match dpRec vlen points eps vertexIndices.length 0 (points.length - 1) keep0 with
    | none => none
    | some keep => some (filterIdx keep vertexIndices 0)

/-- C9 (counterexample): for a negative tolerance the source recursion
diverges, so `simplify(simplify(P, ε), ε) = simplify(P, ε)` does not even
denote.  With three coincident points the chord test fails
(`lineLength ≤ 1e-10`), `maxDist = 0 > ε = -1`, `maxIndex` stays `start`,
and `douglasPeuckerRecursive(points, start, end)` calls itself with
unchanged arguments: the embedded recursion exhausts any fuel. -/
theorem C9_counterexample :
    simplifyPath vlenL1 [⟨0, 0, 0⟩, ⟨0, 0, 0⟩, ⟨0, 0, 0⟩] 1 [0, 1, 2]
      (some (-1)) = none := by
  norm_num [simplifyPath, dpRec, dpScan, distToSegment, vsub, vdot, vlenL1,
    List.range', Function.update]

/-! ### The max-distance scan as an abstract argmax fold -/

def argmaxF (d : ℕ → α) (init : α × ℕ) (l : List ℕ) : α × ℕ :=
  l.foldl (fun acc i => if acc.1 < d i then (d i, i) else acc) init

theorem dpScan_eq_argmaxF (vlen : Vec3 α → α) (points : List (Vec3 α)) (eps0 : α)
    (start : ℕ) (idxs : List ℕ) (lineStart lineEnd : Vec3 α) :
    dpScan vlen points eps0 start idxs lineStart lineEnd
      = argmaxF (fun i => distToSegment vlen (points.getD i ⟨0, 0, 0⟩) lineStart lineEnd)
          (eps0, start) idxs := rfl

theorem argmaxF_append (d : ℕ → α) (init : α × ℕ) (l r : List ℕ) :
    argmaxF d init (l ++ r) = argmaxF d (argmaxF d init l) r :=
  List.foldl_append _ _ _ _

theorem argmaxF_ge_init (d : ℕ → α) (init : α × ℕ) (l : List ℕ) :
    init.1 ≤ (argmaxF d init l).1 := by
  induction l generalizing init with
  | nil => exact le_rfl
  | cons i tl ih =>
      show init.1 ≤ (argmaxF d (if init.1 < d i then (d i, i) else init) tl).1
      by_cases h : init.1 < d i
      · simp only [if_pos h]
        exact le_of_lt (lt_of_lt_of_le h (ih (d i, i)))
      · simp only [if_neg h]
        exact ih init

theorem argmaxF_ge (d : ℕ → α) (init : α × ℕ) (l : List ℕ) :
    ∀ i ∈ l, d i ≤ (argmaxF d init l).1 := by
  induction l generalizing init with
  | nil => intro i hi; cases hi
  | cons j tl ih =>
      intro i hi
      rcases List.mem_cons.mp hi with rfl | hi
      · show d i ≤ (argmaxF d (if init.1 < d i then (d i, i) else init) tl).1
        by_cases h : init.1 < d i
        · simp only [if_pos h]
          exact le_trans le_rfl (argmaxF_ge_init d (d i, i) tl)
        · simp only [if_neg h]
          exact le_trans (le_of_not_lt h) (argmaxF_ge_init d init tl)
      · show d i ≤ (argmaxF d (if init.1 < d j then (d j, j) else init) tl).1
        exact ih _ i hi

theorem argmaxF_fix (d : ℕ → α) (init : α × ℕ) (l : List ℕ)
    (h : ∀ i ∈ l, d i ≤ init.1) : argmaxF d init l = init := by
  induction l with
  | nil => rfl
  | cons j tl ih =>
      show argmaxF d (if init.1 < d j then (d j, j) else init) tl = init
      rw [if_neg (not_lt.mpr (h j (List.mem_cons_self j tl)))]
      exact ih fun i hi => h i (List.mem_cons_of_mem j hi)

theorem argmaxF_lt_bound (d : ℕ → α) (init : α × ℕ) (l : List ℕ) (c : α)
    (h : ∀ i ∈ l, d i < c) (h0 : init.1 < c) : (argmaxF d init l).1 < c := by
  induction l generalizing init with
  | nil => exact h0
  | cons j tl ih =>
      show (argmaxF d (if init.1 < d j then (d j, j) else init) tl).1 < c
      by_cases hj : init.1 < d j
      · rw [if_pos hj]
        exact ih (d j, j) (fun i hi => h i (List.mem_cons_of_mem j hi))
          (h j (List.mem_cons_self j tl))
      · rw [if_neg hj]
        exact ih init (fun i hi => h i (List.mem_cons_of_mem j hi)) h0

/-- If `x` occurs in the scanned list with every earlier entry strictly
below `d x`, every entry at most `d x`, and the initial value below `d x`,
the running-max fold ends exactly at `(d x, x)`: the scan picks the first
maximizer. -/
theorem argmaxF_eq_of (d : ℕ → α) (init : α × ℕ) (lpre lpost : List ℕ) (x : ℕ)
    (hpre : ∀ i ∈ lpre, d i < d x) (hpost : ∀ i ∈ lpost, d i ≤ d x)
    (h0 : init.1 < d x) :
    argmaxF d init (lpre ++ x :: lpost) = (d x, x) := by
  rw [argmaxF_append]
  have hmid : argmaxF d (argmaxF d init lpre) (x :: lpost)
      = argmaxF d (d x, x) lpost := by
    show argmaxF d (if (argmaxF d init lpre).1 < d x then (d x, x) else _) lpost = _
    rw [if_pos (argmaxF_lt_bound d init lpre (d x) hpre h0)]
  rw [hmid]
  exact argmaxF_fix d (d x, x) lpost hpost

/-- Structure of the fold result: either nothing ever beat the initial
value, or the result is the first maximizer — the list splits at the
result index with all earlier entries strictly smaller. -/
theorem argmaxF_first (d : ℕ → α) (l : List ℕ) (init : α × ℕ) :
    argmaxF d init l = init ∨
      (init.1 < (argmaxF d init l).1 ∧ (argmaxF d init l).1 = d (argmaxF d init l).2 ∧
        ∃ lpre lpost, l = lpre ++ (argmaxF d init l).2 :: lpost ∧
          ∀ i ∈ lpre, d i < (argmaxF d init l).1) := by
  induction l generalizing init with
  | nil => exact Or.inl rfl
  | cons j tl ih =>
      have hstep : argmaxF d init (j :: tl)
          = argmaxF d (if init.1 < d j then (d j, j) else init) tl := rfl
      by_cases hj : init.1 < d j
      · rcases ih (d j, j) with h | ⟨h1, h2, lpre, lpost, hsplit, hsmall⟩
        · refine Or.inr ?_
          rw [hstep, if_pos hj, h]
          exact ⟨hj, rfl, [], tl, rfl, fun i hi => absurd hi (List.not_mem_nil i)⟩
        · refine Or.inr ?_
          rw [hstep, if_pos hj]
          refine ⟨lt_trans hj h1, h2, j :: lpre, lpost, ?_, ?_⟩
          · exact congrArg (List.cons j) hsplit
          · intro i hi
            rcases List.mem_cons.mp hi with rfl | hi
            · exact h1
            · exact hsmall i hi
      · rcases ih init with h | ⟨h1, h2, lpre, lpost, hsplit, hsmall⟩
        · refine Or.inl ?_
          rw [hstep, if_neg hj, h]
        · refine Or.inr ?_
          rw [hstep, if_neg hj]
          refine ⟨h1, h2, j :: lpre, lpost, ?_, ?_⟩
          · exact congrArg (List.cons j) hsplit
          · intro i hi
            rcases List.mem_cons.mp hi with rfl | hi
            · exact lt_of_le_of_lt (le_of_not_lt hj) h1
            · exact hsmall i hi

/-! ### Decomposition lemmas for `List.range'` (unit step) -/

theorem range'_eq_append (s n : ℕ) (l : List ℕ) (m : ℕ) (rest : List ℕ)
    (h : List.range' s n = l ++ m :: rest) :
    (∀ i ∈ l, s ≤ i ∧ i < m) ∧ (s ≤ m ∧ m < s + n) ∧
      ∀ i ∈ rest, m < i ∧ i < s + n := by
  induction n generalizing s l with
  | zero =>
      exfalso
      have : ([] : List ℕ) = l ++ m :: rest := h
      cases l with
      | nil => exact List.noConfusion this
      | cons a l' => exact List.noConfusion this
  | succ n ih =>
      have h' : s :: List.range' (s + 1) n = l ++ m :: rest := h
      cases l with
      | nil =>
          have hm : s = m := (List.cons.injEq _ _ _ _ ▸ h').1
          have hrest : List.range' (s + 1) n = rest := (List.cons.injEq _ _ _ _ ▸ h').2
          refine ⟨fun i hi => absurd hi (List.not_mem_nil i), ⟨le_of_eq hm, ?_⟩, ?_⟩
          · omega
          · intro i hi
            rw [← hrest] at hi
            have := List.mem_range'_1.mp hi
            omega
      | cons a l' =>
          have ha : s = a := (List.cons.injEq _ _ _ _ ▸ h').1
          have htl : List.range' (s + 1) n = l' ++ m :: rest :=
            (List.cons.injEq _ _ _ _ ▸ h').2
          obtain ⟨hl', ⟨hm1, hm2⟩, hrest⟩ := ih (s + 1) l' htl
          refine ⟨?_, ⟨by omega, by omega⟩, ?_⟩
          · intro i hi
            rcases List.mem_cons.mp hi with rfl | hi
            · omega
            · have := hl' i hi; omega
          · intro i hi
            have := hrest i hi; omega

theorem range'_split (k s m : ℕ) (h1 : s ≤ m) (h2 : m < s + k) :
    List.range' s k = List.range' s (m - s) ++ m :: List.range' (m + 1) (s + k - m - 1) := by
  induction k generalizing s with
  | zero => omega
  | succ k ih =>
      by_cases hm : m = s
      · rw [hm]
        have h0 : s - s = 0 := Nat.sub_self s
        have hk : s + (k + 1) - s - 1 = k := by omega
        rw [h0, hk]
        rfl
      · have hs : s < m := lt_of_le_of_ne h1 fun he => hm he.symm
        have htl : List.range' (s + 1) k
            = List.range' (s + 1) (m - (s + 1)) ++ m
              :: List.range' (m + 1) (s + 1 + k - m - 1) := ih (s + 1) (by omega) (by omega)
        have hhead : List.range' s (k + 1) = s :: List.range' (s + 1) k := rfl
        have hms : m - s = (m - (s + 1)) + 1 := by omega
        rw [hhead, htl, hms]
        have : List.range' s ((m - (s + 1)) + 1) = s :: List.range' (s + 1) (m - (s + 1)) := rfl
        rw [this]
        have : s + 1 + k - m - 1 = s + (k + 1) - m - 1 := by omega
        rw [this, List.cons_append]

/-! ### The keep-set of a `douglasPeuckerRecursive` call, decoupled from
the threaded `keep` array -/

/-- The chord scan of one recursion step (shared by `dpRec` and `dpSet`). -/
def dpChordScan (vlen : Vec3 α → α) (points : List (Vec3 α)) (start stop : ℕ) : α × ℕ :=
  if 1 / 10000000000 < vlen (vsub (points.getD stop ⟨0, 0, 0⟩) (points.getD start ⟨0, 0, 0⟩))
  then
    dpScan vlen points 0 start (List.range' (start + 1) (stop - start - 1))
      (points.getD start ⟨0, 0, 0⟩) (points.getD stop ⟨0, 0, 0⟩)
  else (0, start)

/-- Distance of interior vertex `i` to the chord of the segment
`[start, stop]`. -/
def dpDist (vlen : Vec3 α → α) (points : List (Vec3 α)) (start stop i : ℕ) : α :=
  distToSegment vlen (points.getD i ⟨0, 0, 0⟩) (points.getD start ⟨0, 0, 0⟩)
    (points.getD stop ⟨0, 0, 0⟩)

theorem dpRec_succ (vlen : Vec3 α → α) (points : List (Vec3 α)) (epsilon : α)
    (fuel start stop : ℕ) (keep : ℕ → Bool) :
    dpRec vlen points epsilon (fuel + 1) start stop keep =
      if stop - start < 2 then some keep
      else if epsilon < (dpChordScan vlen points start stop).1 then
        match dpRec vlen points epsilon fuel start (dpChordScan vlen points start stop).2
          (Function.update keep (dpChordScan vlen points start stop).2 true) with
        | none => none
        | some keep1 =>
            dpRec vlen points epsilon fuel (dpChordScan vlen points start stop).2 stop keep1
      else some keep := rfl

/-- The set of indices a `douglasPeuckerRecursive` call marks, independent
of the incoming `keep` array. -/
def dpSet (vlen : Vec3 α → α) (points : List (Vec3 α)) (epsilon : α) :
    ℕ → ℕ → ℕ → Option (ℕ → Bool)
  | 0, _, _ => none
  | fuel + 1, start, stop =>
      if stop - start < 2 then some (fun _ => false)
      else if epsilon < (dpChordScan vlen points start stop).1 then
        match dpSet vlen points epsilon fuel start (dpChordScan vlen points start stop).2,
              dpSet vlen points epsilon fuel (dpChordScan vlen points start stop).2 stop with
        | some L, some R =>
            some (fun i => i = (dpChordScan vlen points start stop).2 || L i || R i)
        | _, _ => none
      else some (fun _ => false)

/-- `douglasPeuckerRecursive` only ever adds marks: its result is the
incoming `keep` array united with a keep-set depending only on the
interval. -/
theorem dpRec_eq_dpSet (vlen : Vec3 α → α) (points : List (Vec3 α)) (epsilon : α) :
    ∀ (fuel start stop : ℕ) (keep : ℕ → Bool),
      dpRec vlen points epsilon fuel start stop keep
        = (dpSet vlen points epsilon fuel start stop).map
            (fun S => fun i => keep i || S i) := by
  intro fuel
  induction fuel with
  | zero => intro start stop keep; rfl
  | succ fuel ih =>
      intro start stop keep
      rw [dpRec_succ]
      show _ = (dpSet vlen points epsilon (fuel + 1) start stop).map _
      simp only [dpSet]
      by_cases h2 : stop - start < 2
      · rw [if_pos h2, if_pos h2, Option.map_some']
        refine congrArg some (funext fun i => ?_)
        simp
      · rw [if_neg h2, if_neg h2]
        by_cases hs : epsilon < (dpChordScan vlen points start stop).1
        · rw [if_pos hs, if_pos hs]
          rw [ih start (dpChordScan vlen points start stop).2
            (Function.update keep (dpChordScan vlen points start stop).2 true)]
          cases hL : dpSet vlen points epsilon fuel start (dpChordScan vlen points start stop).2 with
          | none => rfl
          | some L =>
              rw [Option.map_some']
              show dpRec vlen points epsilon fuel (dpChordScan vlen points start stop).2 stop _ = _
              rw [ih (dpChordScan vlen points start stop).2 stop _]
              cases hR : dpSet vlen points epsilon fuel (dpChordScan vlen points start stop).2 stop with
              | none => rfl
              | some R =>
                  rw [Option.map_some', Option.map_some']
                  refine congrArg some (funext fun i => ?_)
                  by_cases hi : i = (dpChordScan vlen points start stop).2
                  · simp [hi, Function.update]
                  · simp [hi, Function.update, Bool.or_assoc]
        · rw [if_neg hs, if_neg hs, Option.map_some']
          refine congrArg some (funext fun i => ?_)
          simp

/-- One-step unfolding of `dpSet`. -/
theorem dpSet_succ (vlen : Vec3 α → α) (points : List (Vec3 α)) (epsilon : α)
    (fuel start stop : ℕ) :
    dpSet vlen points epsilon (fuel + 1) start stop =
      if stop - start < 2 then some (fun _ : ℕ => false)
      else if epsilon < (dpChordScan vlen points start stop).1 then
        match dpSet vlen points epsilon fuel start (dpChordScan vlen points start stop).2,
              dpSet vlen points epsilon fuel (dpChordScan vlen points start stop).2 stop with
        | some L, some R =>
            some (fun i : ℕ => i = (dpChordScan vlen points start stop).2 || L i || R i)
        | _, _ => none
      else some (fun _ : ℕ => false) := rfl

/-- At a node that recurses (`maxDist > epsilon` with `epsilon ≥ 0`), the
scan returns the first maximizer of the chord distance over the interior
indices: it lies strictly inside the interval, attains the maximum, and
every interior index left of it has strictly smaller distance. -/
theorem dpChordScan_spec (vlen : Vec3 α → α) (points : List (Vec3 α)) (epsilon : α)
    (start stop : ℕ) (h2 : 2 ≤ stop - start) (heps : 0 ≤ epsilon)
    (hs : epsilon < (dpChordScan vlen points start stop).1) :
    start < (dpChordScan vlen points start stop).2 ∧
    (dpChordScan vlen points start stop).2 < stop ∧
    (dpChordScan vlen points start stop).1
      = dpDist vlen points start stop (dpChordScan vlen points start stop).2 ∧
    (∀ i, start < i → i < stop →
      dpDist vlen points start stop i ≤ (dpChordScan vlen points start stop).1) ∧
    (∀ i, start < i → i < (dpChordScan vlen points start stop).2 →
      dpDist vlen points start stop i < (dpChordScan vlen points start stop).1) := by
  by_cases hlen : 1 / 10000000000
      < vlen (vsub (points.getD stop ⟨0, 0, 0⟩) (points.getD start ⟨0, 0, 0⟩))
  case neg =>
    exfalso
    have hzero : dpChordScan vlen points start stop = (0, start) := if_neg hlen
    rw [hzero] at hs
    exact absurd (lt_of_le_of_lt heps hs) (lt_irrefl 0)
  case pos =>
    have hscan : dpChordScan vlen points start stop
        = argmaxF (dpDist vlen points start stop) (0, start)
            (List.range' (start + 1) (stop - start - 1)) := by
      show (if _ then _ else _) = _
      rw [if_pos hlen, dpScan_eq_argmaxF]
      rfl
    rw [hscan] at hs ⊢
    rcases argmaxF_first (dpDist vlen points start stop)
        (List.range' (start + 1) (stop - start - 1)) (0, start) with hinit |
        ⟨hpos, hattain, lpre, lpost, hsplit, hsmall⟩
    · exfalso
      rw [hinit] at hs
      exact absurd (lt_of_le_of_lt heps hs) (lt_irrefl 0)
    · obtain ⟨hlpre, ⟨hm1, hm2⟩, hlpost⟩ :=
        range'_eq_append (start + 1) (stop - start - 1) lpre _ lpost hsplit
      refine ⟨by omega, by omega, hattain, ?_, ?_⟩
      · intro i hi1 hi2
        exact argmaxF_ge _ _ _ i (List.mem_range'_1.mpr ⟨by omega, by omega⟩)
      · intro i hi1 hi2
        have himem : i ∈ List.range' (start + 1) (stop - start - 1) :=
          List.mem_range'_1.mpr ⟨by omega, by omega⟩
        rw [hsplit] at himem
        rcases List.mem_append.mp himem with hil | hir
        · exact hsmall i hil
        · rcases List.mem_cons.mp hir with heq | hirest
          · omega
          · have := hlpost i hirest
            omega

/-- A keep-set marks only indices strictly inside its interval. -/
theorem dpSet_mem (vlen : Vec3 α → α) (points : List (Vec3 α)) (epsilon : α)
    (heps : 0 ≤ epsilon) :
    ∀ (fuel start stop : ℕ) (S : ℕ → Bool),
      dpSet vlen points epsilon fuel start stop = some S →
      ∀ i, S i = true → start < i ∧ i < stop := by
  intro fuel
  induction fuel with
  | zero => intro start stop S h; exact absurd h (by simp [dpSet])
  | succ fuel ih =>
      intro start stop S h i hSi
      rw [dpSet_succ] at h
      by_cases h2 : stop - start < 2
      · rw [if_pos h2] at h
        have hS := Option.some.inj h
        rw [← hS] at hSi
        simp at hSi
      · rw [if_neg h2] at h
        by_cases hs : epsilon < (dpChordScan vlen points start stop).1
        · rw [if_pos hs] at h
          obtain ⟨hm1, hm2, -, -, -⟩ :=
            dpChordScan_spec vlen points epsilon start stop (by omega) heps hs
          cases hL : dpSet vlen points epsilon fuel start
              (dpChordScan vlen points start stop).2 with
          | none =>
              rw [hL] at h
              exact Option.noConfusion h
          | some L =>
              cases hR : dpSet vlen points epsilon fuel
                  (dpChordScan vlen points start stop).2 stop with
              | none =>
                  rw [hL, hR] at h
                  exact Option.noConfusion h
              | some R =>
                  rw [hL, hR] at h
                  have hS := Option.some.inj h
                  rw [← hS] at hSi
                  simp only [Bool.or_eq_true, decide_eq_true_eq] at hSi
                  rcases hSi with (hieq | hLi) | hRi
                  · omega
                  · have := ih start (dpChordScan vlen points start stop).2 L hL i hLi
                    omega
                  · have := ih (dpChordScan vlen points start stop).2 stop R hR i hRi
                    omega
        · rw [if_neg hs] at h
          have hS := Option.some.inj h
          rw [← hS] at hSi
          simp at hSi

/-- With a non-negative tolerance the recursion terminates: fuel exceeding
the interval length suffices (the split index is strictly interior, so
both child intervals are shorter). -/
theorem dpSet_isSome (vlen : Vec3 α → α) (points : List (Vec3 α)) (epsilon : α)
    (heps : 0 ≤ epsilon) :
    ∀ (fuel start stop : ℕ), stop - start < fuel →
      (dpSet vlen points epsilon fuel start stop).isSome := by
  intro fuel
  induction fuel with
  | zero => intro start stop h; omega
  | succ fuel ih =>
      intro start stop hfuel
      rw [dpSet_succ]
      by_cases h2 : stop - start < 2
      · rw [if_pos h2]; rfl
      · rw [if_neg h2]
        by_cases hs : epsilon < (dpChordScan vlen points start stop).1
        · rw [if_pos hs]
          obtain ⟨hm1, hm2, -, -, -⟩ :=
            dpChordScan_spec vlen points epsilon start stop (by omega) heps hs
          obtain ⟨L, hL⟩ := Option.isSome_iff_exists.mp
            (ih start (dpChordScan vlen points start stop).2 (by omega))
          obtain ⟨R, hR⟩ := Option.isSome_iff_exists.mp
            (ih (dpChordScan vlen points start stop).2 stop (by omega))
          rw [hL, hR]
          rfl
        · rw [if_neg hs]; rfl

/-! ### The kept index list and kept point list of a finished run -/

/-- Indices marked by `keep`, in increasing order (the indices surviving
`vertexIndices.filter((_, i) => keep[i])`). -/
def keptIdx (keep : ℕ → Bool) (n : ℕ) : List ℕ := (List.range n).filter keep

/-- The kept sub-polyline. -/
def keptPts (keep : ℕ → Bool) (pts : List (Vec3 α)) : List (Vec3 α) :=
  (keptIdx keep pts.length).map (fun j => pts.getD j ⟨0, 0, 0⟩)

theorem filterIdx_cons {β : Type} (keep : ℕ → Bool) (x : β) (xs : List β) (s : ℕ) :
    filterIdx keep (x :: xs) s
      = if keep s then x :: filterIdx keep xs (s + 1) else filterIdx keep xs (s + 1) := rfl

theorem filterIdx_map {β γ : Type} (keep : ℕ → Bool) (f : β → γ) :
    ∀ (l : List β) (s : ℕ), filterIdx keep (l.map f) s = (filterIdx keep l s).map f := by
  intro l
  induction l with
  | nil => intro s; rfl
  | cons x xs ih =>
      intro s
      rw [List.map_cons, filterIdx_cons, filterIdx_cons]
      by_cases hk : keep s
      · rw [if_pos hk, if_pos hk, ih (s + 1), List.map_cons]
      · rw [if_neg hk, if_neg hk, ih (s + 1)]

theorem filterIdx_eq_kept {β : Type} (keep : ℕ → Bool) (d : β) :
    ∀ (l : List β) (s : ℕ),
      filterIdx keep l s
        = ((List.range' s l.length).filter keep).map (fun j => l.getD (j - s) d) := by
  intro l
  induction l with
  | nil => intro s; rfl
  | cons x xs ih =>
      intro s
      have hr : List.range' s (x :: xs).length = s :: List.range' (s + 1) xs.length := rfl
      rw [filterIdx_cons, hr, List.filter_cons]
      by_cases hk : keep s
      · rw [if_pos hk, if_pos hk]
        simp only [List.map_cons]
        rw [ih (s + 1)]
        have h0 : (x :: xs).getD (s - s) d = x := by
          rw [Nat.sub_self]
          exact List.getD_cons_zero
        rw [h0]
        refine congrArg (x :: ·) (List.map_congr_left ?_)
        intro j hj
        have hj' : s + 1 ≤ j ∧ j < s + 1 + xs.length :=
          List.mem_range'_1.mp (List.mem_filter.mp hj).1
        have hsub : j - s = (j - (s + 1)) + 1 := by omega
        rw [hsub, List.getD_cons_succ]
      · rw [if_neg hk, if_neg hk, ih (s + 1)]
        refine List.map_congr_left ?_
        intro j hj
        have hj' : s + 1 ≤ j ∧ j < s + 1 + xs.length :=
          List.mem_range'_1.mp (List.mem_filter.mp hj).1
        have hsub : j - s = (j - (s + 1)) + 1 := by omega
        rw [hsub, List.getD_cons_succ]

theorem filterIdx_zero_eq {β : Type} (keep : ℕ → Bool) (d : β) (l : List β) :
    filterIdx keep l 0 = (keptIdx keep l.length).map (fun j => l.getD j d) := by
  rw [filterIdx_eq_kept keep d l 0]
  show ((List.range' 0 l.length).filter keep).map _ = _
  rw [← List.range_eq_range' l.length]
  exact List.map_congr_left fun j _ => by rw [Nat.sub_zero]

/-- Keeping everything returns the list unchanged. -/
theorem filterIdx_all {β : Type} (keep : ℕ → Bool) :
    ∀ (l : List β) (s : ℕ), (∀ j, s ≤ j → j < s + l.length → keep j = true) →
      filterIdx keep l s = l := by
  intro l
  induction l with
  | nil => intro s _; rfl
  | cons x xs ih =>
      intro s hall
      rw [filterIdx_cons, if_pos (hall s le_rfl (by simp))]
      refine congrArg (x :: ·) (ih (s + 1) fun j h1 h2 => hall j (by omega) ?_)
      show j < s + (x :: xs).length
      simp only [List.length_cons]
      omega

theorem keptIdx_pairwise (keep : ℕ → Bool) (n : ℕ) :
    (keptIdx keep n).Pairwise (· < ·) :=
  (List.pairwise_lt_range n).filter keep

theorem keptIdx_mem (keep : ℕ → Bool) (n j : ℕ) :
    j ∈ keptIdx keep n ↔ j < n ∧ keep j = true := by
  show j ∈ (List.range n).filter keep ↔ _
  rw [List.mem_filter, List.mem_range]

theorem keptIdx_mono (keep : ℕ → Bool) (n : ℕ) (i j : ℕ)
    (hi : i < (keptIdx keep n).length) (hj : j < (keptIdx keep n).length) (hij : i < j) :
    (keptIdx keep n).getD i 0 < (keptIdx keep n).getD j 0 := by
  rw [List.getD_eq_getElem _ _ hi, List.getD_eq_getElem _ _ hj]
  exact List.pairwise_iff_getElem.mp (keptIdx_pairwise keep n) i j hi hj hij

theorem keptIdx_mono_rev (keep : ℕ → Bool) (n : ℕ) (i j : ℕ)
    (hi : i < (keptIdx keep n).length) (hj : j < (keptIdx keep n).length)
    (hlt : (keptIdx keep n).getD i 0 < (keptIdx keep n).getD j 0) : i < j := by
  rcases lt_trichotomy i j with h | h | h
  · exact h
  · rw [h] at hlt; exact absurd hlt (lt_irrefl _)
  · exact absurd (keptIdx_mono keep n j i hj hi h) (not_lt.mpr (le_of_lt hlt))

theorem keptIdx_getD_mem (keep : ℕ → Bool) (n : ℕ) (j : ℕ)
    (hj : j < (keptIdx keep n).length) :
    (keptIdx keep n).getD j 0 < n ∧ keep ((keptIdx keep n).getD j 0) = true := by
  rw [List.getD_eq_getElem _ _ hj]
  exact (keptIdx_mem keep n _).mp (List.getElem_mem hj)

theorem keptIdx_pos_of_mem (keep : ℕ → Bool) (n : ℕ) (i : ℕ)
    (hi : i < n) (hk : keep i = true) :
    ∃ j, j < (keptIdx keep n).length ∧ (keptIdx keep n).getD j 0 = i := by
  have hmem : i ∈ keptIdx keep n := (keptIdx_mem keep n i).mpr ⟨hi, hk⟩
  obtain ⟨j, hj, hji⟩ := List.mem_iff_getElem.mp hmem
  exact ⟨j, hj, by rw [List.getD_eq_getElem _ _ hj]; exact hji⟩

theorem keptPts_length (keep : ℕ → Bool) (pts : List (Vec3 α)) :
    (keptPts keep pts).length = (keptIdx keep pts.length).length :=
  List.length_map _ _

theorem keptPts_getD (keep : ℕ → Bool) (pts : List (Vec3 α)) (j : ℕ)
    (hj : j < (keptIdx keep pts.length).length) :
    (keptPts keep pts).getD j ⟨0, 0, 0⟩
      = pts.getD ((keptIdx keep pts.length).getD j 0) ⟨0, 0, 0⟩ := by
  have hj' : j < (keptPts keep pts).length := by rw [keptPts_length]; exact hj
  rw [List.getD_eq_getElem _ _ hj', List.getD_eq_getElem _ _ hj]
  exact List.getElem_map _

theorem keptPts_dpDist (vlen : Vec3 α → α) (keep : ℕ → Bool) (pts : List (Vec3 α))
    (a' b' j : ℕ) (ha' : a' < (keptIdx keep pts.length).length)
    (hb' : b' < (keptIdx keep pts.length).length)
    (hj : j < (keptIdx keep pts.length).length) :
    dpDist vlen (keptPts keep pts) a' b' j
      = dpDist vlen pts ((keptIdx keep pts.length).getD a' 0)
          ((keptIdx keep pts.length).getD b' 0) ((keptIdx keep pts.length).getD j 0) := by
  show distToSegment vlen _ _ _ = distToSegment vlen _ _ _
  rw [keptPts_getD keep pts j hj, keptPts_getD keep pts a' ha', keptPts_getD keep pts b' hb']

theorem dpChordScan_def (vlen : Vec3 α → α) (points : List (Vec3 α)) (start stop : ℕ) :
    dpChordScan vlen points start stop =
      if 1 / 10000000000
          < vlen (vsub (points.getD stop ⟨0, 0, 0⟩) (points.getD start ⟨0, 0, 0⟩)) then
        dpScan vlen points 0 start (List.range' (start + 1) (stop - start - 1))
          (points.getD start ⟨0, 0, 0⟩) (points.getD stop ⟨0, 0, 0⟩)
      else (0, start) := rfl

/-- If no interior index of the original interval `[a, b]` is kept, the
corresponding rerun interval is degenerate (width < 2), so the rerun node
keeps nothing. -/
theorem dpReplay_leaf (vlen : Vec3 α → α) (pts : List (Vec3 α)) (eps : α)
    (keepF : ℕ → Bool) (a b a' b' fuel' : ℕ)
    (hfuel' : b' - a' < fuel') (hab' : a' < b')
    (hb' : b' < (keptIdx keepF pts.length).length)
    (hKa : (keptIdx keepF pts.length).getD a' 0 = a)
    (hKb : (keptIdx keepF pts.length).getD b' 0 = b)
    (hint : ∀ i, a < i → i < b → keepF i = false) :
    dpSet vlen (keptPts keepF pts) eps fuel' a' b' = some (fun _ => false) := by
  have hlt2 : b' - a' < 2 := by
    by_contra hge
    have hj : a' + 1 < (keptIdx keepF pts.length).length := by omega
    obtain ⟨hin, hkeep⟩ := keptIdx_getD_mem keepF pts.length (a' + 1) hj
    have h1 : a < (keptIdx keepF pts.length).getD (a' + 1) 0 := by
      rw [← hKa]
      exact keptIdx_mono keepF pts.length a' (a' + 1) (by omega) hj (by omega)
    have h2 : (keptIdx keepF pts.length).getD (a' + 1) 0 < b := by
      rw [← hKb]
      exact keptIdx_mono keepF pts.length (a' + 1) b' hj hb' (by omega)
    rw [hint _ h1 h2] at hkeep
    exact Bool.noConfusion hkeep
  cases fuel' with
  | zero => omega
  | succ f' => rw [dpSet_succ, if_pos hlt2]

/-- At an internal node, the rerun's chord scan over the kept sub-polyline
finds the same maximal distance, at the kept position of the original
split index: the kept candidates include the original first maximizer,
every kept candidate left of it has strictly smaller chord distance, and
every kept candidate is bounded by the maximum. -/
theorem dpChordScan_replay (vlen : Vec3 α → α) (pts : List (Vec3 α)) (eps : α)
    (heps : 0 ≤ eps) (keepF : ℕ → Bool) (a b a' b' m' : ℕ)
    (hb' : b' < (keptIdx keepF pts.length).length)
    (hm'len : m' < (keptIdx keepF pts.length).length)
    (hKa : (keptIdx keepF pts.length).getD a' 0 = a)
    (hKb : (keptIdx keepF pts.length).getD b' 0 = b)
    (hKm : (keptIdx keepF pts.length).getD m' 0 = (dpChordScan vlen pts a b).2)
    (ham' : a' < m') (hm'b : m' < b')
    (h2 : 2 ≤ b - a)
    (hs : eps < (dpChordScan vlen pts a b).1) :
    dpChordScan vlen (keptPts keepF pts) a' b' = ((dpChordScan vlen pts a b).1, m') := by
  have ha'len : a' < (keptIdx keepF pts.length).length := lt_trans ham' (lt_trans hm'b hb')
  obtain ⟨hma, hmb, hattain, hle, hlt⟩ := dpChordScan_spec vlen pts eps a b h2 heps hs
  have hdj : ∀ j, j < (keptIdx keepF pts.length).length →
      distToSegment vlen ((keptPts keepF pts).getD j ⟨0, 0, 0⟩)
          (pts.getD a ⟨0, 0, 0⟩) (pts.getD b ⟨0, 0, 0⟩)
        = dpDist vlen pts a b ((keptIdx keepF pts.length).getD j 0) := by
    intro j hj
    rw [keptPts_getD keepF pts j hj]
    rfl
  have hpa : (keptPts keepF pts).getD a' ⟨0, 0, 0⟩ = pts.getD a ⟨0, 0, 0⟩ := by
    rw [keptPts_getD keepF pts a' ha'len, hKa]
  have hpb : (keptPts keepF pts).getD b' ⟨0, 0, 0⟩ = pts.getD b ⟨0, 0, 0⟩ := by
    rw [keptPts_getD keepF pts b' hb', hKb]
  have hlen : 1 / 10000000000
      < vlen (vsub (pts.getD b ⟨0, 0, 0⟩) (pts.getD a ⟨0, 0, 0⟩)) := by
    by_contra hnl
    have hzero : dpChordScan vlen pts a b = (0, a) := by
      rw [dpChordScan_def, if_neg hnl]
    rw [hzero] at hs
    exact absurd (lt_of_le_of_lt heps hs) (lt_irrefl 0)
  have hsplit := range'_split (b' - a' - 1) (a' + 1) m' (by omega) (by omega)
  rw [dpChordScan_def, hpa, hpb, if_pos hlen, dpScan_eq_argmaxF, hsplit]
  have key := argmaxF_eq_of
    (fun i => distToSegment vlen ((keptPts keepF pts).getD i ⟨0, 0, 0⟩)
      (pts.getD a ⟨0, 0, 0⟩) (pts.getD b ⟨0, 0, 0⟩))
    ((0 : α), a')
    (List.range' (a' + 1) (m' - (a' + 1)))
    (List.range' (m' + 1) (a' + 1 + (b' - a' - 1) - m' - 1)) m' ?hp ?hq ?hr
  case hp =>
    intro j hj
    have hjb := List.mem_range'_1.mp hj
    have hjlen : j < (keptIdx keepF pts.length).length := by omega
    beta_reduce
    rw [hdj j hjlen, hdj m' hm'len, hKm, ← hattain]
    refine hlt _ ?_ ?_
    · rw [← hKa]
      exact keptIdx_mono keepF pts.length a' j ha'len hjlen (by omega)
    · rw [← hKm]
      exact keptIdx_mono keepF pts.length j m' hjlen hm'len (by omega)
  case hq =>
    intro j hj
    have hjb := List.mem_range'_1.mp hj
    have hjlen : j < (keptIdx keepF pts.length).length := by omega
    beta_reduce
    rw [hdj j hjlen, hdj m' hm'len, hKm, ← hattain]
    refine hle _ ?_ ?_
    · rw [← hKa]
      exact keptIdx_mono keepF pts.length a' j ha'len hjlen (by omega)
    · rw [← hKb]
      exact keptIdx_mono keepF pts.length j b' hjlen hb' (by omega)
  case hr =>
    beta_reduce
    show (0 : α) < _
    rw [hdj m' hm'len, hKm, ← hattain]
    exact lt_of_le_of_lt heps hs
  rw [key, Prod.mk.injEq]
  refine ⟨?_, rfl⟩
  beta_reduce
  rw [hdj m' hm'len, hKm]
  exact hattain.symm

/-- Replay: rerunning the recursion on the kept sub-polyline reproduces
the original keep-set node by node.  Positions `a', b'` in the kept index
list denote the original interval endpoints `a, b`; if the kept indices
strictly between them are exactly the marks of the original node, the
rerun node succeeds and marks exactly the kept positions of the original
marks. -/
theorem dpReplay (vlen : Vec3 α → α) (pts : List (Vec3 α)) (eps : α) (heps : 0 ≤ eps)
    (keepF : ℕ → Bool) :
    ∀ (dbound a b a' b' fuel fuel' : ℕ) (S : ℕ → Bool),
      b - a ≤ dbound →
      dpSet vlen pts eps fuel a b = some S →
      b' - a' < fuel' → a' < b' →
      b' < (keptIdx keepF pts.length).length →
      (keptIdx keepF pts.length).getD a' 0 = a →
      (keptIdx keepF pts.length).getD b' 0 = b →
      (∀ i, a < i → i < b → (keepF i = true ↔ S i = true)) →
      ∃ S', dpSet vlen (keptPts keepF pts) eps fuel' a' b' = some S' ∧
        ∀ j, S' j = true ↔
          (a' < j ∧ j < b' ∧ S ((keptIdx keepF pts.length).getD j 0) = true) := by
  intro dbound
  induction dbound with
  | zero =>
      intro a b a' b' fuel fuel' S hd hrec hf' hab' hb' hKa hKb hint
      exfalso
      have hab : a < b := by
        rw [← hKa, ← hKb]
        exact keptIdx_mono keepF pts.length a' b' (lt_trans hab' hb') hb' hab'
      omega
  | succ dB ihd =>
      intro a b a' b' fuel fuel' S hd hrec hf' hab' hb' hKa hKb hint
      have ha'len : a' < (keptIdx keepF pts.length).length := lt_trans hab' hb'
      have hab : a < b := by
        rw [← hKa, ← hKb]
        exact keptIdx_mono keepF pts.length a' b' ha'len hb' hab'
      cases fuel with
      | zero => exact absurd hrec (by simp [dpSet])
      | succ f =>
      cases fuel' with
      | zero => omega
      | succ f' =>
      rw [dpSet_succ] at hrec
      by_cases h2 : b - a < 2
      · rw [if_pos h2] at hrec
        have hS : (fun _ : ℕ => false) = S := Option.some.inj hrec
        refine ⟨fun _ => false,
          dpReplay_leaf vlen pts eps keepF a b a' b' (f' + 1) hf' hab' hb' hKa hKb ?_, ?_⟩
        · intro i h1 hi2
          have hiff := hint i h1 hi2
          rw [← hS] at hiff
          cases hki : keepF i
          · rfl
          · exact absurd (hiff.mp hki) (by simp)
        · intro j
          constructor
          · intro hj
            exact absurd hj (by simp)
          · rintro ⟨-, -, hj3⟩
            rw [← hS] at hj3
            exact absurd hj3 (by simp)
      · rw [if_neg h2] at hrec
        by_cases hs : eps < (dpChordScan vlen pts a b).1
        case neg =>
          rw [if_neg hs] at hrec
          have hS : (fun _ : ℕ => false) = S := Option.some.inj hrec
          refine ⟨fun _ => false,
            dpReplay_leaf vlen pts eps keepF a b a' b' (f' + 1) hf' hab' hb' hKa hKb ?_, ?_⟩
          · intro i h1 hi2
            have hiff := hint i h1 hi2
            rw [← hS] at hiff
            cases hki : keepF i
            · rfl
            · exact absurd (hiff.mp hki) (by simp)
          · intro j
            constructor
            · intro hj
              exact absurd hj (by simp)
            · rintro ⟨-, -, hj3⟩
              rw [← hS] at hj3
              exact absurd hj3 (by simp)
        case pos =>
          rw [if_pos hs] at hrec
          obtain ⟨hma, hmb, hattain, hle, hlt⟩ :=
            dpChordScan_spec vlen pts eps a b (by omega) heps hs
          cases hL : dpSet vlen pts eps f a (dpChordScan vlen pts a b).2 with
          | none =>
              cases hR : dpSet vlen pts eps f (dpChordScan vlen pts a b).2 b with
              | none => rw [hL, hR] at hrec; exact Option.noConfusion hrec
              | some R => rw [hL, hR] at hrec; exact Option.noConfusion hrec
          | some L =>
          cases hR : dpSet vlen pts eps f (dpChordScan vlen pts a b).2 b with
          | none => rw [hL, hR] at hrec; exact Option.noConfusion hrec
          | some R =>
          rw [hL, hR] at hrec
          have hS : (fun i : ℕ =>
              (i = (dpChordScan vlen pts a b).2 || L i || R i : Bool)) = S :=
            Option.some.inj hrec
          have hLmem := dpSet_mem vlen pts eps heps f a (dpChordScan vlen pts a b).2 L hL
          have hRmem := dpSet_mem vlen pts eps heps f (dpChordScan vlen pts a b).2 b R hR
          have hmn : (dpChordScan vlen pts a b).2 < pts.length := by
            have hbn := (keptIdx_getD_mem keepF pts.length b' hb').1
            rw [hKb] at hbn
            omega
          have hSm : S (dpChordScan vlen pts a b).2 = true := by
            rw [← hS]
            simp
          have hkm : keepF (dpChordScan vlen pts a b).2 = true := (hint _ hma hmb).mpr hSm
          obtain ⟨m', hm'len, hKm⟩ :=
            keptIdx_pos_of_mem keepF pts.length (dpChordScan vlen pts a b).2 hmn hkm
          have ham' : a' < m' := by
            refine keptIdx_mono_rev keepF pts.length a' m' ha'len hm'len ?_
            rw [hKa, hKm]
            exact hma
          have hm'b : m' < b' := by
            refine keptIdx_mono_rev keepF pts.length m' b' hm'len hb' ?_
            rw [hKm, hKb]
            exact hmb
          have hintL : ∀ i, a < i → i < (dpChordScan vlen pts a b).2 →
              (keepF i = true ↔ L i = true) := by
            intro i h1 hi2
            rw [hint i h1 (lt_trans hi2 hmb), ← hS]
            constructor
            · intro h
              simp only [Bool.or_eq_true, decide_eq_true_eq] at h
              rcases h with (hi | hLi) | hRi
              · omega
              · exact hLi
              · exact absurd (hRmem i hRi).1 (by omega)
            · intro h
              simp [h]
          have hintR : ∀ i, (dpChordScan vlen pts a b).2 < i → i < b →
              (keepF i = true ↔ R i = true) := by
            intro i h1 hi2
            rw [hint i (lt_trans hma h1) hi2, ← hS]
            constructor
            · intro h
              simp only [Bool.or_eq_true, decide_eq_true_eq] at h
              rcases h with (hi | hLi) | hRi
              · omega
              · exact absurd (hLmem i hLi).2 (by omega)
              · exact hRi
            · intro h
              simp [h]
          obtain ⟨S'L, hS'L, hiffL⟩ :=
            ihd a (dpChordScan vlen pts a b).2 a' m' f f' L (by omega) hL (by omega)
              ham' (lt_trans hm'b hb') hKa hKm hintL
          obtain ⟨S'R, hS'R, hiffR⟩ :=
            ihd (dpChordScan vlen pts a b).2 b m' b' f f' R (by omega) hR (by omega)
              hm'b hb' hKm hKb hintR
          have hcs := dpChordScan_replay vlen pts eps heps keepF a b a' b' m'
            hb' hm'len hKa hKb hKm ham' hm'b (by omega) hs
          have hcs1 : (dpChordScan vlen (keptPts keepF pts) a' b').1
              = (dpChordScan vlen pts a b).1 := by rw [hcs]
          have hcs2 : (dpChordScan vlen (keptPts keepF pts) a' b').2 = m' := by rw [hcs]
          refine ⟨fun j => (j = m' || S'L j || S'R j : Bool), ?_, ?_⟩
          · rw [dpSet_succ, if_neg (show ¬(b' - a' < 2) by omega), hcs1, hcs2,
              if_pos hs, hS'L, hS'R]
          · intro j
            constructor
            · intro hj
              simp only [Bool.or_eq_true, decide_eq_true_eq] at hj
              rcases hj with (rfl | hjL) | hjR
              · exact ⟨ham', hm'b, by rw [hKm]; exact hSm⟩
              · obtain ⟨h1, hj2, h3⟩ := (hiffL j).mp hjL
                refine ⟨h1, lt_trans hj2 hm'b, ?_⟩
                rw [← hS]
                simp only [Bool.or_eq_true, decide_eq_true_eq]
                exact Or.inl (Or.inr h3)
              · obtain ⟨h1, hj2, h3⟩ := (hiffR j).mp hjR
                refine ⟨lt_trans ham' h1, hj2, ?_⟩
                rw [← hS]
                simp only [Bool.or_eq_true, decide_eq_true_eq]
                exact Or.inr h3
            · rintro ⟨hj1, hj2, hj3⟩
              rw [← hS] at hj3
              simp only [Bool.or_eq_true, decide_eq_true_eq] at hj3
              have hjlen : j < (keptIdx keepF pts.length).length := lt_trans hj2 hb'
              rcases hj3 with (hKjm | hjL) | hjR
              · have hjm : j = m' := by
                  rcases lt_trichotomy j m' with hlt' | heq' | hgt'
                  · exfalso
                    have := keptIdx_mono keepF pts.length j m' hjlen hm'len hlt'
                    rw [hKjm, hKm] at this
                    exact absurd this (lt_irrefl _)
                  · exact heq'
                  · exfalso
                    have := keptIdx_mono keepF pts.length m' j hm'len hjlen hgt'
                    rw [hKjm, hKm] at this
                    exact absurd this (lt_irrefl _)
                simp [hjm]
              · have hjb := hLmem _ hjL
                have hjm : j < m' := by
                  refine keptIdx_mono_rev keepF pts.length j m' hjlen hm'len ?_
                  rw [hKm]
                  exact hjb.2
                have := (hiffL j).mpr ⟨hj1, hjm, hjL⟩
                simp [this]
              · have hjb := hRmem _ hjR
                have hjm : m' < j := by
                  refine keptIdx_mono_rev keepF pts.length m' j hm'len hjlen ?_
                  rw [hKm]
                  exact hjb.1
                have := (hiffR j).mpr ⟨hjm, hj2, hjR⟩
                simp [this]

theorem simplifyPath_def (vlen : Vec3 α → α) (positions : List (Vec3 α))
    (avgEdgeLength : α) (vertexIndices : List ℕ) (epsilon : Option α) :
    simplifyPath vlen positions avgEdgeLength vertexIndices epsilon =
      if vertexIndices.length ≤ 2 then some vertexIndices
      else
        match dpRec vlen (vertexIndices.map (fun i => positions.getD i ⟨0, 0, 0⟩))
            (epsilon.getD (avgEdgeLength * (1 / 10))) vertexIndices.length 0
            ((vertexIndices.map (fun i => positions.getD i ⟨0, 0, 0⟩)).length - 1)
            (fun i => decide (i = 0
              ∨ i = (vertexIndices.map (fun i => positions.getD i ⟨0, 0, 0⟩)).length - 1)) with
        | none => none
        | some keep => some (filterIdx keep vertexIndices 0) := rfl

/-- Rerunning `simplifyPath` on a non-degenerate first-run output returns
it unchanged. -/
theorem simplify_rerun (vlen : Vec3 α → α) (positions : List (Vec3 α))
    (avgEdgeLength : α) (P R : List ℕ) (epsilon : Option α) (pts : List (Vec3 α))
    (hpts : P.map (fun i => positions.getD i ⟨0, 0, 0⟩) = pts)
    (heps : 0 ≤ epsilon.getD (avgEdgeLength * (1 / 10))) (S : ℕ → Bool)
    (hD : dpSet vlen pts (epsilon.getD (avgEdgeLength * (1 / 10))) P.length 0
      (pts.length - 1) = some S)
    (hR : filterIdx (fun i => (decide (i = 0 ∨ i = pts.length - 1) || S i)) P 0 = R)
    (hP3 : 3 ≤ P.length) (hR3 : 3 ≤ R.length) :
    simplifyPath vlen positions avgEdgeLength R epsilon = some R := by
  have hlen : pts.length = P.length := by
    rw [← hpts]
    exact List.length_map _ _
  set keepF : ℕ → Bool := fun i => (decide (i = 0 ∨ i = pts.length - 1) || S i) with hkF
  have hk0 : keepF 0 = true := by rw [hkF]; simp
  have hkn : keepF (pts.length - 1) = true := by rw [hkF]; simp
  have hKR : R = (keptIdx keepF P.length).map (fun j => P.getD j 0) := by
    rw [← hR]
    exact filterIdx_zero_eq keepF 0 P
  have hKRlen : R.length = (keptIdx keepF pts.length).length := by
    rw [hKR, List.length_map, hlen]
  have hmap : R.map (fun i => positions.getD i ⟨0, 0, 0⟩) = keptPts keepF pts := by
    rw [← hR, ← filterIdx_map, hpts, filterIdx_zero_eq keepF (⟨0, 0, 0⟩ : Vec3 α) pts]
    rfl
  have hK0 : (keptIdx keepF pts.length).getD 0 0 = 0 := by
    obtain ⟨p, hp, hp0⟩ := keptIdx_pos_of_mem keepF pts.length 0 (by omega) hk0
    cases p with
    | zero => exact hp0
    | succ q =>
        exfalso
        have hmono := keptIdx_mono keepF pts.length 0 (q + 1) (by omega) hp (Nat.succ_pos q)
        rw [hp0] at hmono
        omega
  have hKlast : (keptIdx keepF pts.length).getD ((keptIdx keepF pts.length).length - 1) 0
      = pts.length - 1 := by
    obtain ⟨q, hq, hqv⟩ :=
      keptIdx_pos_of_mem keepF pts.length (pts.length - 1) (by omega) hkn
    by_cases hql : q = (keptIdx keepF pts.length).length - 1
    · rw [← hql]
      exact hqv
    · exfalso
      have hmono := keptIdx_mono keepF pts.length q ((keptIdx keepF pts.length).length - 1)
        hq (by omega) (by omega)
      have hbound := (keptIdx_getD_mem keepF pts.length
        ((keptIdx keepF pts.length).length - 1) (by omega)).1
      rw [hqv] at hmono
      omega
  have hint : ∀ i, 0 < i → i < pts.length - 1 → (keepF i = true ↔ S i = true) := by
    intro i h1 hi2
    constructor
    · intro h
      rw [hkF] at h
      simp only [Bool.or_eq_true, decide_eq_true_eq] at h
      rcases h with h | h
      · omega
      · exact h
    · intro h
      rw [hkF]
      simp only [Bool.or_eq_true, decide_eq_true_eq]
      exact Or.inr h
  obtain ⟨S', hS', hiff⟩ := dpReplay vlen pts (epsilon.getD (avgEdgeLength * (1 / 10)))
    heps keepF (pts.length - 1) 0 (pts.length - 1) 0
    ((keptIdx keepF pts.length).length - 1) P.length R.length S
    (by omega) hD (by omega) (by omega) (by omega) hK0 hKlast hint
  rw [simplifyPath_def, if_neg (show ¬R.length ≤ 2 by omega), hmap]
  have hplen : (keptPts keepF pts).length = (keptIdx keepF pts.length).length :=
    keptPts_length keepF pts
  rw [hplen, dpRec_eq_dpSet, hS', Option.map_some']
  refine congrArg some (filterIdx_all _ R 0 ?_)
  intro j h0 hj
  by_cases hj0 : j = 0
  · simp [hj0]
  by_cases hjl : j = (keptIdx keepF pts.length).length - 1
  · simp [hjl]
  have hjK : j < (keptIdx keepF pts.length).length := by omega
  have hSj : S ((keptIdx keepF pts.length).getD j 0) = true := by
    have hb1 := keptIdx_mono keepF pts.length 0 j (by omega) hjK (by omega)
    have hb2 := keptIdx_mono keepF pts.length j ((keptIdx keepF pts.length).length - 1)
      hjK (by omega) (by omega)
    refine (hint _ ?_ ?_).mp (keptIdx_getD_mem keepF pts.length j hjK).2
    · omega
    · omega
  have hS'j : S' j = true := (hiff j).mpr ⟨by omega, by omega, hSj⟩
  simp [hS'j]

/-- C9 (amended): for a non-negative tolerance (in particular the default
`avgEdgeLength * 0.1` of a well-formed build), `simplifyPath` is
idempotent: if the first run terminates with result `R`, rerunning on `R`
returns `R` unchanged.  (For a negative tolerance the recursion need not
terminate: see `C9_counterexample`.) -/
theorem C9_simplify_idempotent (vlen : Vec3 α → α) (positions : List (Vec3 α))
    (avgEdgeLength : α) (P : List ℕ) (epsilon : Option α) (R : List ℕ)
    (heps : 0 ≤ epsilon.getD (avgEdgeLength * (1 / 10)))
    (hrun : simplifyPath vlen positions avgEdgeLength P epsilon = some R) :
    simplifyPath vlen positions avgEdgeLength R epsilon = some R := by
  by_cases hP2 : P.length ≤ 2
  · have h1 : simplifyPath vlen positions avgEdgeLength P epsilon = some P := by
      rw [simplifyPath_def, if_pos hP2]
    rw [h1] at hrun
    have hPR : P = R := Option.some.inj hrun
    rw [← hPR, h1]
  · rw [simplifyPath_def, if_neg hP2, dpRec_eq_dpSet] at hrun
    by_cases hR2 : R.length ≤ 2
    · rw [simplifyPath_def, if_pos hR2]
    · cases hD : dpSet vlen (P.map (fun i => positions.getD i ⟨0, 0, 0⟩))
          (epsilon.getD (avgEdgeLength * (1 / 10))) P.length 0
          ((P.map (fun i => positions.getD i ⟨0, 0, 0⟩)).length - 1) with
      | none =>
          rw [hD, Option.map_none'] at hrun
          exact Option.noConfusion hrun
      | some S =>
          rw [hD, Option.map_some'] at hrun
          exact simplify_rerun vlen positions avgEdgeLength P R epsilon
            (P.map (fun i => positions.getD i ⟨0, 0, 0⟩)) rfl heps S hD
            (Option.some.inj hrun) (by omega) (by omega)

set_option maxHeartbeats 1000000 in
/-- Witness for C9: a concrete three-point collinear polyline simplifies
to its two endpoints, and rerunning leaves the result unchanged, via
`C9_simplify_idempotent` at tolerance `1`. -/
theorem C9_simplify_idempotent_witness :
    (0 : ℚ) ≤ (some (1 : ℚ)).getD (1 * (1 / 10)) ∧
    simplifyPath vlenL1 [⟨0, 0, 0⟩, ⟨1, 0, 0⟩, ⟨2, 0, 0⟩] 1 [0, 1, 2]
      (some 1) = some [0, 2] ∧
    simplifyPath vlenL1 [⟨0, 0, 0⟩, ⟨1, 0, 0⟩, ⟨2, 0, 0⟩] 1 [0, 2]
      (some 1) = some [0, 2] :=
  ⟨by norm_num, by
    norm_num [simplifyPath, dpRec, dpScan, distToSegment, vsub, vdot, vscaleAdd,
      vlenL1, List.range', Function.update, filterIdx, List.getD_cons_zero,
      List.getD_cons_succ],
    C9_simplify_idempotent vlenL1 [⟨0, 0, 0⟩, ⟨1, 0, 0⟩, ⟨2, 0, 0⟩] 1
      [0, 1, 2] (some 1) [0, 2] (by norm_num) (by
        norm_num [simplifyPath, dpRec, dpScan, distToSegment, vsub, vdot, vscaleAdd,
          vlenL1, List.range', Function.update, filterIdx, List.getD_cons_zero,
          List.getD_cons_succ])⟩

/-! ## Claims C1 and C7: A* shortest path (`meshGraph.ts` lines 11-164)

The `MinHeap` array and its `bubbleUp` / `bubbleDown` / `swap` routines
are embedded over a position list of `(v, f)` entries; `indexMap` is the
derived position of `v` in the array (the JS map is kept exactly in sync
with the array and vertices are never duplicated).  JS `Infinity` becomes
`none`, `prev = -1` becomes `none`.  The two `while` loops take fuel: the
A* loop gets one unit per possible pop (`2 + n + Σ degrees`), the path
reconstruction one unit per vertex. -/

/-- `MinHeap.swap` (`meshGraph.ts` lines 75-82). -/
def hswap (l : List (ℕ × α)) (i j : ℕ) : List (ℕ × α) :=
  (l.set i (l.getD j (0, 0))).set j (l.getD i (0, 0))

/-- `MinHeap.bubbleUp` (lines 52-59); the fuel is the starting index,
which bounds the number of parent steps. -/
def bubbleUp : ℕ → List (ℕ × α) → ℕ → List (ℕ × α)
  | 0, l, _ => l
  | fuel + 1, l, idx =>
      if idx = 0 then l
      else if (l.getD ((idx - 1) / 2) (0, 0)).2 ≤ (l.getD idx (0, 0)).2 then l
      else bubbleUp fuel (hswap l ((idx - 1) / 2) idx) ((idx - 1) / 2)

/-- The `smallest` selection of one `bubbleDown` step (lines 63-68). -/
def dsmall (l : List (ℕ × α)) (idx : ℕ) : ℕ :=
  let left := 2 * idx + 1
  let right := 2 * idx + 2
  let s1 := if left < l.length ∧ (l.getD left (0, 0)).2 < (l.getD idx (0, 0)).2
    then left else idx
  if right < l.length ∧ (l.getD right (0, 0)).2 < (l.getD s1 (0, 0)).2
  then right else s1

/-- `MinHeap.bubbleDown` (lines 61-73); the fuel is the array length. -/
def bubbleDown : ℕ → List (ℕ × α) → ℕ → List (ℕ × α)
  | 0, l, _ => l
  | fuel + 1, l, idx =>
      if dsmall l idx = idx then l
      else bubbleDown fuel (hswap l idx (dsmall l idx)) (dsmall l idx)

/-- `MinHeap.push` (lines 19-28), including the `decreaseKey` path
(lines 43-50) taken when the vertex is already in the heap. -/
def heapPush (h : List (ℕ × α)) (v : ℕ) (f : α) : List (ℕ × α) :=
  if (h.map Prod.fst).contains v then
    let idx := (h.map Prod.fst).indexOf v
    if f < (h.getD idx (0, 0)).2 then bubbleUp idx (h.set idx (v, f)) idx
    else h
  else bubbleUp h.length (h ++ [(v, f)]) h.length

/-- `MinHeap.pop` (lines 30-41): return the root, move the last entry to
the root and sift it down. -/
def heapPop (h : List (ℕ × α)) : Option ((ℕ × α) × List (ℕ × α)) :=
  match h with
  | [] => none
  | _ :: _ =>
      let min := h.getD 0 (0, 0)
      let last := h.getD (h.length - 1) (0, 0)
      let rest := h.dropLast
      if rest.length = 0 then some (min, rest)
      else some (min, bubbleDown rest.length (rest.set 0 last) 0)

/-- The mutable locals of `shortestPath` (lines 126-135). -/
structure AStarState (α : Type) where
  heap : List (ℕ × α)
  gScore : ℕ → Option α
  fScore : ℕ → Option α
  prev : ℕ → Option ℕ
  closed : ℕ → Bool

/-- One step of the neighbor relaxation loop of `shortestPath`
(lines 146-155). -/
def relaxStep (h : ℕ → α) (u : ℕ) (st : AStarState α) (e : ℕ × α) : AStarState α :=
  if st.closed e.1 then st
  else
    match st.gScore u with
    | none => st
    | some gu =>
        let tg := gu + e.2
        let better := match st.gScore e.1 with
          | none => true
          | some gn => decide (tg < gn)
        if better then
          { heap := heapPush st.heap e.1 (tg + h e.1)
            gScore := Function.update st.gScore e.1 (some tg)
            fScore := Function.update st.fScore e.1 (some (tg + h e.1))
            prev := Function.update st.prev e.1 (some u)
            closed := st.closed }
        else st

/-- The neighbor relaxation loop of `shortestPath` (lines 145-156). -/
def relaxNbrs (h : ℕ → α) (u : ℕ) (st : AStarState α) (nbrs : List (ℕ × α)) :
    AStarState α :=
  nbrs.foldl (relaxStep h u) st

/-- The main A* loop (lines 137-157). -/
def aStarLoop (h : ℕ → α) (adj : List (List (ℕ × α))) (endV : ℕ) :
    ℕ → AStarState α → AStarState α
  | 0, st => st
  | fuel + 1, st =>
      match heapPop st.heap with
      | none => st
      | some (cur, rest) =>
          if cur.1 = endV then { st with heap := rest }
          else if st.closed cur.1 then
            aStarLoop h adj endV fuel { st with heap := rest }
          else
            aStarLoop h adj endV fuel
              (relaxNbrs h cur.1
                { heap := rest
                  gScore := st.gScore
                  fScore := st.fScore
                  prev := st.prev
                  closed := Function.update st.closed cur.1 true }
                (adjGet adj cur.1))

/-- The path reconstruction loop of `shortestPath` (lines 161-163):
follow `prev` until `-1`. -/
def buildPath (prev : ℕ → Option ℕ) : ℕ → ℕ → List ℕ
  | 0, _ => []
  | fuel + 1, v =>
      v :: match prev v with
        | none => []
        | some p => buildPath prev fuel p

/-- Fuel of the A* loop: at most one pop per initial push plus one per
relaxation push, i.e. one per vertex closure plus its degree. -/
def aStarFuel (adj : List (List (ℕ × α))) (n : ℕ) : ℕ :=
  2 + n + (adj.map List.length).sum

/-- `MeshGraphBuilder.shortestPath` (lines 111-164).  `dist` models
`THREE.Vector3.distanceTo`, used by the heuristic. -/
def MeshGraphBuilder.shortestPath (dist : Vec3 α → Vec3 α → α)
    (g : MeshGraphBuilder α) (start endV : ℕ) : List ℕ :=
  let n := g.positions.length
  if n ≤ start ∨ n ≤ endV then []
  else if start = endV then [start]
  else
    let endPos := g.positions.getD endV ⟨0, 0, 0⟩
    let h : ℕ → α := fun v => dist (g.positions.getD v ⟨0, 0, 0⟩) endPos
    let st0 : AStarState α :=
      { heap := heapPush [] start (h start)
        gScore := Function.update (fun _ => none) start (some 0)
        fScore := Function.update (fun _ => none) start (some (h start))
        prev := fun _ => none
        closed := fun _ => false }
    let fin := aStarLoop h g.adjacency endV (aStarFuel g.adjacency n) st0
    if fin.prev endV = none ∧ start ≠ endV then []
    else (buildPath fin.prev (n + 1) endV).reverse

/-- Reachability along the adjacency lists, starting from `u`. -/
inductive Reach (adj : List (List (ℕ × α))) (u : ℕ) : ℕ → Prop
  | refl : Reach adj u u
  | step {v t : ℕ} {w : α} : Reach adj u v → (t, w) ∈ adjGet adj v → Reach adj u t

/-- The final A* state of a `shortestPath` call. -/
def aStarRun (dist : Vec3 α → Vec3 α → α) (g : MeshGraphBuilder α)
    (start endV : ℕ) : AStarState α :=
  aStarLoop (fun v => dist (g.positions.getD v ⟨0, 0, 0⟩) (g.positions.getD endV ⟨0, 0, 0⟩))
    g.adjacency endV (aStarFuel g.adjacency g.positions.length)
    { heap := heapPush [] start
        (dist (g.positions.getD start ⟨0, 0, 0⟩) (g.positions.getD endV ⟨0, 0, 0⟩))
      gScore := Function.update (fun _ => none) start (some 0)
      fScore := Function.update (fun _ => none) start
        (some (dist (g.positions.getD start ⟨0, 0, 0⟩) (g.positions.getD endV ⟨0, 0, 0⟩)))
      prev := fun _ => none
      closed := fun _ => false }

theorem shortestPath_eq (dist : Vec3 α → Vec3 α → α) (g : MeshGraphBuilder α)
    (start endV : ℕ) :
    MeshGraphBuilder.shortestPath dist g start endV =
      if g.positions.length ≤ start ∨ g.positions.length ≤ endV then []
      else if start = endV then [start]
      else if (aStarRun dist g start endV).prev endV = none ∧ start ≠ endV then []
      else (buildPath (aStarRun dist g start endV).prev (g.positions.length + 1) endV).reverse
  := rfl

/-- Reachability soundness of the A* state: every vertex with a finite
`gScore` and every vertex with a predecessor is reachable from `start`. -/
def ReachInv (adj : List (List (ℕ × α))) (start : ℕ) (st : AStarState α) : Prop :=
  (∀ v, st.gScore v ≠ none → Reach adj start v) ∧
  (∀ v u, st.prev v = some u → Reach adj start v)

theorem relaxStep_inv (adj : List (List (ℕ × α))) (start : ℕ) (h : ℕ → α) (u : ℕ)
    (st : AStarState α) (e : ℕ × α) (he : e ∈ adjGet adj u)
    (hst : ReachInv adj start st) : ReachInv adj start (relaxStep h u st e) := by
  unfold relaxStep
  simp only []
  by_cases hc : st.closed e.1
  · rw [if_pos hc]
    exact hst
  · rw [if_neg hc]
    cases hgu : st.gScore u with
    | none => exact hst
    | some gu =>
        simp only []
        have hru : Reach adj start u := hst.1 u (by rw [hgu]; exact Option.noConfusion)
        have hre : Reach adj start e.1 := by
          have hmem : (e.1, e.2) ∈ adjGet adj u := by
            rw [Prod.mk.eta]
            exact he
          exact Reach.step hru hmem
        by_cases hb : (match st.gScore e.1 with
          | none => true
          | some gn => decide (gu + e.2 < gn)) = true
        · rw [if_pos hb]
          refine ⟨?_, ?_⟩
          · intro v hv
            by_cases hve : v = e.1
            · rw [hve]; exact hre
            · refine hst.1 v ?_
              simp only [] at hv
              rw [Function.update_noteq hve] at hv
              exact hv
          · intro v p hv
            by_cases hve : v = e.1
            · rw [hve]; exact hre
            · refine hst.2 v p ?_
              simp only [] at hv
              rw [Function.update_noteq hve] at hv
              exact hv
        · rw [if_neg hb]
          exact hst

theorem relaxNbrs_inv (adj : List (List (ℕ × α))) (start : ℕ) (h : ℕ → α) (u : ℕ)
    (nbrs : List (ℕ × α)) (hn : ∀ e ∈ nbrs, e ∈ adjGet adj u) :
    ∀ st : AStarState α, ReachInv adj start st →
      ReachInv adj start (relaxNbrs h u st nbrs) := by
  induction nbrs with
  | nil => intro st hst; exact hst
  | cons e tl ih =>
      intro st hst
      have hcons : relaxNbrs h u st (e :: tl) = relaxNbrs h u (relaxStep h u st e) tl := rfl
      rw [hcons]
      exact ih (fun x hx => hn x (List.mem_cons_of_mem _ hx)) _
        (relaxStep_inv adj start h u st e (hn e (List.mem_cons_self e tl)) hst)

theorem aStarLoop_inv (adj : List (List (ℕ × α))) (start : ℕ) (h : ℕ → α) (endV : ℕ) :
    ∀ (fuel : ℕ) (st : AStarState α), ReachInv adj start st →
      ReachInv adj start (aStarLoop h adj endV fuel st) := by
  intro fuel
  induction fuel with
  | zero => intro st hst; exact hst
  | succ fuel ih =>
      intro st hst
      show ReachInv adj start (match heapPop st.heap with
        | none => st
        | some (cur, rest) =>
            if cur.1 = endV then { st with heap := rest }
            else if st.closed cur.1 then aStarLoop h adj endV fuel { st with heap := rest }
            else aStarLoop h adj endV fuel
              (relaxNbrs h cur.1
                { heap := rest
                  gScore := st.gScore
                  fScore := st.fScore
                  prev := st.prev
                  closed := Function.update st.closed cur.1 true }
                (adjGet adj cur.1)))
      cases hpop : heapPop st.heap with
      | none => exact hst
      | some pr =>
          obtain ⟨cur, rest⟩ := pr
          simp only []
          by_cases hend : cur.1 = endV
          · rw [if_pos hend]
            exact hst
          · rw [if_neg hend]
            by_cases hcl : st.closed cur.1
            · rw [if_pos hcl]
              exact ih _ hst
            · rw [if_neg hcl]
              refine ih _ (relaxNbrs_inv adj start h cur.1 (adjGet adj cur.1)
                (fun e he => he) _ ⟨hst.1, hst.2⟩)

/-- C7: `shortestPath` returns `[start]` for an in-range self query,
and the empty list both for out-of-range endpoints and for an unreachable
target. -/
theorem C7_shortestPath_degenerate (dist : Vec3 α → Vec3 α → α)
    (g : MeshGraphBuilder α) (start endV : ℕ) :
    (start = endV → start < g.positions.length →
      MeshGraphBuilder.shortestPath dist g start endV = [start]) ∧
    (g.positions.length ≤ start ∨ g.positions.length ≤ endV →
      MeshGraphBuilder.shortestPath dist g start endV = []) ∧
    (start < g.positions.length → endV < g.positions.length →
      ¬ Reach g.adjacency start endV →
      MeshGraphBuilder.shortestPath dist g start endV = []) := by
  refine ⟨?_, ?_, ?_⟩
  · intro he hlt
    rw [shortestPath_eq, if_neg (by omega), if_pos he]
  · intro hout
    rw [shortestPath_eq, if_pos hout]
  · intro h1 h2 hnr
    have hne : start ≠ endV := by
      intro he
      exact hnr (he ▸ Reach.refl)
    rw [shortestPath_eq, if_neg (by omega), if_neg hne]
    have hinv : ReachInv g.adjacency start (aStarRun dist g start endV) := by
      refine aStarLoop_inv g.adjacency start _ endV _ _ ⟨?_, ?_⟩
      · intro v hv
        by_cases hvs : v = start
        · rw [hvs]; exact Reach.refl
        · exfalso
          refine hv ?_
          show (Function.update (fun _ => none) start (some (0 : α))) v = none
          rw [Function.update_noteq hvs]
      · intro v u hv
        exact absurd hv (by simp)
    have hprev : (aStarRun dist g start endV).prev endV = none := by
      cases hp : (aStarRun dist g start endV).prev endV with
      | none => rfl
      | some u => exact absurd (hinv.2 endV u hp) hnr
    rw [if_pos ⟨hprev, hne⟩]

/-- Witness for C7: on a two-vertex edgeless graph, the self query
returns `[0]`, an out-of-range start returns `[]`, and the unreachable
query `0 → 1` returns `[]`, via `C7_shortestPath_degenerate`. -/
theorem C7_shortestPath_degenerate_witness :
    MeshGraphBuilder.shortestPath distL1
      (⟨[⟨0, 0, 0⟩, ⟨1, 0, 0⟩], [[], []], [0, 1], 1⟩ : MeshGraphBuilder ℚ) 0 0 = [0] ∧
    MeshGraphBuilder.shortestPath distL1
      (⟨[⟨0, 0, 0⟩, ⟨1, 0, 0⟩], [[], []], [0, 1], 1⟩ : MeshGraphBuilder ℚ) 5 1 = [] ∧
    MeshGraphBuilder.shortestPath distL1
      (⟨[⟨0, 0, 0⟩, ⟨1, 0, 0⟩], [[], []], [0, 1], 1⟩ : MeshGraphBuilder ℚ) 0 1 = [] :=
  ⟨(C7_shortestPath_degenerate distL1 _ 0 0).1 rfl (by decide),
   (C7_shortestPath_degenerate distL1 _ 5 1).2.1 (Or.inl (by decide)),
   (C7_shortestPath_degenerate distL1 _ 0 1).2.2 (by decide) (by decide) (by
     intro hr
     cases hr with
     | step hv hm =>
         rename_i v w
         have hempty : ∀ x : ℕ, adjGet ([[], []] : List (List (ℕ × ℚ))) x = [] := by
           intro x
           rcases x with _ | x
           · rfl
           · rcases x with _ | x
             · rfl
             · rfl
         rw [hempty v] at hm
         exact absurd hm (List.not_mem_nil _))⟩

/-! ### Walks and their costs -/

/-- A walk along the adjacency lists together with its total edge
weight. -/
inductive WalkL (adj : List (List (ℕ × α))) : List ℕ → α → Prop
  | single (u : ℕ) : WalkL adj [u] 0
  | cons (u v : ℕ) (rest : List ℕ) (w c : α) :
      (v, w) ∈ adjGet adj u → WalkL adj (v :: rest) c →
      WalkL adj (u :: v :: rest) (w + c)

theorem WalkL.head_ne_nil {adj : List (List (ℕ × α))} {q : List ℕ} {c : α}
    (hq : WalkL adj q c) : q ≠ [] := by
  cases hq <;> simp

theorem walk_append {adj : List (List (ℕ × α))} :
    ∀ {q : List ℕ} {c : α} {u v : ℕ} {w : α},
      WalkL adj q c → q.getLast? = some u → (v, w) ∈ adjGet adj u →
      WalkL adj (q ++ [v]) (c + w) ∧ (q ++ [v]).head? = q.head? ∧
        (q ++ [v]).getLast? = some v := by
  intro q
  induction q with
  | nil => intro c u v w hw; exact absurd rfl hw.head_ne_nil
  | cons a tl ih =>
      intro c u v w hw hlast hmem
      cases tl with
      | nil =>
          cases hw with
          | single =>
              have hau : a = u := by
                have : some a = some u := hlast
                exact Option.some.inj this
              subst hau
              refine ⟨?_, rfl, rfl⟩
              have h0 : (0 : α) + w = 0 + w := rfl
              show WalkL adj (a :: v :: []) (0 + w)
              rw [zero_add, show (w : α) = w + 0 from (add_zero w).symm]
              exact WalkL.cons a v [] w 0 hmem (WalkL.single v)
      | cons b tl2 =>
          cases hw with
          | cons _ _ _ w1 c1 hm1 hw1 =>
              have hlast' : (b :: tl2).getLast? = some u := by
                rw [← hlast]
                exact List.getLast?_cons_cons.symm
              obtain ⟨hw2, hh2, hl2⟩ := ih hw1 hlast' hmem
              refine ⟨?_, rfl, ?_⟩
              · show WalkL adj (a :: ((b :: tl2) ++ [v])) (w1 + c1 + w)
                rw [add_assoc]
                exact WalkL.cons a b (tl2 ++ [v]) w1 (c1 + w) hm1 hw2
              · show ((a :: b :: tl2) ++ [v]).getLast? = some v
                rw [List.cons_append, List.cons_append, List.getLast?_cons_cons]
                exact hl2

/-- Telescoped heuristic consistency along a walk: `h` changes by at most
the walk's weight. -/
theorem walk_tele {adj : List (List (ℕ × α))} (h : ℕ → α)
    (hcons : ∀ u, ∀ e ∈ adjGet adj u, h u ≤ e.2 + h e.1) :
    ∀ {q : List ℕ} {c : α} {a b : ℕ},
      WalkL adj q c → q.head? = some a → q.getLast? = some b →
      h a ≤ c + h b := by
  intro q
  induction q with
  | nil => intro c a b hw; exact absurd rfl hw.head_ne_nil
  | cons x tl ih =>
      intro c a b hw hhead hlast
      have hxa : x = a := Option.some.inj hhead
      subst hxa
      cases tl with
      | nil =>
          cases hw with
          | single =>
              have hxb : x = b := Option.some.inj hlast
              subst hxb
              rw [zero_add]
      | cons y tl2 =>
          cases hw with
          | cons _ _ _ w1 c1 hm1 hw1 =>
              have hlast' : (y :: tl2).getLast? = some b := by
                rw [← hlast]
                exact List.getLast?_cons_cons.symm
              have hy := ih hw1 rfl hlast'
              have hx := hcons x (y, w1) hm1
              calc h x ≤ w1 + h y := hx
                _ ≤ w1 + (c1 + h b) := by
                    exact add_le_add_left hy w1
                _ = w1 + c1 + h b := by ring

/-- Reachability yields a walk. -/
theorem reach_walk {adj : List (List (ℕ × α))} {s t : ℕ}
    (hr : Reach adj s t) :
    ∃ q c, WalkL adj q c ∧ q.head? = some s ∧ q.getLast? = some t := by
  induction hr with
  | refl => exact ⟨[s], 0, WalkL.single s, rfl, rfl⟩
  | step hrv hmem ih =>
      obtain ⟨q, c, hw, hh, hl⟩ := ih
      rename_i v t' w
      obtain ⟨hw2, hh2, hl2⟩ := walk_append hw hl hmem
      refine ⟨q ++ [t'], c + w, hw2, ?_, hl2⟩
      rw [hh2, hh]

/-! ### Binary-heap correctness: the array is a permutation of its
entries and the root is minimal -/

theorem hswap_length (l : List (ℕ × α)) (i j : ℕ) :
    (hswap l i j).length = l.length := by
  simp [hswap]

theorem getD_set_at {β : Type} (l : List β) (i : ℕ) (a d : β) (h : i < l.length) :
    (l.set i a).getD i d = a := by
  have h' : i < (l.set i a).length := by simpa using h
  rw [List.getD_eq_getElem _ _ h', List.getElem_set, if_pos rfl]

theorem getD_set_ne {β : Type} (l : List β) (i k : ℕ) (a d : β) (h : i ≠ k) :
    (l.set i a).getD k d = l.getD k d := by
  by_cases hk : k < l.length
  · have hk' : k < (l.set i a).length := by simpa using hk
    rw [List.getD_eq_getElem _ _ hk', List.getD_eq_getElem _ _ hk, List.getElem_set,
      if_neg h]
  · have hk2 : l.length ≤ k := by omega
    rw [List.getD_eq_getElem?_getD, List.getD_eq_getElem?_getD,
      List.getElem?_eq_none (by simpa using hk2), List.getElem?_eq_none hk2]

theorem set_getD_self {β : Type} (l : List β) (i : ℕ) (d : β) (h : i < l.length) :
    l.set i (l.getD i d) = l := by
  apply List.ext_getElem
  · simp
  · intro k h1 h2
    by_cases hk : i = k
    · subst hk
      rw [List.getElem_set, if_pos rfl, List.getD_eq_getElem _ _ h]
    · rw [List.getElem_set, if_neg hk]

theorem hswap_getD_right (l : List (ℕ × α)) (i j : ℕ) (hj : j < l.length) :
    (hswap l i j).getD j (0, 0) = l.getD i (0, 0) := by
  show ((l.set i (l.getD j (0, 0))).set j (l.getD i (0, 0))).getD j (0, 0)
      = l.getD i (0, 0)
  exact getD_set_at _ _ _ _ (by simpa using hj)

theorem hswap_getD_left (l : List (ℕ × α)) (i j : ℕ) (hij : i ≠ j) (hi : i < l.length) :
    (hswap l i j).getD i (0, 0) = l.getD j (0, 0) := by
  show ((l.set i (l.getD j (0, 0))).set j (l.getD i (0, 0))).getD i (0, 0)
      = l.getD j (0, 0)
  rw [getD_set_ne (l.set i (l.getD j (0, 0))) j i _ _ (Ne.symm hij)]
  exact getD_set_at _ _ _ _ hi

theorem hswap_getD_other (l : List (ℕ × α)) (i j k : ℕ) (hki : k ≠ i) (hkj : k ≠ j) :
    (hswap l i j).getD k (0, 0) = l.getD k (0, 0) := by
  show ((l.set i (l.getD j (0, 0))).set j (l.getD i (0, 0))).getD k (0, 0)
      = l.getD k (0, 0)
  rw [getD_set_ne (l.set i (l.getD j (0, 0))) j k _ _ (Ne.symm hkj),
    getD_set_ne l i k _ _ (Ne.symm hki)]

theorem swap0 {β : Type} (d : β) :
    ∀ (tl : List β) (k : ℕ), k < tl.length → ∀ a : β,
      ((tl.getD k d) :: tl.set k a).Perm (a :: tl) := by
  intro tl
  induction tl with
  | nil => intro k hk; exact absurd hk (by simp)
  | cons b r ih =>
      intro k hk a
      cases k with
      | zero => exact List.Perm.swap a b r
      | succ m =>
          have hm : m < r.length := by simpa using hk
          show ((r.getD m d) :: b :: r.set m a).Perm (a :: b :: r)
          exact ((List.Perm.swap b (r.getD m d) (r.set m a)).trans
            ((ih m hm a).cons b)).trans (List.Perm.swap a b r)

theorem hswap_self (l : List (ℕ × α)) (i : ℕ) (hi : i < l.length) :
    hswap l i i = l := by
  show (l.set i (l.getD i (0, 0))).set i (l.getD i (0, 0)) = l
  rw [List.set_set, set_getD_self _ _ _ hi]

theorem hswap_comm (l : List (ℕ × α)) (i j : ℕ) :
    hswap l i j = hswap l j i := by
  by_cases hij : i = j
  · rw [hij]
  · show (l.set i (l.getD j (0, 0))).set j (l.getD i (0, 0))
        = (l.set j (l.getD i (0, 0))).set i (l.getD j (0, 0))
    exact (List.set_comm _ _ l (Ne.symm hij)).symm

theorem hswap_cons (x : ℕ × α) (tl : List (ℕ × α)) (m k : ℕ) :
    hswap (x :: tl) (m + 1) (k + 1) = x :: hswap tl m k := rfl

theorem hswap_perm :
    ∀ (l : List (ℕ × α)) (i j : ℕ), i < l.length → j < l.length →
      (hswap l i j).Perm l := by
  intro l
  induction l with
  | nil => intro i j hi _; exact absurd hi (by simp)
  | cons x tl ih =>
      intro i j hi hj
      rcases Nat.eq_zero_or_pos i with hi0 | hip
      · rcases Nat.eq_zero_or_pos j with hj0 | hjp
        · rw [hi0, hj0, hswap_self _ _ (by simpa using hi)]
        · obtain ⟨k, rfl⟩ : ∃ k, j = k + 1 := ⟨j - 1, by omega⟩
          subst hi0
          have hk : k < tl.length := by simpa using hj
          show ((tl.getD k (0, 0)) :: tl.set k x).Perm (x :: tl)
          exact swap0 (0, 0) tl k hk x
      · obtain ⟨m, rfl⟩ : ∃ m, i = m + 1 := ⟨i - 1, by omega⟩
        rcases Nat.eq_zero_or_pos j with hj0 | hjp
        · subst hj0
          rw [hswap_comm]
          have hm : m < tl.length := by simpa using hi
          show ((tl.getD m (0, 0)) :: tl.set m x).Perm (x :: tl)
          exact swap0 (0, 0) tl m hm x
        · obtain ⟨k, rfl⟩ : ∃ k, j = k + 1 := ⟨j - 1, by omega⟩
          rw [hswap_cons]
          exact ((ih m k (by simpa using hi) (by simpa using hj)).cons x)

/-- The binary-heap ordering: every entry's parent has a key at most its
own. -/
def HeapProp (l : List (ℕ × α)) : Prop :=
  ∀ i, 0 < i → i < l.length → (l.getD ((i - 1) / 2) (0, 0)).2 ≤ (l.getD i (0, 0)).2

theorem heap_root_min (l : List (ℕ × α)) (hh : HeapProp l) :
    ∀ i, i < l.length → (l.getD 0 (0, 0)).2 ≤ (l.getD i (0, 0)).2 := by
  intro i
  induction i using Nat.strong_induction_on with
  | _ i ih =>
      intro hi
      rcases Nat.eq_zero_or_pos i with h0 | hp
      · rw [h0]
      · have hpar : (i - 1) / 2 < i := by omega
        exact le_trans (ih _ hpar (lt_trans hpar hi)) (hh i hp hi)

theorem bubbleUp_succ (fuel : ℕ) (l : List (ℕ × α)) (idx : ℕ) :
    bubbleUp (fuel + 1) l idx =
      if idx = 0 then l
      else if (l.getD ((idx - 1) / 2) (0, 0)).2 ≤ (l.getD idx (0, 0)).2 then l
      else bubbleUp fuel (hswap l ((idx - 1) / 2) idx) ((idx - 1) / 2) := rfl

theorem bubbleDown_succ (fuel : ℕ) (l : List (ℕ × α)) (idx : ℕ) :
    bubbleDown (fuel + 1) l idx =
      if dsmall l idx = idx then l
      else bubbleDown fuel (hswap l idx (dsmall l idx)) (dsmall l idx) := rfl

theorem bubbleUp_perm : ∀ (fuel : ℕ) (l : List (ℕ × α)) (idx : ℕ), idx < l.length →
    (bubbleUp fuel l idx).Perm l := by
  intro fuel
  induction fuel with
  | zero => intro l idx _; exact List.Perm.refl l
  | succ fuel ih =>
      intro l idx hidx
      rw [bubbleUp_succ]
      by_cases h0 : idx = 0
      · rw [if_pos h0]
      · rw [if_neg h0]
        by_cases hcmp : (l.getD ((idx - 1) / 2) (0, 0)).2 ≤ (l.getD idx (0, 0)).2
        · rw [if_pos hcmp]
        · rw [if_neg hcmp]
          have hp : (idx - 1) / 2 < l.length := by omega
          exact (ih (hswap l ((idx - 1) / 2) idx) ((idx - 1) / 2)
            (by rw [hswap_length]; omega)).trans (hswap_perm l _ idx hp hidx)

theorem dsmall_lt (l : List (ℕ × α)) (idx : ℕ) (h : idx < l.length) :
    dsmall l idx < l.length := by
  unfold dsmall
  simp only []
  split_ifs with h1 h2 h3 <;> omega

theorem dsmall_eq_spec (l : List (ℕ × α)) (idx : ℕ) (hs : dsmall l idx = idx) :
    (2 * idx + 1 < l.length →
      (l.getD idx (0, 0)).2 ≤ (l.getD (2 * idx + 1) (0, 0)).2) ∧
    (2 * idx + 2 < l.length →
      (l.getD idx (0, 0)).2 ≤ (l.getD (2 * idx + 2) (0, 0)).2) := by
  unfold dsmall at hs
  simp only [] at hs
  by_cases hc1 : 2 * idx + 1 < l.length ∧
      (l.getD (2 * idx + 1) (0, 0)).2 < (l.getD idx (0, 0)).2
  · rw [if_pos hc1] at hs
    by_cases hc2 : 2 * idx + 2 < l.length ∧
        (l.getD (2 * idx + 2) (0, 0)).2 < (l.getD (2 * idx + 1) (0, 0)).2
    · rw [if_pos hc2] at hs; omega
    · rw [if_neg hc2] at hs; omega
  · rw [if_neg hc1] at hs
    by_cases hc2 : 2 * idx + 2 < l.length ∧
        (l.getD (2 * idx + 2) (0, 0)).2 < (l.getD idx (0, 0)).2
    · rw [if_pos hc2] at hs; omega
    · refine ⟨fun hl => ?_, fun hr => ?_⟩
      · exact le_of_not_lt fun hlt => hc1 ⟨hl, hlt⟩
      · exact le_of_not_lt fun hlt => hc2 ⟨hr, hlt⟩

theorem dsmall_ne_spec (l : List (ℕ × α)) (idx : ℕ) (hs : dsmall l idx ≠ idx) :
    dsmall l idx < l.length ∧ idx < dsmall l idx ∧
    (dsmall l idx - 1) / 2 = idx ∧
    (l.getD (dsmall l idx) (0, 0)).2 < (l.getD idx (0, 0)).2 ∧
    (∀ c, (c = 2 * idx + 1 ∨ c = 2 * idx + 2) → c < l.length →
      (l.getD (dsmall l idx) (0, 0)).2 ≤ (l.getD c (0, 0)).2) := by
  have hd : dsmall l idx =
      if 2 * idx + 2 < l.length ∧ (l.getD (2 * idx + 2) (0, 0)).2
          < (l.getD (if 2 * idx + 1 < l.length ∧ (l.getD (2 * idx + 1) (0, 0)).2
              < (l.getD idx (0, 0)).2 then 2 * idx + 1 else idx) (0, 0)).2
      then 2 * idx + 2
      else if 2 * idx + 1 < l.length ∧ (l.getD (2 * idx + 1) (0, 0)).2
          < (l.getD idx (0, 0)).2 then 2 * idx + 1 else idx := rfl
  by_cases hc1 : 2 * idx + 1 < l.length ∧
      (l.getD (2 * idx + 1) (0, 0)).2 < (l.getD idx (0, 0)).2
  · rw [if_pos hc1] at hd
    by_cases hc2 : 2 * idx + 2 < l.length ∧
        (l.getD (2 * idx + 2) (0, 0)).2 < (l.getD (2 * idx + 1) (0, 0)).2
    · rw [if_pos hc2] at hd
      refine ⟨by omega, by omega, by omega, ?_, ?_⟩
      · rw [hd]; exact lt_trans hc2.2 hc1.2
      · intro c hc hcl
        rcases hc with rfl | rfl
        · rw [hd]; exact le_of_lt hc2.2
        · rw [hd]
    · rw [if_neg hc2] at hd
      refine ⟨by omega, by omega, by omega, ?_, ?_⟩
      · rw [hd]; exact hc1.2
      · intro c hc hcl
        rcases hc with rfl | rfl
        · rw [hd]
        · rw [hd]
          exact le_of_not_lt fun hlt => hc2 ⟨hcl, hlt⟩
  · rw [if_neg hc1] at hd
    by_cases hc2 : 2 * idx + 2 < l.length ∧
        (l.getD (2 * idx + 2) (0, 0)).2 < (l.getD idx (0, 0)).2
    · rw [if_pos hc2] at hd
      refine ⟨by omega, by omega, by omega, ?_, ?_⟩
      · rw [hd]; exact hc2.2
      · intro c hc hcl
        rcases hc with rfl | rfl
        · rw [hd]
          exact le_trans (le_of_lt hc2.2) (le_of_not_lt fun hlt => hc1 ⟨hcl, hlt⟩)
        · rw [hd]
    · rw [if_neg hc2] at hd
      exact absurd hd hs

theorem bubbleDown_perm : ∀ (fuel : ℕ) (l : List (ℕ × α)) (idx : ℕ), idx < l.length →
    (bubbleDown fuel l idx).Perm l := by
  intro fuel
  induction fuel with
  | zero => intro l idx _; exact List.Perm.refl l
  | succ fuel ih =>
      intro l idx hidx
      rw [bubbleDown_succ]
      by_cases hs : dsmall l idx = idx
      · rw [if_pos hs]
      · rw [if_neg hs]
        have hlt := dsmall_lt l idx hidx
        exact (ih (hswap l idx (dsmall l idx)) (dsmall l idx)
          (by rw [hswap_length]; exact hlt)).trans (hswap_perm l idx _ hidx hlt)

/-- Heap ordering everywhere except that the entry at `idx` may undercut
its parent; the children of `idx` still dominate the parent of `idx`. -/
def AlmostUp (l : List (ℕ × α)) (idx : ℕ) : Prop :=
  (∀ i, 0 < i → i < l.length → i ≠ idx →
    (l.getD ((i - 1) / 2) (0, 0)).2 ≤ (l.getD i (0, 0)).2) ∧
  (∀ i, 0 < i → i < l.length → (i - 1) / 2 = idx → 0 < idx →
    (l.getD ((idx - 1) / 2) (0, 0)).2 ≤ (l.getD i (0, 0)).2)

theorem bubbleUp_heap : ∀ (fuel : ℕ) (l : List (ℕ × α)) (idx : ℕ),
    idx < l.length → idx ≤ fuel → AlmostUp l idx →
    HeapProp (bubbleUp fuel l idx) := by
  intro fuel
  induction fuel with
  | zero =>
      intro l idx hidx hf hau
      have h0 : idx = 0 := by omega
      intro i h1 h2
      exact hau.1 i h1 h2 (by omega)
  | succ fuel ih =>
      intro l idx hidx hf hau
      rw [bubbleUp_succ]
      by_cases h0 : idx = 0
      · rw [if_pos h0]
        intro i h1 h2
        exact hau.1 i h1 h2 (by omega)
      · rw [if_neg h0]
        by_cases hcmp : (l.getD ((idx - 1) / 2) (0, 0)).2 ≤ (l.getD idx (0, 0)).2
        · rw [if_pos hcmp]
          intro i h1 h2
          by_cases hi : i = idx
          · rw [hi]; exact hcmp
          · exact hau.1 i h1 h2 hi
        · rw [if_neg hcmp]
          have hkey : (l.getD idx (0, 0)).2 < (l.getD ((idx - 1) / 2) (0, 0)).2 :=
            lt_of_not_le hcmp
          have hp : (idx - 1) / 2 < idx := by omega
          have hplen : (idx - 1) / 2 < l.length := lt_trans hp hidx
          refine ih (hswap l ((idx - 1) / 2) idx) ((idx - 1) / 2)
            (by rw [hswap_length]; exact hplen) (by omega) ⟨?_, ?_⟩
          · intro i h1 h2 hip
            rw [hswap_length] at h2
            by_cases hii : i = idx
            · rw [hii, hswap_getD_left l _ idx (by omega) hplen,
                hswap_getD_right l _ idx hidx]
              exact le_of_lt hkey
            · by_cases hci : (i - 1) / 2 = idx
              · have hine : i ≠ (idx - 1) / 2 := by omega
                rw [hci, hswap_getD_right l _ idx hidx,
                  hswap_getD_other l _ idx i hine hii]
                exact hau.2 i h1 h2 hci (by omega)
              · by_cases hcp : (i - 1) / 2 = (idx - 1) / 2
                · have hine : i ≠ (idx - 1) / 2 := by omega
                  rw [hcp, hswap_getD_left l _ idx (by omega) hplen,
                    hswap_getD_other l _ idx i hine hii]
                  have hmain := hau.1 i h1 h2 hii
                  rw [hcp] at hmain
                  exact le_trans (le_of_lt hkey) hmain
                · rw [hswap_getD_other l _ idx _ hcp hci,
                    hswap_getD_other l _ idx i (by omega) hii]
                  exact hau.1 i h1 h2 hii
          · intro i h1 h2 hci hpp
            rw [hswap_length] at h2
            have hqne1 : ((idx - 1) / 2 - 1) / 2 ≠ (idx - 1) / 2 := by omega
            have hqne2 : ((idx - 1) / 2 - 1) / 2 ≠ idx := by omega
            rw [hswap_getD_other l _ idx _ hqne1 hqne2]
            by_cases hii : i = idx
            · rw [hii, hswap_getD_right l _ idx hidx]
              exact hau.1 ((idx - 1) / 2) hpp hplen (by omega)
            · have hine : i ≠ (idx - 1) / 2 := by omega
              rw [hswap_getD_other l _ idx i hine hii]
              have hmain := hau.1 i h1 h2 hii
              rw [hci] at hmain
              exact le_trans (hau.1 ((idx - 1) / 2) hpp hplen (by omega)) hmain

/-- Heap ordering everywhere except that the entry at `idx` may exceed
its children; the children of `idx` still dominate the parent of
`idx`. -/
def AlmostDown (l : List (ℕ × α)) (idx : ℕ) : Prop :=
  (∀ i, 0 < i → i < l.length → (i - 1) / 2 ≠ idx →
    (l.getD ((i - 1) / 2) (0, 0)).2 ≤ (l.getD i (0, 0)).2) ∧
  (∀ i, 0 < i → i < l.length → (i - 1) / 2 = idx → 0 < idx →
    (l.getD ((idx - 1) / 2) (0, 0)).2 ≤ (l.getD i (0, 0)).2)

theorem bubbleDown_heap : ∀ (fuel : ℕ) (l : List (ℕ × α)) (idx : ℕ),
    idx < l.length → l.length ≤ fuel + idx → AlmostDown l idx →
    HeapProp (bubbleDown fuel l idx) := by
  intro fuel
  induction fuel with
  | zero => intro l idx hidx hf; omega
  | succ fuel ih =>
      intro l idx hidx hf had
      rw [bubbleDown_succ]
      by_cases hs : dsmall l idx = idx
      · rw [if_pos hs]
        obtain ⟨hsl, hsr⟩ := dsmall_eq_spec l idx hs
        intro i h1 h2
        by_cases hci : (i - 1) / 2 = idx
        · rw [hci]
          have : i = 2 * idx + 1 ∨ i = 2 * idx + 2 := by omega
          rcases this with rfl | rfl
          · exact hsl h2
          · exact hsr h2
        · exact had.1 i h1 h2 hci
      · rw [if_neg hs]
        obtain ⟨hsl, hgt, hpar, hklt, hkc⟩ := dsmall_ne_spec l idx hs
        have hspos : 0 < dsmall l idx := by omega
        refine ih (hswap l idx (dsmall l idx)) (dsmall l idx)
          (by rw [hswap_length]; exact hsl) (by rw [hswap_length]; omega) ⟨?_, ?_⟩
        · intro i h1 h2 hci
          rw [hswap_length] at h2
          by_cases hii : i = idx
          · have hq1 : (idx - 1) / 2 ≠ idx := by omega
            have hq2 : (idx - 1) / 2 ≠ dsmall l idx := by omega
            rw [hii, hswap_getD_other l idx _ _ hq1 hq2,
              hswap_getD_left l idx _ (by omega) hidx]
            exact had.2 (dsmall l idx) hspos hsl hpar (by omega)
          · by_cases his : i = dsmall l idx
            · rw [his, hpar, hswap_getD_left l idx _ (by omega) hidx,
                hswap_getD_right l idx _ hsl]
              exact le_of_lt hklt
            · by_cases hcpi : (i - 1) / 2 = idx
              · rw [hcpi, hswap_getD_left l idx _ (by omega) hidx,
                  hswap_getD_other l idx _ i hii his]
                refine hkc i (by omega) h2
              · rw [hswap_getD_other l idx _ _ hcpi hci,
                  hswap_getD_other l idx _ i hii his]
                exact had.1 i h1 h2 hcpi
        · intro i h1 h2 hci hpp
          rw [hswap_length] at h2
          rw [hpar]
          have hine1 : i ≠ idx := by omega
          have hine2 : i ≠ dsmall l idx := by omega
          rw [hswap_getD_left l idx _ (by omega) hidx,
            hswap_getD_other l idx _ i hine1 hine2]
          have hmain := had.1 i h1 h2 (by omega)
          rw [hci] at hmain
          exact hmain

theorem set_perm {β : Type} :
    ∀ (l : List β) (i : ℕ) (a : β), i < l.length →
      (l.set i a).Perm (a :: l.eraseIdx i) := by
  intro l
  induction l with
  | nil => intro i a hi; exact absurd hi (by simp)
  | cons x tl ih =>
      intro i a hi
      cases i with
      | zero => exact List.Perm.refl _
      | succ m =>
          have hm : m < tl.length := by simpa using hi
          show (x :: tl.set m a).Perm (a :: x :: tl.eraseIdx m)
          exact ((ih m a hm).cons x).trans (List.Perm.swap a x _)

theorem getD_append_left {β : Type} (l1 l2 : List β) (k : ℕ) (d : β)
    (h : k < l1.length) : (l1 ++ l2).getD k d = l1.getD k d := by
  rw [List.getD_eq_getElem?_getD, List.getD_eq_getElem?_getD,
    List.getElem?_append_left h]

theorem getD_append_right_last {β : Type} (l1 : List β) (e d : β) :
    (l1 ++ [e]).getD l1.length d = e := by
  have h : l1.length < (l1 ++ [e]).length := by simp
  rw [List.getD_eq_getElem _ _ h, List.getElem_append_right (le_refl _)]
  simp

theorem dropLast_getD {β : Type} :
    ∀ (l : List β) (d : β), l ≠ [] → l.dropLast ++ [l.getD (l.length - 1) d] = l := by
  intro l
  induction l with
  | nil => intro d h; exact absurd rfl h
  | cons x tl ih =>
      intro d _
      cases tl with
      | nil => rfl
      | cons y tl2 =>
          have htl : (y :: tl2) ≠ [] := by simp
          show x :: ((y :: tl2).dropLast ++ [(y :: tl2).getD ((y :: tl2).length - 1) d])
              = x :: y :: tl2
          rw [ih d htl]

/-- The vertex of the entry sitting at `indexMap.get(v)`. -/
theorem indexOf_entry (hp : List (ℕ × α)) (v : ℕ) (hv : v ∈ hp.map Prod.fst) :
    (hp.map Prod.fst).indexOf v < hp.length ∧
    (hp.getD ((hp.map Prod.fst).indexOf v) (0, 0)).1 = v := by
  have hlen : (hp.map Prod.fst).indexOf v < (hp.map Prod.fst).length :=
    List.indexOf_lt_length.mpr hv
  have hlen' : (hp.map Prod.fst).indexOf v < hp.length := by
    simpa using hlen
  refine ⟨hlen', ?_⟩
  have hidx := List.getElem_indexOf hlen
  rw [List.getElem_map] at hidx
  rw [List.getD_eq_getElem _ _ hlen']
  exact hidx

/-- `push` of an absent vertex appends its entry (up to heap order). -/
theorem heapPush_perm_new (hp : List (ℕ × α)) (v : ℕ) (f : α)
    (hv : ¬ v ∈ hp.map Prod.fst) :
    (heapPush hp v f).Perm ((v, f) :: hp) := by
  have hcond : ¬ ((hp.map Prod.fst).contains v = true) := by simpa using hv
  unfold heapPush
  rw [if_neg hcond]
  exact (bubbleUp_perm _ _ _ (by simp)).trans (List.perm_append_singleton _ _)

/-- `push` of a present vertex with a smaller key replaces its entry
(up to heap order). -/
theorem heapPush_perm_decrease (hp : List (ℕ × α)) (v : ℕ) (f : α)
    (hv : v ∈ hp.map Prod.fst)
    (hlt : f < (hp.getD ((hp.map Prod.fst).indexOf v) (0, 0)).2) :
    (heapPush hp v f).Perm
      ((v, f) :: hp.eraseIdx ((hp.map Prod.fst).indexOf v)) := by
  have hcond : (hp.map Prod.fst).contains v = true := by simpa using hv
  obtain ⟨hilen, -⟩ := indexOf_entry hp v hv
  unfold heapPush
  rw [if_pos hcond]
  simp only []
  rw [if_pos hlt]
  refine (bubbleUp_perm _ _ _ ?_).trans (set_perm hp _ (v, f) hilen)
  simpa using hilen

/-- `push` of a present vertex with a key that is not smaller is a
no-op. -/
theorem heapPush_noop (hp : List (ℕ × α)) (v : ℕ) (f : α)
    (hv : v ∈ hp.map Prod.fst)
    (hge : ¬ f < (hp.getD ((hp.map Prod.fst).indexOf v) (0, 0)).2) :
    heapPush hp v f = hp := by
  have hcond : (hp.map Prod.fst).contains v = true := by simpa using hv
  unfold heapPush
  rw [if_pos hcond]
  simp only []
  rw [if_neg hge]

/-- `push` preserves the heap ordering. -/
theorem heapPush_heap (hp : List (ℕ × α)) (v : ℕ) (f : α) (hh : HeapProp hp) :
    HeapProp (heapPush hp v f) := by
  by_cases hv : v ∈ hp.map Prod.fst
  · have hcond : (hp.map Prod.fst).contains v = true := by simpa using hv
    obtain ⟨hilen, -⟩ := indexOf_entry hp v hv
    unfold heapPush
    rw [if_pos hcond]
    simp only []
    by_cases hlt : f < (hp.getD ((hp.map Prod.fst).indexOf v) (0, 0)).2
    · rw [if_pos hlt]
      refine bubbleUp_heap _ _ _ (by simpa using hilen) (le_refl _) ⟨?_, ?_⟩
      · intro i h1 h2 hii
        rw [List.length_set] at h2
        rw [getD_set_ne hp _ i _ _ (fun he => hii he.symm)]
        by_cases hpi : (i - 1) / 2 = (hp.map Prod.fst).indexOf v
        · rw [hpi, getD_set_at hp _ _ _ hilen]
          exact le_trans (le_of_lt hlt) (hpi ▸ hh i h1 h2)
        · rw [getD_set_ne hp _ _ _ _ (fun he => hpi he.symm)]
          exact hh i h1 h2
      · intro i h1 h2 hci hpos
        rw [List.length_set] at h2
        have hq : ((hp.map Prod.fst).indexOf v - 1) / 2 ≠ (hp.map Prod.fst).indexOf v := by
          omega
        rw [getD_set_ne hp _ _ _ _ (fun he => hq he.symm),
          getD_set_ne hp _ i _ _ (by omega)]
        exact le_trans (hh _ hpos hilen) (hci ▸ hh i h1 h2)
    · rw [if_neg hlt]
      exact hh
  · have hcond : ¬ ((hp.map Prod.fst).contains v = true) := by simpa using hv
    unfold heapPush
    rw [if_neg hcond]
    refine bubbleUp_heap _ _ _ (by simp) (by simp) ⟨?_, ?_⟩
    · intro i h1 h2 hii
      rw [List.length_append, List.length_singleton] at h2
      have hi2 : i < hp.length := by omega
      have hpi : (i - 1) / 2 < hp.length := by omega
      rw [getD_append_left _ _ _ _ hi2, getD_append_left _ _ _ _ hpi]
      exact hh i h1 hi2
    · intro i h1 h2 hci hpos
      rw [List.length_append, List.length_singleton] at h2
      omega

theorem heapPop_cons (x : ℕ × α) (tl : List (ℕ × α)) :
    heapPop (x :: tl) =
      if (x :: tl).dropLast.length = 0
      then some ((x :: tl).getD 0 (0, 0), (x :: tl).dropLast)
      else some ((x :: tl).getD 0 (0, 0),
        bubbleDown (x :: tl).dropLast.length
          ((x :: tl).dropLast.set 0 ((x :: tl).getD ((x :: tl).length - 1) (0, 0))) 0)
  := rfl

theorem heapPop_empty : heapPop ([] : List (ℕ × α)) = none := rfl

/-- `getD` of `dropLast` agrees with the original list. -/
theorem getD_dropLast {β : Type} (l : List β) (k : ℕ) (d : β)
    (hk : k < l.dropLast.length) : l.dropLast.getD k d = l.getD k d := by
  have hk2 : k < l.length := by
    rw [List.length_dropLast] at hk
    omega
  rw [List.getD_eq_getElem _ _ hk, List.getD_eq_getElem _ _ hk2]
  exact List.getElem_dropLast l k hk

/-- `pop` returns the root together with a heap holding the remaining
entries: the original array is a permutation of the returned entry
prepended to the new array; under the heap ordering the returned entry is
minimal and the new array is again a heap. -/
theorem heapPop_spec (hp : List (ℕ × α)) (e : ℕ × α) (rest : List (ℕ × α))
    (hpop : heapPop hp = some (e, rest)) :
    hp.Perm (e :: rest) ∧
    (HeapProp hp → HeapProp rest ∧ ∀ e' ∈ hp, e.2 ≤ e'.2) := by
  have hmin : ∀ hh : HeapProp hp, ∀ e' ∈ hp, (hp.getD 0 (0, 0)).2 ≤ e'.2 := by
    intro hh e' he'
    obtain ⟨i, hi, hie⟩ := List.mem_iff_getElem.mp he'
    have := heap_root_min hp hh i hi
    rw [List.getD_eq_getElem _ _ hi, hie] at this
    exact this
  cases hp with
  | nil => exact absurd hpop (by rw [heapPop_empty]; exact Option.noConfusion)
  | cons x tl =>
      rw [heapPop_cons] at hpop
      cases tl with
      | nil =>
          rw [if_pos (show ([x] : List (ℕ × α)).dropLast.length = 0 from rfl)] at hpop
          have hpair := Option.some.inj hpop
          have he : ([x] : List (ℕ × α)).getD 0 (0, 0) = e := congrArg Prod.fst hpair
          have hrest : ([x] : List (ℕ × α)).dropLast = rest := congrArg Prod.snd hpair
          refine ⟨?_, fun hh => ⟨?_, ?_⟩⟩
          · rw [← he, ← hrest]
            exact List.Perm.refl _
          · rw [← hrest]
            intro i h1 h2
            simp at h2
          · rw [← he]
            exact hmin hh
      | cons y tl2 =>
          rw [if_neg (by simp)] at hpop
          have hpair := Option.some.inj hpop
          have he : (x :: y :: tl2).getD 0 (0, 0) = e := congrArg Prod.fst hpair
          have hrest : bubbleDown (x :: y :: tl2).dropLast.length
              ((x :: y :: tl2).dropLast.set 0
                ((x :: y :: tl2).getD ((x :: y :: tl2).length - 1) (0, 0))) 0 = rest :=
            congrArg Prod.snd hpair
          have hmid : (x :: y :: tl2).dropLast = x :: (y :: tl2).dropLast := rfl
          have hlast : (x :: y :: tl2).getD ((x :: y :: tl2).length - 1) (0, 0)
              = (y :: tl2).getD ((y :: tl2).length - 1) (0, 0) := by
            have h1 : (x :: y :: tl2).length - 1 = tl2.length + 1 := by simp
            have h2 : (y :: tl2).length - 1 = tl2.length := by simp
            rw [h1, h2, List.getD_cons_succ]
          have hset : (x :: y :: tl2).dropLast.set 0
              ((x :: y :: tl2).getD ((x :: y :: tl2).length - 1) (0, 0))
              = (x :: y :: tl2).getD ((x :: y :: tl2).length - 1) (0, 0)
                :: (y :: tl2).dropLast := by
            rw [hmid]
            rfl
          have hsetlen : ((x :: y :: tl2).dropLast.set 0
              ((x :: y :: tl2).getD ((x :: y :: tl2).length - 1) (0, 0))).length
              = (x :: y :: tl2).dropLast.length := List.length_set _ _ _
          have hpos : 0 < ((x :: y :: tl2).dropLast.set 0
              ((x :: y :: tl2).getD ((x :: y :: tl2).length - 1) (0, 0))).length := by
            rw [hsetlen, hmid]
            simp
          have hbperm := bubbleDown_perm (x :: y :: tl2).dropLast.length
            ((x :: y :: tl2).dropLast.set 0
              ((x :: y :: tl2).getD ((x :: y :: tl2).length - 1) (0, 0))) 0 hpos
          have hytl : (y :: tl2) ≠ [] := by simp
          have hsplit := dropLast_getD (y :: tl2) ((0, 0) : ℕ × α) hytl
          refine ⟨?_, fun hh => ⟨?_, ?_⟩⟩
          · rw [← he, ← hrest]
            have hc : ((y :: tl2).getD ((y :: tl2).length - 1) (0, 0)
                  :: (y :: tl2).dropLast)
                = (x :: y :: tl2).dropLast.set 0
                    ((x :: y :: tl2).getD ((x :: y :: tl2).length - 1) (0, 0)) := by
              rw [hset, hlast]
            have ha : (y :: tl2).Perm ((y :: tl2).dropLast
                ++ [(y :: tl2).getD ((y :: tl2).length - 1) (0, 0)]) := by
              rw [hsplit]
            have hmain : (y :: tl2).Perm (bubbleDown (x :: y :: tl2).dropLast.length
                ((x :: y :: tl2).dropLast.set 0
                  ((x :: y :: tl2).getD ((x :: y :: tl2).length - 1) (0, 0))) 0) := by
              refine ha.trans ((List.perm_append_singleton _ _).trans ?_)
              rw [hc]
              exact hbperm.symm
            exact hmain.cons x
          · rw [← hrest]
            refine bubbleDown_heap _ _ 0 hpos (by rw [hsetlen]; omega) ⟨?_, ?_⟩
            · intro i h1 h2 hci
              rw [hsetlen] at h2
              have hi0 : i ≠ 0 := by omega
              have hp0 : (i - 1) / 2 ≠ 0 := hci
              rw [getD_set_ne _ _ _ _ _ (fun hq => hp0 hq.symm),
                getD_set_ne _ _ _ _ _ (fun hq => hi0 hq.symm)]
              have hpl : (i - 1) / 2 < (x :: y :: tl2).dropLast.length := by omega
              rw [getD_dropLast _ _ _ h2, getD_dropLast _ _ _ hpl]
              have hi2 : i < (x :: y :: tl2).length := by
                rw [List.length_dropLast] at h2
                omega
              exact hh i h1 hi2
            · intro i h1 h2 hci hpos0
              exact absurd hpos0 (by omega)
          · rw [← he]
            exact hmin hh

theorem map_eraseIdx {β γ : Type} (f : β → γ) :
    ∀ (l : List β) (i : ℕ), (l.eraseIdx i).map f = (l.map f).eraseIdx i := by
  intro l
  induction l with
  | nil => intro i; cases i <;> rfl
  | cons x tl ih =>
      intro i
      cases i with
      | zero => rfl
      | succ m =>
          show (x :: tl.eraseIdx m).map f = (f x :: tl.map f).eraseIdx (m + 1)
          rw [List.map_cons]
          show f x :: (tl.eraseIdx m).map f = f x :: (tl.map f).eraseIdx m
          rw [ih m]

theorem nodup_not_mem_eraseIdx {β : Type} (d : β) :
    ∀ (l : List β) (i : ℕ), i < l.length → l.Nodup →
      l.getD i d ∉ l.eraseIdx i := by
  intro l
  induction l with
  | nil => intro i hi; exact absurd hi (by simp)
  | cons x tl ih =>
      intro i hi hnd
      cases i with
      | zero =>
          show (x :: tl).getD 0 d ∉ tl
          rw [List.getD_cons_zero]
          exact (List.nodup_cons.mp hnd).1
      | succ m =>
          have hm : m < tl.length := by simpa using hi
          show (x :: tl).getD (m + 1) d ∉ x :: tl.eraseIdx m
          rw [List.getD_cons_succ]
          intro hmem
          rcases List.mem_cons.mp hmem with heq | hmem2
          · refine (List.nodup_cons.mp hnd).1 ?_
            rw [← heq]
            have : tl.getD m d ∈ tl := by
              rw [List.getD_eq_getElem _ _ hm]
              exact List.getElem_mem hm
            exact this
          · exact ih m hm (List.nodup_cons.mp hnd).2 hmem2

/-- `l` is a permutation of any of its entries consed onto the rest. -/
theorem perm_getD_eraseIdx {β : Type} (l : List β) (i : ℕ) (d : β) (h : i < l.length) :
    l.Perm (l.getD i d :: l.eraseIdx i) := by
  conv_lhs => rw [← set_getD_self l i d h]
  exact set_perm l i _ h

/-- Pushing a present vertex leaves the vertex list unchanged up to
permutation (its entry is only re-keyed and the heap re-ordered). -/
theorem heapPush_fst_old (hp : List (ℕ × α)) (v : ℕ) (f : α)
    (hv : v ∈ hp.map Prod.fst) :
    ((heapPush hp v f).map Prod.fst).Perm (hp.map Prod.fst) := by
  have hcond : (hp.map Prod.fst).contains v = true := by simpa using hv
  obtain ⟨hilen, hifst⟩ := indexOf_entry hp v hv
  unfold heapPush
  rw [if_pos hcond]
  simp only []
  by_cases hlt : f < (hp.getD ((hp.map Prod.fst).indexOf v) (0, 0)).2
  · rw [if_pos hlt]
    have hperm := (bubbleUp_perm ((hp.map Prod.fst).indexOf v)
      (hp.set ((hp.map Prod.fst).indexOf v) (v, f)) ((hp.map Prod.fst).indexOf v)
      (by simpa using hilen)).map Prod.fst
    refine hperm.trans ?_
    rw [List.map_set]
    have hset : (hp.map Prod.fst).set ((hp.map Prod.fst).indexOf v) v
        = hp.map Prod.fst := by
      have hvv : (hp.map Prod.fst).getD ((hp.map Prod.fst).indexOf v) 0 = v := by
        have hlen2 : (hp.map Prod.fst).indexOf v < (hp.map Prod.fst).length := by
          simpa using hilen
        rw [List.getD_eq_getElem _ _ hlen2]
        exact List.getElem_indexOf hlen2
      conv_rhs => rw [← set_getD_self (hp.map Prod.fst) ((hp.map Prod.fst).indexOf v) 0
        (by simpa using hilen)]
      rw [hvv]
    rw [hset]
  · rw [if_neg hlt]

/-- Pushing an absent vertex adds it to the vertex list. -/
theorem heapPush_fst_new (hp : List (ℕ × α)) (v : ℕ) (f : α)
    (hv : ¬ v ∈ hp.map Prod.fst) :
    ((heapPush hp v f).map Prod.fst).Perm (v :: hp.map Prod.fst) := by
  have := (heapPush_perm_new hp v f hv).map Prod.fst
  simpa using this

/-- Every entry of the pushed heap is the new entry or an old entry of a
different vertex (assuming distinct vertices, and that a present vertex is
pushed only with a strictly smaller key). -/
theorem heapPush_entries_char (hp : List (ℕ × α)) (v : ℕ) (f : α)
    (hnd : (hp.map Prod.fst).Nodup)
    (hno : v ∈ hp.map Prod.fst →
      f < (hp.getD ((hp.map Prod.fst).indexOf v) (0, 0)).2) :
    ∀ e' ∈ heapPush hp v f, e' = (v, f) ∨ (e' ∈ hp ∧ e'.1 ≠ v) := by
  intro e' he'
  by_cases hv : v ∈ hp.map Prod.fst
  · obtain ⟨hilen, hifst⟩ := indexOf_entry hp v hv
    have hmem := (heapPush_perm_decrease hp v f hv (hno hv)).mem_iff.mp he'
    rcases List.mem_cons.mp hmem with heq | hmem2
    · exact Or.inl heq
    · refine Or.inr ⟨(List.eraseIdx_sublist hp _).mem hmem2, ?_⟩
      intro hfst
      have hvm : v ∈ (hp.eraseIdx ((hp.map Prod.fst).indexOf v)).map Prod.fst := by
        have hvm0 : e'.1 ∈ (hp.eraseIdx ((hp.map Prod.fst).indexOf v)).map Prod.fst :=
          List.mem_map_of_mem Prod.fst hmem2
        rw [hfst] at hvm0
        exact hvm0
      rw [map_eraseIdx] at hvm
      have hvv : (hp.map Prod.fst).getD ((hp.map Prod.fst).indexOf v) 0 = v := by
        have hlen2 : (hp.map Prod.fst).indexOf v < (hp.map Prod.fst).length := by
          simpa using hilen
        rw [List.getD_eq_getElem _ _ hlen2]
        exact List.getElem_indexOf hlen2
      refine nodup_not_mem_eraseIdx 0 (hp.map Prod.fst) ((hp.map Prod.fst).indexOf v)
        (by simpa using hilen) hnd ?_
      rw [hvv]
      exact hvm
  · have hmem := (heapPush_perm_new hp v f hv).mem_iff.mp he'
    rcases List.mem_cons.mp hmem with heq | hmem2
    · exact Or.inl heq
    · refine Or.inr ⟨hmem2, ?_⟩
      intro hfst
      exact hv (hfst ▸ List.mem_map_of_mem Prod.fst hmem2)

/-! ### The A* loop invariant -/

/-- Fixed context of one `shortestPath` call: graph, heuristic and the
well-formedness facts used by the optimality argument (adjacency targets
in range, non-negative weights, consistent heuristic). -/
structure AStarCtx (α : Type) [LinearOrderedField α] where
  adj : List (List (ℕ × α))
  n : ℕ
  h : ℕ → α
  start : ℕ
  endV : ℕ
  hb : ∀ u, ∀ e ∈ adjGet adj u, e.1 < n
  hwnn : ∀ u, ∀ e ∈ adjGet adj u, 0 ≤ e.2
  hcons : ∀ u, ∀ e ∈ adjGet adj u, h u ≤ e.2 + h e.1

/-- The relaxed-frontier condition of one closed vertex. -/
def FrontierAt (C : AStarCtx α) (st : AStarState α) (c : ℕ) : Prop :=
  ∃ gc, st.gScore c = some gc ∧
    ∀ e ∈ adjGet C.adj c, st.closed e.1 = false →
      ∃ ge, st.gScore e.1 = some ge ∧ ge ≤ gc + e.2

/-- Core A* loop invariant (everything except the frontier condition,
which is threaded separately through the relaxation fold).  `cl` is the
list of closed vertices in closing order. -/
structure AInvC (C : AStarCtx α) (st : AStarState α) (cl : List ℕ) : Prop where
  nodup : (st.heap.map Prod.fst).Nodup
  heapok : HeapProp st.heap
  entries : ∀ e ∈ st.heap, st.closed e.1 = false ∧ e.1 < C.n ∧
    ∃ x, st.gScore e.1 = some x ∧ e.2 = x + C.h e.1
  active : ∀ v, st.closed v = false → st.gScore v ≠ none → v ∈ st.heap.map Prod.fst
  gstart : st.gScore C.start = some 0
  gnn : ∀ v x, st.gScore v = some x → 0 ≤ x
  clspec : ∀ v, st.closed v = true ↔ v ∈ cl
  clnodup : cl.Nodup
  clbound : ∀ v ∈ cl, v < C.n
  endopen : st.closed C.endV = false
  optc : ∀ c ∈ cl, ∃ gc, st.gScore c = some gc ∧
    ∀ q cost, WalkL C.adj q cost → q.head? = some C.start → q.getLast? = some c →
      gc ≤ cost
  prevopt : ∀ v u, st.prev v = some u → u ∈ cl ∧
    ∃ w gu gv, (v, w) ∈ adjGet C.adj u ∧ st.gScore u = some gu ∧
      st.gScore v = some gv ∧ gv = gu + w
  prevcl : ∀ v u, st.prev v = some u → v ∈ cl → cl.indexOf u < cl.indexOf v
  prevstart : st.prev C.start = none
  prevset : ∀ v, v ≠ C.start → st.gScore v ≠ none → st.prev v ≠ none

/-- One relaxation step preserves the core invariant; moreover the closed
set is untouched, `gScore` stays defined, only decreases, is frozen on
closed vertices, and afterwards the processed edge is relaxed. -/
theorem relaxStep_pres (C : AStarCtx α) (st : AStarState α) (cl : List ℕ)
    (u : ℕ) (e : ℕ × α)
    (he : e ∈ adjGet C.adj u) (hu : u ∈ cl) (hclu : st.closed u = true)
    (hic : AInvC C st cl) :
    AInvC C (relaxStep C.h u st e) cl ∧
    (relaxStep C.h u st e).closed = st.closed ∧
    (relaxStep C.h u st e).prev C.start = st.prev C.start ∧
    (∀ v, st.closed v = true → (relaxStep C.h u st e).gScore v = st.gScore v) ∧
    (∀ v, st.gScore v ≠ none → (relaxStep C.h u st e).gScore v ≠ none) ∧
    (∀ v x x', st.gScore v = some x → (relaxStep C.h u st e).gScore v = some x' →
      x' ≤ x) ∧
    (st.closed e.1 = false → ∃ ge gu, (relaxStep C.h u st e).gScore e.1 = some ge ∧
      (relaxStep C.h u st e).gScore u = some gu ∧ ge ≤ gu + e.2) := by
  obtain ⟨gu0, hgu0, -⟩ := hic.optc u hu
  unfold relaxStep
  simp only []
  by_cases hc : st.closed e.1 = true
  · rw [if_pos hc]
    refine ⟨hic, rfl, rfl, fun v _ => rfl, fun v hv => hv,
      fun v x x' h1 h2 => (Option.some.inj (h1.symm.trans h2)).ge, fun hcf => ?_⟩
    rw [hc] at hcf
    exact Bool.noConfusion hcf
  · have hcF : st.closed e.1 = false := by
      cases hcc : st.closed e.1 with
      | false => rfl
      | true => exact absurd hcc hc
    rw [if_neg hc]
    cases hgu : st.gScore u with
    | none => rw [hgu] at hgu0; exact Option.noConfusion hgu0
    | some gu =>
        simp only []
        by_cases hb : (match st.gScore e.1 with
          | none => true
          | some gn => decide (gu + e.2 < gn)) = true
        case neg =>
          rw [if_neg hb]
          refine ⟨hic, rfl, rfl, fun v _ => rfl, fun v hv => hv,
            fun v x x' h1 h2 => (Option.some.inj (h1.symm.trans h2)).ge, fun hcf => ?_⟩
          cases hge : st.gScore e.1 with
          | none => rw [hge] at hb; exact absurd rfl hb
          | some gn =>
              rw [hge] at hb
              have hnlt : ¬ (gu + e.2 < gn) := fun hlt => hb (by simp [hlt])
              exact ⟨gn, gu, rfl, hgu, le_of_not_lt hnlt⟩
        case pos =>
          rw [if_pos hb]
          have hne1 : e.1 ≠ u := by
            intro hh
            rw [hh, hclu] at hcF
            exact Bool.noConfusion hcF
          have htgnn : 0 ≤ gu + e.2 :=
            add_nonneg (hic.gnn u gu hgu) (C.hwnn u e he)
          have hnes : e.1 ≠ C.start := by
            intro hh
            cases hge : st.gScore e.1 with
            | none => rw [hh, hic.gstart] at hge; exact Option.noConfusion hge
            | some gn =>
                rw [hge] at hb
                have hlt : gu + e.2 < gn := of_decide_eq_true hb
                rw [hh, hic.gstart] at hge
                have hgn0 : gn = 0 := (Option.some.inj hge).symm
                rw [hgn0] at hlt
                exact absurd (lt_of_le_of_lt htgnn hlt) (lt_irrefl 0)
          have hno : e.1 ∈ st.heap.map Prod.fst →
              gu + e.2 + C.h e.1
                < (st.heap.getD ((st.heap.map Prod.fst).indexOf e.1) (0, 0)).2 := by
            intro hv
            obtain ⟨hilen, hifst⟩ := indexOf_entry st.heap e.1 hv
            have hentry : st.heap.getD ((st.heap.map Prod.fst).indexOf e.1) (0, 0)
                ∈ st.heap := by
              rw [List.getD_eq_getElem _ _ hilen]
              exact List.getElem_mem hilen
            obtain ⟨-, -, x, hx, hkey⟩ := hic.entries _ hentry
            rw [hifst] at hx
            cases hge : st.gScore e.1 with
            | none => rw [hge] at hx; exact Option.noConfusion hx
            | some gn =>
                rw [hge] at hx hb
                have hxg : x = gn := (Option.some.inj hx).symm
                have hlt : gu + e.2 < gn := of_decide_eq_true hb
                rw [hkey, hifst, hxg]
                exact add_lt_add_right hlt _
          have hsne : C.start ≠ e.1 := Ne.symm hnes
          refine ⟨?_, rfl, ?_, ?_, ?_, ?_, ?_⟩
          · constructor
            · show ((heapPush st.heap e.1 (gu + e.2 + C.h e.1)).map Prod.fst).Nodup
              by_cases hv : e.1 ∈ st.heap.map Prod.fst
              · exact ((heapPush_fst_old st.heap e.1 _ hv).nodup_iff).mpr hic.nodup
              · exact ((heapPush_fst_new st.heap e.1 _ hv).nodup_iff).mpr
                  (List.nodup_cons.mpr ⟨hv, hic.nodup⟩)
            · exact heapPush_heap _ _ _ hic.heapok
            · intro e' he'
              rcases heapPush_entries_char st.heap e.1 _ hic.nodup hno e' he'
                with heq | ⟨hmem, hfst⟩
              · rw [heq]
                refine ⟨hcF, C.hb u e he, ⟨gu + e.2, ?_, rfl⟩⟩
                show Function.update st.gScore e.1 (some (gu + e.2)) e.1
                  = some (gu + e.2)
                rw [Function.update_same]
              · obtain ⟨hclosed', hbound', x, hx, hkey⟩ := hic.entries e' hmem
                refine ⟨hclosed', hbound', ⟨x, ?_, hkey⟩⟩
                show Function.update st.gScore e.1 (some (gu + e.2)) e'.1 = some x
                rw [Function.update_noteq hfst]
                exact hx
            · intro v hv hg
              show v ∈ (heapPush st.heap e.1 (gu + e.2 + C.h e.1)).map Prod.fst
              by_cases hve : v = e.1
              · rw [hve]
                by_cases hvm : e.1 ∈ st.heap.map Prod.fst
                · exact (heapPush_fst_old st.heap e.1 _ hvm).mem_iff.mpr hvm
                · exact (heapPush_fst_new st.heap e.1 _ hvm).mem_iff.mpr
                    (List.mem_cons_self _ _)
              · have hg2 : st.gScore v ≠ none := by
                  show ¬ _
                  intro hn
                  refine hg ?_
                  show Function.update st.gScore e.1 (some (gu + e.2)) v = none
                  rw [Function.update_noteq hve]
                  exact hn
                have hold := hic.active v hv hg2
                by_cases hvm : e.1 ∈ st.heap.map Prod.fst
                · exact (heapPush_fst_old st.heap e.1 _ hvm).mem_iff.mpr hold
                · exact (heapPush_fst_new st.heap e.1 _ hvm).mem_iff.mpr
                    (List.mem_cons_of_mem _ hold)
            · show Function.update st.gScore e.1 (some (gu + e.2)) C.start = some 0
              rw [Function.update_noteq hsne]
              exact hic.gstart
            · intro v x hx
              by_cases hve : v = e.1
              · rw [hve] at hx
                have hx2 : Function.update st.gScore e.1 (some (gu + e.2)) e.1
                    = some x := hx
                rw [Function.update_same] at hx2
                have hxv : x = gu + e.2 := (Option.some.inj hx2).symm
                rw [hxv]
                exact htgnn
              · have hx2 : st.gScore v = some x := by
                  have hx3 : Function.update st.gScore e.1 (some (gu + e.2)) v
                      = some x := hx
                  rw [Function.update_noteq hve] at hx3
                  exact hx3
                exact hic.gnn v x hx2
            · intro v
              exact hic.clspec v
            · exact hic.clnodup
            · exact hic.clbound
            · exact hic.endopen
            · intro c hcl
              obtain ⟨gc, hgc, hopt⟩ := hic.optc c hcl
              have hcne : c ≠ e.1 := by
                intro hh
                have := (hic.clspec c).mpr hcl
                rw [hh, hcF] at this
                exact Bool.noConfusion this
              refine ⟨gc, ?_, hopt⟩
              show Function.update st.gScore e.1 (some (gu + e.2)) c = some gc
              rw [Function.update_noteq hcne]
              exact hgc
            · intro v u' hpv
              have hpv2 : Function.update st.prev e.1 (some u) v = some u' := hpv
              by_cases hve : v = e.1
              · rw [hve, Function.update_same] at hpv2
                have huu : u' = u := (Option.some.inj hpv2).symm
                refine ⟨huu ▸ hu, e.2, gu, gu + e.2, ?_, ?_, ?_, rfl⟩
                · rw [huu, hve, Prod.mk.eta]
                  exact he
                · show Function.update st.gScore e.1 (some (gu + e.2)) u' = some gu
                  rw [huu, Function.update_noteq (Ne.symm hne1)]
                  exact hgu
                · show Function.update st.gScore e.1 (some (gu + e.2)) v
                    = some (gu + e.2)
                  rw [hve, Function.update_same]
              · rw [Function.update_noteq hve] at hpv2
                obtain ⟨hucl, w, gu', gv, hedge, hgu', hgv, heqv⟩ :=
                  hic.prevopt v u' hpv2
                have hu'ne : u' ≠ e.1 := by
                  intro hh
                  have := (hic.clspec u').mpr hucl
                  rw [hh, hcF] at this
                  exact Bool.noConfusion this
                refine ⟨hucl, w, gu', gv, hedge, ?_, ?_, heqv⟩
                · show Function.update st.gScore e.1 (some (gu + e.2)) u' = some gu'
                  rw [Function.update_noteq hu'ne]
                  exact hgu'
                · show Function.update st.gScore e.1 (some (gu + e.2)) v = some gv
                  rw [Function.update_noteq hve]
                  exact hgv
            · intro v u' hpv hvcl
              have hvne : v ≠ e.1 := by
                intro hh
                have := (hic.clspec v).mpr hvcl
                rw [hh, hcF] at this
                exact Bool.noConfusion this
              have hpv2 : Function.update st.prev e.1 (some u) v = some u' := hpv
              rw [Function.update_noteq hvne] at hpv2
              exact hic.prevcl v u' hpv2 hvcl
            · show Function.update st.prev e.1 (some u) C.start = none
              rw [Function.update_noteq hsne]
              exact hic.prevstart
            · intro v hvs hg
              by_cases hve : v = e.1
              · show Function.update st.prev e.1 (some u) v ≠ none
                rw [hve, Function.update_same]
                exact Option.noConfusion
              · show Function.update st.prev e.1 (some u) v ≠ none
                rw [Function.update_noteq hve]
                refine hic.prevset v hvs ?_
                intro hn
                refine hg ?_
                show Function.update st.gScore e.1 (some (gu + e.2)) v = none
                rw [Function.update_noteq hve]
                exact hn
          · show Function.update st.prev e.1 (some u) C.start = st.prev C.start
            exact Function.update_noteq hsne _ _
          · intro v hv
            show Function.update st.gScore e.1 (some (gu + e.2)) v = st.gScore v
            have hvne : v ≠ e.1 := by
              intro hh
              rw [hh, hcF] at hv
              exact Bool.noConfusion hv
            rw [Function.update_noteq hvne]
          · intro v hv
            show Function.update st.gScore e.1 (some (gu + e.2)) v ≠ none
            by_cases hve : v = e.1
            · rw [hve, Function.update_same]
              exact Option.noConfusion
            · rw [Function.update_noteq hve]
              exact hv
          · intro v x x' h1 h2
            have h2' : Function.update st.gScore e.1 (some (gu + e.2)) v = some x' := h2
            by_cases hve : v = e.1
            · rw [hve, Function.update_same] at h2'
              have hx' : x' = gu + e.2 := (Option.some.inj h2').symm
              cases hge : st.gScore e.1 with
              | none => rw [hve, hge] at h1; exact Option.noConfusion h1
              | some gn =>
                  rw [hge] at hb
                  have hlt : gu + e.2 < gn := of_decide_eq_true hb
                  rw [hve, hge] at h1
                  have hxg : x = gn := (Option.some.inj h1).symm
                  rw [hx', hxg]
                  exact le_of_lt hlt
            · rw [Function.update_noteq hve] at h2'
              exact (Option.some.inj (h1.symm.trans h2')).ge
          · intro _
            refine ⟨gu + e.2, gu, ?_, ?_, le_refl _⟩
            · show Function.update st.gScore e.1 (some (gu + e.2)) e.1
                = some (gu + e.2)
              rw [Function.update_same]
            · show Function.update st.gScore e.1 (some (gu + e.2)) u = some gu
              rw [Function.update_noteq (Ne.symm hne1)]
              exact hgu

/-- Folding `relaxStep` over any sublist of `u`'s neighbor list preserves
the invariant bundle, and afterwards every processed edge to an unclosed
head is relaxed. -/
theorem relaxFold_pres (C : AStarCtx α) (cl : List ℕ) (u : ℕ)
    (nbrs : List (ℕ × α)) :
    ∀ st : AStarState α, (∀ e ∈ nbrs, e ∈ adjGet C.adj u) → u ∈ cl →
    st.closed u = true → AInvC C st cl →
    AInvC C (nbrs.foldl (relaxStep C.h u) st) cl ∧
    (nbrs.foldl (relaxStep C.h u) st).closed = st.closed ∧
    (nbrs.foldl (relaxStep C.h u) st).prev C.start = st.prev C.start ∧
    (∀ v, st.closed v = true →
      (nbrs.foldl (relaxStep C.h u) st).gScore v = st.gScore v) ∧
    (∀ v, st.gScore v ≠ none → (nbrs.foldl (relaxStep C.h u) st).gScore v ≠ none) ∧
    (∀ v x x', st.gScore v = some x →
      (nbrs.foldl (relaxStep C.h u) st).gScore v = some x' → x' ≤ x) ∧
    (∀ e ∈ nbrs, st.closed e.1 = false → ∃ ge gu,
      (nbrs.foldl (relaxStep C.h u) st).gScore e.1 = some ge ∧
      (nbrs.foldl (relaxStep C.h u) st).gScore u = some gu ∧ ge ≤ gu + e.2) := by
  induction nbrs with
  | nil =>
      intro st _ _ _ hic
      exact ⟨hic, rfl, rfl, fun v _ => rfl, fun v hv => hv,
        fun v x x' h1 h2 => (Option.some.inj (h1.symm.trans h2)).ge,
        fun e he => absurd he (List.not_mem_nil e)⟩
  | cons e tl ih =>
      intro st hsub hu hclu hic
      have he : e ∈ adjGet C.adj u := hsub e (List.mem_cons_self e tl)
      obtain ⟨h1inv, h1cl, h1ps, h1fr, h1sp, h1mono, h1done⟩ :=
        relaxStep_pres C st cl u e he hu hclu hic
      set st1 := relaxStep C.h u st e with hst1
      have hclu1 : st1.closed u = true := by rw [h1cl]; exact hclu
      obtain ⟨h2inv, h2cl, h2ps, h2fr, h2sp, h2mono, h2done⟩ :=
        ih st1 (fun e' he' => hsub e' (List.mem_cons_of_mem e he')) hu hclu1 h1inv
      have hfold : (e :: tl).foldl (relaxStep C.h u) st
          = tl.foldl (relaxStep C.h u) st1 := rfl
      rw [hfold]
      refine ⟨h2inv, h2cl.trans h1cl, h2ps.trans h1ps, ?_, ?_, ?_, ?_⟩
      · intro v hv
        have hv1 : st1.closed v = true := by rw [h1cl]; exact hv
        exact (h2fr v hv1).trans (h1fr v hv)
      · intro v hv
        exact h2sp v (h1sp v hv)
      · intro v x x' hx hx'
        cases hx1 : st1.gScore v with
        | none => exact absurd hx1 (h1sp v (hx ▸ Option.noConfusion))
        | some x1 =>
            exact le_trans (h2mono v x1 x' hx1 hx') (h1mono v x x1 hx hx1)
      · intro e' he' hce'
        rcases List.mem_cons.mp he' with heq | hmem
        · subst heq
          obtain ⟨ge, gu, hge, hgu, hle⟩ := h1done hce'
          cases hge2 : (tl.foldl (relaxStep C.h u) st1).gScore e'.1 with
          | none => exact absurd hge2 (h2sp e'.1 (hge ▸ Option.noConfusion))
          | some ge2 =>
              refine ⟨ge2, gu, rfl, ?_, ?_⟩
              · rw [h2fr u hclu1]
                exact hgu
              · exact le_trans (h2mono e'.1 ge ge2 hge hge2) hle
        · have hce1 : st1.closed e'.1 = false := by rw [h1cl]; exact hce'
          exact h2done e' hmem hce1

/-- Any unclosed vertex with a defined `gScore` has a heap entry, so any
lower bound on the heap keys bounds `gScore + h`. -/
theorem heap_key_bound (C : AStarCtx α) (st : AStarState α) (cl : List ℕ)
    (hic : AInvC C st cl) (m : α) (hmin : ∀ e' ∈ st.heap, m ≤ e'.2)
    (v : ℕ) (hcl : st.closed v = false) (gv : α) (hg : st.gScore v = some gv) :
    m ≤ gv + C.h v := by
  have hgne : st.gScore v ≠ none := by rw [hg]; exact Option.noConfusion
  have hmem := hic.active v hcl hgne
  obtain ⟨e, he, he1⟩ := List.mem_map.mp hmem
  obtain ⟨-, -, x, hx, hkey⟩ := hic.entries e he
  rw [he1] at hx hkey
  have hxg : x = gv := Option.some.inj (hx.symm.trans hg)
  have hm := hmin e he
  rw [hkey, hxg] at hm
  exact hm

/-- The cut argument: any lower bound `m` on the heap keys is at most
`p + cost + h b` for every walk of cost `cost` from `u0` to an unclosed
`b`, where `p` is the cost of some walk from the start to `u0` bounding
`gScore u0` whenever `u0` is unclosed. -/
theorem cross_aux (C : AStarCtx α) (st : AStarState α) (cl : List ℕ)
    (hic : AInvC C st cl) (hfr : ∀ c ∈ cl, FrontierAt C st c) (m : α)
    (hmin : ∀ e' ∈ st.heap, m ≤ e'.2) :
    ∀ q : List ℕ, ∀ (cost : α) (u0 b : ℕ) (p : α),
      WalkL C.adj q cost → q.head? = some u0 → q.getLast? = some b →
      st.closed b = false →
      (∃ qp, WalkL C.adj qp p ∧ qp.head? = some C.start ∧
        qp.getLast? = some u0) →
      (st.closed u0 = false → ∃ g0, st.gScore u0 = some g0 ∧ g0 ≤ p) →
      m ≤ p + cost + C.h b := by
  intro q
  induction q with
  | nil => intro cost u0 b p hw; exact absurd rfl hw.head_ne_nil
  | cons x tl ih =>
      intro cost u0 b p hw hhead hlast hbcl hqp hb0
      have hxu : x = u0 := Option.some.inj hhead
      subst hxu
      cases tl with
      | nil =>
          cases hw with
          | single =>
              have hxb : x = b := Option.some.inj hlast
              subst hxb
              obtain ⟨g0, hg0, hg0p⟩ := hb0 hbcl
              have hkb := heap_key_bound C st cl hic m hmin x hbcl g0 hg0
              have h2 : g0 + C.h x ≤ p + 0 + C.h x := by linarith
              exact le_trans hkb h2
      | cons y tl2 =>
          cases hw with
          | cons _ _ _ w1 c1 hm1 hw1 =>
              have hlast' : (y :: tl2).getLast? = some b := by
                rw [← hlast]
                exact List.getLast?_cons_cons.symm
              by_cases hxcl : st.closed x = true
              · have hxmem : x ∈ cl := (hic.clspec x).mp hxcl
                obtain ⟨qp, hwp, hhp, hlp⟩ := hqp
                obtain ⟨gc, hgc, hrel⟩ := hfr x hxmem
                obtain ⟨gu0, hgu0, hopt⟩ := hic.optc x hxmem
                have hgcp : gc ≤ p := by
                  have hgceq : gc = gu0 := Option.some.inj (hgc.symm.trans hgu0)
                  rw [hgceq]
                  exact hopt qp p hwp hhp hlp
                obtain ⟨hwp2, hhp2, hlp2⟩ := walk_append hwp hlp hm1
                have hby : st.closed y = false →
                    ∃ g0, st.gScore y = some g0 ∧ g0 ≤ p + w1 := by
                  intro hycl
                  obtain ⟨ge, hge, hle⟩ := hrel (y, w1) hm1 hycl
                  exact ⟨ge, hge, le_trans hle (add_le_add_right hgcp w1)⟩
                have hres := ih c1 y b (p + w1) hw1 rfl hlast' hbcl
                  ⟨qp ++ [y], hwp2, by rw [hhp2, hhp], hlp2⟩ hby
                linarith
              · have hxF : st.closed x = false := by
                  cases hcc : st.closed x with
                  | false => rfl
                  | true => exact absurd hcc hxcl
                obtain ⟨g0, hg0, hg0p⟩ := hb0 hxF
                have hkb := heap_key_bound C st cl hic m hmin x hxF g0 hg0
                have htele := walk_tele C.h C.hcons
                  (WalkL.cons x y tl2 w1 c1 hm1 hw1) rfl hlast
                have h2 : C.h x ≤ w1 + c1 + C.h b := htele
                linarith

/-- When the heap pops a minimal entry for an unclosed vertex, that
vertex's `gScore` is optimal among all start walks to it. -/
theorem cross_opt (C : AStarCtx α) (st : AStarState α) (cl : List ℕ)
    (hic : AInvC C st cl) (hfr : ∀ c ∈ cl, FrontierAt C st c)
    (cur : ℕ × α) (rest : List (ℕ × α))
    (hpop : heapPop st.heap = some (cur, rest))
    (hcur : st.closed cur.1 = false) :
    ∃ gc, st.gScore cur.1 = some gc ∧
      ∀ q c, WalkL C.adj q c → q.head? = some C.start →
        q.getLast? = some cur.1 → gc ≤ c := by
  obtain ⟨hperm, hspec⟩ := heapPop_spec st.heap cur rest hpop
  have hmin := (hspec hic.heapok).2
  have hcurmem : cur ∈ st.heap := hperm.mem_iff.mpr (List.mem_cons_self _ _)
  obtain ⟨-, -, gc, hgc, hkey⟩ := hic.entries cur hcurmem
  refine ⟨gc, hgc, ?_⟩
  intro q c hw hh hl
  have hb0 : st.closed C.start = false →
      ∃ g0, st.gScore C.start = some g0 ∧ g0 ≤ (0 : α) :=
    fun _ => ⟨0, hic.gstart, le_refl 0⟩
  have hres := cross_aux C st cl hic hfr cur.2 hmin q c C.start cur.1 0 hw hh hl
    hcur ⟨[C.start], WalkL.single _, rfl, rfl⟩ hb0
  rw [hkey] at hres
  linarith

/-- As long as some reachable vertex is unclosed, the heap is non-empty. -/
theorem heap_nonempty_of_reach (C : AStarCtx α) (st : AStarState α)
    (cl : List ℕ) (hic : AInvC C st cl)
    (hfr : ∀ c ∈ cl, FrontierAt C st c) :
    ∀ t, Reach C.adj C.start t → st.closed t = false → st.heap ≠ [] := by
  intro t hr
  induction hr with
  | refl =>
      intro hcl hemp
      have hne : st.gScore C.start ≠ none := by
        rw [hic.gstart]; exact Option.noConfusion
      have hmem := hic.active C.start hcl hne
      rw [hemp] at hmem
      exact absurd hmem (List.not_mem_nil _)
  | step hrv hmem ih =>
      rename_i v t' w
      intro hcl hemp
      by_cases hvcl : st.closed v = true
      · have hvm : v ∈ cl := (hic.clspec v).mp hvcl
        obtain ⟨gc, hgc, hrel⟩ := hfr v hvm
        obtain ⟨ge, hge, -⟩ := hrel (t', w) hmem hcl
        have hne : st.gScore t' ≠ none := by rw [hge]; exact Option.noConfusion
        have hm2 := hic.active t' hcl hne
        rw [hemp] at hm2
        exact absurd hm2 (List.not_mem_nil _)
      · have hvF : st.closed v = false := by
          cases hcc : st.closed v with
          | false => rfl
          | true => exact absurd hcc hvcl
        exact ih hvF hemp

/-- `pop` returns `none` only on the empty heap. -/
theorem heapPop_none (hp : List (ℕ × α)) (h : heapPop hp = none) : hp = [] := by
  cases hp with
  | nil => rfl
  | cons x tl =>
      rw [heapPop_cons] at h
      by_cases hl : ((x :: tl).dropLast.length = 0)
      · rw [if_pos hl] at h
        exact Option.noConfusion h
      · rw [if_neg hl] at h
        exact Option.noConfusion h

/-- `push` grows the heap by at most one entry. -/
theorem heapPush_length (hp : List (ℕ × α)) (v : ℕ) (f : α) :
    (heapPush hp v f).length ≤ hp.length + 1 := by
  by_cases hv : v ∈ hp.map Prod.fst
  · by_cases hlt : f < (hp.getD ((hp.map Prod.fst).indexOf v) (0, 0)).2
    · have hperm := heapPush_perm_decrease hp v f hv hlt
      rw [hperm.length_eq]
      obtain ⟨hilen, -⟩ := indexOf_entry hp v hv
      have : (hp.eraseIdx ((hp.map Prod.fst).indexOf v)).length = hp.length - 1 := by
        rw [List.length_eraseIdx]
        simp [hilen]
      simp only [List.length_cons, this]
      omega
    · rw [heapPush_noop hp v f hv hlt]
      omega
  · have hperm := heapPush_perm_new hp v f hv
    rw [hperm.length_eq]
    simp

/-- One relaxation step grows the heap by at most one entry. -/
theorem relaxStep_heap_length (h : ℕ → α) (u : ℕ) (st : AStarState α)
    (e : ℕ × α) : (relaxStep h u st e).heap.length ≤ st.heap.length + 1 := by
  unfold relaxStep
  by_cases hc : st.closed e.1 = true
  · rw [if_pos hc]; omega
  · rw [if_neg hc]
    cases hgu : st.gScore u with
    | none => simp only []; omega
    | some gu =>
        simp only []
        by_cases hb : (match st.gScore e.1 with
          | none => true
          | some gn => decide (gu + e.2 < gn)) = true
        · rw [if_pos hb]
          exact heapPush_length st.heap e.1 (gu + e.2 + h e.1)
        · rw [if_neg hb]; omega

/-- The relaxation fold grows the heap by at most the neighbor count. -/
theorem relaxFold_heap_length (h : ℕ → α) (u : ℕ) (nbrs : List (ℕ × α)) :
    ∀ st : AStarState α,
      (nbrs.foldl (relaxStep h u) st).heap.length ≤ st.heap.length + nbrs.length := by
  induction nbrs with
  | nil => intro st; simp
  | cons e tl ih =>
      intro st
      have h1 := relaxStep_heap_length h u st e
      have h2 := ih (relaxStep h u st e)
      simp only [List.foldl_cons, List.length_cons]
      omega

/-- The relaxation fold never changes the closed set. -/
theorem relaxFold_closed (h : ℕ → α) (u : ℕ) (nbrs : List (ℕ × α)) :
    ∀ st : AStarState α, (nbrs.foldl (relaxStep h u) st).closed = st.closed := by
  induction nbrs with
  | nil => intro st; rfl
  | cons e tl ih =>
      intro st
      have h1 : (relaxStep h u st e).closed = st.closed := by
        unfold relaxStep
        by_cases hc : st.closed e.1 = true
        · rw [if_pos hc]
        · rw [if_neg hc]
          cases hgu : st.gScore u with
          | none => rfl
          | some gu =>
              simp only []
              by_cases hb : (match st.gScore e.1 with
                | none => true
                | some gn => decide (gu + e.2 < gn)) = true
              · rw [if_pos hb]
              · rw [if_neg hb]
      rw [List.foldl_cons, ih (relaxStep h u st e), h1]

/-- Total weight of the unclosed vertices: one unit plus the degree for
each unclosed vertex below `n`. -/
def unSum (C : AStarCtx α) (closed : ℕ → Bool) : ℕ :=
  (((List.range C.n).filter (fun v => ! closed v)).map
    (fun v => 1 + (adjGet C.adj v).length)).sum

/-- Loop potential: heap size plus the unclosed weight. -/
def phiA (C : AStarCtx α) (st : AStarState α) : ℕ :=
  st.heap.length + unSum C st.closed

/-- Closing an unclosed listed vertex removes exactly its weight from the
filtered sum. -/
theorem filter_update_sum (cl : ℕ → Bool) (a : ℕ) (f : ℕ → ℕ) :
    ∀ l : List ℕ, l.Nodup → a ∈ l → cl a = false →
      ((l.filter (fun v => ! Function.update cl a true v)).map f).sum + f a
        = ((l.filter (fun v => ! cl v)).map f).sum := by
  intro l
  induction l with
  | nil => intro _ hm; exact absurd hm (List.not_mem_nil a)
  | cons x tl ih =>
      intro hnd hm hcla
      have hnd2 := List.nodup_cons.mp hnd
      rcases List.mem_cons.mp hm with heq | hmem
      · have hxa : x = a := heq.symm
        subst hxa
        have e1 : (x :: tl).filter (fun v => ! Function.update cl x true v)
            = tl.filter (fun v => ! Function.update cl x true v) := by
          rw [List.filter_cons]
          simp [Function.update_same]
        have e2 : (x :: tl).filter (fun v => ! cl v)
            = x :: tl.filter (fun v => ! cl v) := by
          rw [List.filter_cons]
          simp [hcla]
        have hcong : tl.filter (fun v => ! Function.update cl x true v)
            = tl.filter (fun v => ! cl v) := by
          refine List.filter_congr ?_
          intro v hv
          have hvx : v ≠ x := fun hh => hnd2.1 (hh ▸ hv)
          simp [Function.update_noteq hvx]
        rw [e1, e2, hcong]
        simp only [List.map_cons, List.sum_cons]
        omega
      · have hxa : x ≠ a := fun hh => hnd2.1 (hh ▸ hmem)
        have hrec := ih hnd2.2 hmem hcla
        by_cases hx : cl x = true
        · have e1 : (x :: tl).filter (fun v => ! Function.update cl a true v)
              = tl.filter (fun v => ! Function.update cl a true v) := by
            rw [List.filter_cons]
            simp [Function.update_noteq hxa, hx]
          have e2 : (x :: tl).filter (fun v => ! cl v)
              = tl.filter (fun v => ! cl v) := by
            rw [List.filter_cons]
            simp [hx]
          rw [e1, e2]
          exact hrec
        · have hxF : cl x = false := by
            cases hcc : cl x with
            | false => rfl
            | true => exact absurd hcc hx
          have e1 : (x :: tl).filter (fun v => ! Function.update cl a true v)
              = x :: tl.filter (fun v => ! Function.update cl a true v) := by
            rw [List.filter_cons]
            simp [Function.update_noteq hxa, hxF]
          have e2 : (x :: tl).filter (fun v => ! cl v)
              = x :: tl.filter (fun v => ! cl v) := by
            rw [List.filter_cons]
            simp [hxF]
          rw [e1, e2]
          simp only [List.map_cons, List.sum_cons]
          omega

/-- One-step unfolding of the A* loop. -/
theorem aStarLoop_succ (h : ℕ → α) (adj : List (List (ℕ × α))) (endV : ℕ)
    (fuel : ℕ) (st : AStarState α) :
    aStarLoop h adj endV (fuel + 1) st =
      match heapPop st.heap with
      | none => st
      | some (cur, rest) =>
          if cur.1 = endV then { st with heap := rest }
          else if st.closed cur.1 then
            aStarLoop h adj endV fuel { st with heap := rest }
          else
            aStarLoop h adj endV fuel
              (relaxNbrs h cur.1
                { heap := rest
                  gScore := st.gScore
                  fScore := st.fScore
                  prev := st.prev
                  closed := Function.update st.closed cur.1 true }
                (adjGet adj cur.1)) := rfl

/-- The part of the invariant that survives the final heap truncation and
drives the path reconstruction. -/
structure PInv (C : AStarCtx α) (st : AStarState α) (cl : List ℕ) : Prop where
  gstart : st.gScore C.start = some 0
  clnodup : cl.Nodup
  clbound : ∀ v ∈ cl, v < C.n
  prevopt : ∀ v u, st.prev v = some u → u ∈ cl ∧
    ∃ w gu gv, (v, w) ∈ adjGet C.adj u ∧ st.gScore u = some gu ∧
      st.gScore v = some gv ∧ gv = gu + w
  prevcl : ∀ v u, st.prev v = some u → v ∈ cl → cl.indexOf u < cl.indexOf v
  prevstart : st.prev C.start = none
  prevset : ∀ v, v ≠ C.start → st.gScore v ≠ none → st.prev v ≠ none

/-- The reconstruction bundle follows from the core invariant. -/
theorem AInvC.toPInv {C : AStarCtx α} {st : AStarState α} {cl : List ℕ}
    (hic : AInvC C st cl) : PInv C st cl :=
  ⟨hic.gstart, hic.clnodup, hic.clbound, hic.prevopt, hic.prevcl,
    hic.prevstart, hic.prevset⟩

/-- The close branch of one loop iteration: popping an entry, closing its
vertex and relaxing its neighbors preserves the invariant and the frontier
condition (now including the newly closed vertex) and decreases the
potential. -/
theorem close_step (C : AStarCtx α) (st : AStarState α) (cl : List ℕ)
    (cur : ℕ × α) (rest : List (ℕ × α))
    (hpop : heapPop st.heap = some (cur, rest))
    (hic : AInvC C st cl) (hfr : ∀ c ∈ cl, FrontierAt C st c)
    (hnend : cur.1 ≠ C.endV)
    (stm st2 : AStarState α)
    (hstm : stm = { heap := rest, gScore := st.gScore, fScore := st.fScore,
                    prev := st.prev,
                    closed := Function.update st.closed cur.1 true })
    (hst2 : st2 = relaxNbrs C.h cur.1 stm (adjGet C.adj cur.1)) :
    AInvC C st2 (cl ++ [cur.1]) ∧
    (∀ c ∈ cl ++ [cur.1], FrontierAt C st2 c) ∧
    phiA C st2 + 1 ≤ phiA C st := by
  have hsg : stm.gScore = st.gScore := by rw [hstm]
  have hsp : stm.prev = st.prev := by rw [hstm]
  have hsh : stm.heap = rest := by rw [hstm]
  have hscl : stm.closed = Function.update st.closed cur.1 true := by rw [hstm]
  obtain ⟨hperm, hspec⟩ := heapPop_spec st.heap cur rest hpop
  obtain ⟨hrestok, hmin⟩ := hspec hic.heapok
  have hcurmem : cur ∈ st.heap := hperm.mem_iff.mpr (List.mem_cons_self _ _)
  obtain ⟨hcurcl, hcurn, gc, hgc, hkey⟩ := hic.entries cur hcurmem
  have hnotincl : cur.1 ∉ cl := by
    intro hh
    rw [(hic.clspec cur.1).mpr hh] at hcurcl
    exact Bool.noConfusion hcurcl
  have hndcons : (cur.1 :: rest.map Prod.fst).Nodup := by
    have := (hperm.map Prod.fst).nodup_iff.mp hic.nodup
    simpa using this
  have hcurnr : cur.1 ∉ rest.map Prod.fst := (List.nodup_cons.mp hndcons).1
  have hmemold : ∀ e ∈ rest, e ∈ st.heap := fun e he =>
    hperm.mem_iff.mpr (List.mem_cons_of_mem _ he)
  have hfstne : ∀ e ∈ rest, e.1 ≠ cur.1 := by
    intro e he hh
    exact hcurnr (hh ▸ List.mem_map_of_mem Prod.fst he)
  have hmid : AInvC C stm (cl ++ [cur.1]) := by
    constructor
    · rw [hsh]
      exact (List.nodup_cons.mp hndcons).2
    · rw [hsh]
      exact hrestok
    · intro e he
      rw [hsh] at he
      obtain ⟨hecl, hen, x, hx, hk⟩ := hic.entries e (hmemold e he)
      refine ⟨?_, hen, x, ?_, hk⟩
      · rw [hscl, Function.update_noteq (hfstne e he)]
        exact hecl
      · rw [hsg]
        exact hx
    · intro v hv hg
      rw [hscl] at hv
      have hvne : v ≠ cur.1 := by
        intro hh
        rw [hh, Function.update_same] at hv
        exact Bool.noConfusion hv
      rw [Function.update_noteq hvne] at hv
      rw [hsg] at hg
      have hold := hic.active v hv hg
      have hmem2 := (hperm.map Prod.fst).mem_iff.mp hold
      rw [hsh]
      rcases List.mem_cons.mp hmem2 with heq | hmem3
      · exact absurd heq hvne
      · exact hmem3
    · rw [hsg]
      exact hic.gstart
    · intro v x hx
      rw [hsg] at hx
      exact hic.gnn v x hx
    · intro v
      rw [hscl]
      by_cases hvc : v = cur.1
      · rw [hvc, Function.update_same]
        exact ⟨fun _ => List.mem_append_right cl (List.mem_singleton_self cur.1),
          fun _ => rfl⟩
      · rw [Function.update_noteq hvc, hic.clspec v]
        constructor
        · exact fun hh => List.mem_append_left _ hh
        · intro hh
          rcases List.mem_append.mp hh with h1 | h1
          · exact h1
          · exact absurd (List.mem_singleton.mp h1) hvc
    · rw [List.nodup_append]
      refine ⟨hic.clnodup, List.nodup_singleton _, ?_⟩
      intro b hb hbc
      rw [List.mem_singleton] at hbc
      exact hnotincl (hbc ▸ hb)
    · intro v hv
      rcases List.mem_append.mp hv with h1 | h1
      · exact hic.clbound v h1
      · rw [List.mem_singleton.mp h1]
        exact hcurn
    · rw [hscl, Function.update_noteq (fun hh => hnend hh.symm)]
      exact hic.endopen
    · intro c hc
      rcases List.mem_append.mp hc with h1 | h1
      · obtain ⟨g0, hg0, hopt⟩ := hic.optc c h1
        refine ⟨g0, ?_, hopt⟩
        rw [hsg]
        exact hg0
      · obtain ⟨g0, hg0, hopt⟩ :=
          cross_opt C st cl hic hfr cur rest hpop hcurcl
        rw [List.mem_singleton.mp h1]
        refine ⟨g0, ?_, hopt⟩
        rw [hsg]
        exact hg0
    · intro v u hpv
      rw [hsp] at hpv
      obtain ⟨hucl, w, gu, gv, hedge, hgu, hgv, heqv⟩ := hic.prevopt v u hpv
      refine ⟨List.mem_append_left _ hucl, w, gu, gv, hedge, ?_, ?_, heqv⟩
      · rw [hsg]; exact hgu
      · rw [hsg]; exact hgv
    · intro v u hpv hvin
      rw [hsp] at hpv
      have hucl := (hic.prevopt v u hpv).1
      by_cases hvcl : v ∈ cl
      · rw [List.indexOf_append_of_mem hucl, List.indexOf_append_of_mem hvcl]
        exact hic.prevcl v u hpv hvcl
      · have hveq : v = cur.1 := by
          rcases List.mem_append.mp hvin with h1 | h1
          · exact absurd h1 hvcl
          · exact List.mem_singleton.mp h1
        rw [hveq, List.indexOf_append_of_mem hucl]
        have h1 : (cl ++ [cur.1]).indexOf cur.1 = cl.length := by
          rw [List.indexOf_append_of_not_mem hnotincl]
          simp
        rw [h1]
        exact List.indexOf_lt_length.mpr hucl
    · rw [hsp]
      exact hic.prevstart
    · intro v hvs hg
      rw [hsp]
      rw [hsg] at hg
      exact hic.prevset v hvs hg
  have hfrm : ∀ c ∈ cl, FrontierAt C stm c := by
    intro c hc
    obtain ⟨g0, hg0, hrel⟩ := hfr c hc
    refine ⟨g0, by rw [hsg]; exact hg0, ?_⟩
    intro e he hecl
    rw [hscl] at hecl
    have hene : e.1 ≠ cur.1 := by
      intro hh
      rw [hh, Function.update_same] at hecl
      exact Bool.noConfusion hecl
    rw [Function.update_noteq hene] at hecl
    obtain ⟨ge, hge, hle⟩ := hrel e he hecl
    refine ⟨ge, ?_, hle⟩
    rw [hsg]
    exact hge
  have hcurin : cur.1 ∈ cl ++ [cur.1] :=
    List.mem_append_right cl (List.mem_singleton_self cur.1)
  have hclm : stm.closed cur.1 = true := by
    rw [hscl]
    exact Function.update_same _ _ _
  obtain ⟨h2inv, h2cl, h2ps, h2fr, h2sp, h2mono, h2done⟩ :=
    relaxFold_pres C (cl ++ [cur.1]) cur.1 (adjGet C.adj cur.1) stm
      (fun e he => he) hcurin hclm hmid
  have hst2f : st2 = (adjGet C.adj cur.1).foldl (relaxStep C.h cur.1) stm := hst2
  have hgcur : stm.gScore cur.1 = some gc := by
    rw [hsg]
    exact hgc
  refine ⟨hst2f ▸ h2inv, ?_, ?_⟩
  · intro c hc
    rw [hst2f]
    rcases List.mem_append.mp hc with h1 | h1
    · obtain ⟨g0, hg0, hrel⟩ := hfrm c h1
      have hccl : stm.closed c = true :=
        (hmid.clspec c).mpr (List.mem_append_left _ h1)
      refine ⟨g0, by rw [h2fr c hccl]; exact hg0, ?_⟩
      intro e he hecl
      rw [h2cl] at hecl
      obtain ⟨ge, hge, hle⟩ := hrel e he hecl
      cases hge2 : ((adjGet C.adj cur.1).foldl (relaxStep C.h cur.1) stm).gScore e.1 with
      | none =>
          exact absurd hge2 (h2sp e.1 (by rw [hge]; exact Option.noConfusion))
      | some ge2 =>
          exact ⟨ge2, rfl, le_trans (h2mono e.1 ge ge2 hge hge2) hle⟩
    · rw [List.mem_singleton.mp h1]
      refine ⟨gc, by rw [h2fr cur.1 hclm]; exact hgcur, ?_⟩
      intro e he hecl
      rw [h2cl] at hecl
      obtain ⟨ge, gu', hge, hgu', hle⟩ := h2done e he hecl
      refine ⟨ge, hge, ?_⟩
      have hgu2 : gu' = gc := by
        rw [h2fr cur.1 hclm, hgcur] at hgu'
        exact (Option.some.inj hgu').symm
      rw [← hgu2]
      exact hle
  · have hlen1 : st.heap.length = rest.length + 1 := by
      rw [hperm.length_eq]
      rfl
    have hsum : unSum C stm.closed + (1 + (adjGet C.adj cur.1).length)
        = unSum C st.closed := by
      have := filter_update_sum st.closed cur.1
        (fun v => 1 + (adjGet C.adj v).length) (List.range C.n)
        (List.nodup_range C.n) (List.mem_range.mpr hcurn) hcurcl
      rw [hscl]
      exact this
    have hlen2 : st2.heap.length ≤ stm.heap.length + (adjGet C.adj cur.1).length := by
      rw [hst2f]
      exact relaxFold_heap_length C.h cur.1 (adjGet C.adj cur.1) stm
    have hcl2 : st2.closed = stm.closed := by
      rw [hst2f]
      exact relaxFold_closed C.h cur.1 (adjGet C.adj cur.1) stm
    show st2.heap.length + unSum C st2.closed + 1
      ≤ st.heap.length + unSum C st.closed
    rw [hcl2, hsh] at *
    omega

/-- The A* loop, started from an invariant state with enough fuel and a
reachable target, ends with an optimal target `gScore` and a state
satisfying the reconstruction bundle. -/
theorem aStarLoop_opt (C : AStarCtx α) (hreach : Reach C.adj C.start C.endV) :
    ∀ fuel : ℕ, ∀ (st : AStarState α) (cl : List ℕ),
      AInvC C st cl → (∀ c ∈ cl, FrontierAt C st c) → phiA C st ≤ fuel →
      ∃ clF gc,
        PInv C (aStarLoop C.h C.adj C.endV fuel st) clF ∧
        (aStarLoop C.h C.adj C.endV fuel st).gScore C.endV = some gc ∧
        ∀ q c, WalkL C.adj q c → q.head? = some C.start →
          q.getLast? = some C.endV → gc ≤ c := by
  intro fuel
  induction fuel with
  | zero =>
      intro st cl hic hfr hphi
      exfalso
      have hphi2 : phiA C st = st.heap.length + unSum C st.closed := rfl
      have hlen : st.heap.length = 0 := by omega
      exact heap_nonempty_of_reach C st cl hic hfr C.endV hreach hic.endopen
        (List.length_eq_zero.mp hlen)
  | succ fuel ih =>
      intro st cl hic hfr hphi
      rw [aStarLoop_succ]
      cases hpop : heapPop st.heap with
      | none =>
          exfalso
          exact heap_nonempty_of_reach C st cl hic hfr C.endV hreach hic.endopen
            (heapPop_none st.heap hpop)
      | some pr =>
          obtain ⟨cur, rest⟩ := pr
          simp only []
          have hcurmem : cur ∈ st.heap :=
            ((heapPop_spec st.heap cur rest hpop).1).mem_iff.mpr
              (List.mem_cons_self _ _)
          obtain ⟨hcurcl, hcurn, gc0, hgc0, hkey⟩ := hic.entries cur hcurmem
          by_cases hend : cur.1 = C.endV
          · rw [if_pos hend]
            obtain ⟨gc, hgc, hopt⟩ := cross_opt C st cl hic hfr cur rest hpop hcurcl
            refine ⟨cl, gc, ?_, ?_, ?_⟩
            · exact ⟨hic.gstart, hic.clnodup, hic.clbound, hic.prevopt,
                hic.prevcl, hic.prevstart, hic.prevset⟩
            · show st.gScore C.endV = some gc
              rw [← hend]
              exact hgc
            · intro q c hw hh hl
              refine hopt q c hw hh ?_
              rw [hend]
              exact hl
          · rw [if_neg hend]
            rw [if_neg (show ¬ (st.closed cur.1 = true) from
              fun h => by rw [hcurcl] at h; exact Bool.noConfusion h)]
            obtain ⟨h3inv, h3fr, h3phi⟩ :=
              close_step C st cl cur rest hpop hic hfr hend _ _ rfl rfl
            exact ih _ (cl ++ [cur.1]) h3inv h3fr (by omega)

/-- One-step unfolding of the reconstruction loop. -/
theorem buildPath_succ (prev : ℕ → Option ℕ) (k v : ℕ) :
    buildPath prev (k + 1) v = v :: (match prev v with
      | none => []
      | some p => buildPath prev k p) := rfl

/-- Walk costs are non-negative when all edge weights are. -/
theorem walk_cost_nonneg {adj : List (List (ℕ × α))}
    (hwnn : ∀ u, ∀ e ∈ adjGet adj u, 0 ≤ e.2) :
    ∀ {q : List ℕ} {c : α}, WalkL adj q c → 0 ≤ c := by
  intro q
  induction q with
  | nil => intro c hw; exact absurd rfl hw.head_ne_nil
  | cons x tl ih =>
      intro c hw
      cases tl with
      | nil =>
          cases hw with
          | single => exact le_refl 0
      | cons y tl2 =>
          cases hw with
          | cons _ _ _ w1 c1 hm1 hw1 =>
              have h1 := hwnn x (y, w1) hm1
              have h2 := ih hw1
              have : (0 : α) ≤ w1 := h1
              linarith

/-- Following `prev` from a closed vertex (or the start) with enough fuel
reconstructs a walk from the start whose cost is the vertex's `gScore`. -/
theorem recon (C : AStarCtx α) (st : AStarState α) (cl : List ℕ)
    (hp : PInv C st cl) :
    ∀ k : ℕ, ∀ v : ℕ, (v = C.start ∨ (v ∈ cl ∧ cl.indexOf v ≤ k)) →
      ∀ gv, st.gScore v = some gv →
      WalkL C.adj (buildPath st.prev (k + 1) v).reverse gv ∧
      (buildPath st.prev (k + 1) v).reverse.head? = some C.start ∧
      (buildPath st.prev (k + 1) v).reverse.getLast? = some v := by
  intro k
  induction k with
  | zero =>
      intro v hv gv hgv
      by_cases hvs : v = C.start
      · subst hvs
        rw [buildPath_succ, hp.prevstart]
        have hgv0 : gv = 0 := by
          rw [hp.gstart] at hgv
          exact (Option.some.inj hgv).symm
        rw [hgv0]
        exact ⟨WalkL.single _, rfl, rfl⟩
      · rcases hv with h1 | ⟨hvm, hvi⟩
        · exact absurd h1 hvs
        · exfalso
          have hgne : st.gScore v ≠ none := by rw [hgv]; exact Option.noConfusion
          have hpvne := hp.prevset v hvs hgne
          cases hpu : st.prev v with
          | none => exact hpvne hpu
          | some u =>
              have := hp.prevcl v u hpu hvm
              omega
  | succ k ihk =>
      intro v hv gv hgv
      by_cases hvs : v = C.start
      · subst hvs
        rw [buildPath_succ, hp.prevstart]
        have hgv0 : gv = 0 := by
          rw [hp.gstart] at hgv
          exact (Option.some.inj hgv).symm
        rw [hgv0]
        exact ⟨WalkL.single _, rfl, rfl⟩
      · rcases hv with h1 | ⟨hvm, hvi⟩
        · exact absurd h1 hvs
        · have hgne : st.gScore v ≠ none := by rw [hgv]; exact Option.noConfusion
          have hpvne := hp.prevset v hvs hgne
          cases hpu : st.prev v with
          | none => exact absurd hpu hpvne
          | some u =>
              obtain ⟨humem, w, gu, gv', hedge, hgu, hgv', heqv⟩ :=
                hp.prevopt v u hpu
              have hgveq : gv = gv' := Option.some.inj (hgv.symm.trans hgv')
              have hidx := hp.prevcl v u hpu hvm
              obtain ⟨hw, hh, hl⟩ :=
                ihk u (Or.inr ⟨humem, by omega⟩) gu hgu
              rw [buildPath_succ, hpu, List.reverse_cons]
              obtain ⟨hw2, hh2, hl2⟩ := walk_append hw hl hedge
              refine ⟨?_, by rw [hh2, hh], hl2⟩
              rw [hgveq, heqv]
              exact hw2

/-- Reconstruction from the (never-closed) end vertex, with the fuel used
by `shortestPath`. -/
theorem recon_end (C : AStarCtx α) (st : AStarState α) (cl : List ℕ)
    (hp : PInv C st cl) (hns : C.endV ≠ C.start)
    (ge : α) (hge : st.gScore C.endV = some ge) :
    WalkL C.adj (buildPath st.prev (C.n + 1) C.endV).reverse ge ∧
    (buildPath st.prev (C.n + 1) C.endV).reverse.head? = some C.start ∧
    (buildPath st.prev (C.n + 1) C.endV).reverse.getLast? = some C.endV := by
  have hgne : st.gScore C.endV ≠ none := by rw [hge]; exact Option.noConfusion
  have hpvne := hp.prevset C.endV hns hgne
  cases hpu : st.prev C.endV with
  | none => exact absurd hpu hpvne
  | some u =>
      obtain ⟨humem, w, gu, gv', hedge, hgu, hgv', heqv⟩ :=
        hp.prevopt C.endV u hpu
      have hlen : cl.length ≤ C.n := by
        have h2 : cl.toFinset ⊆ Finset.range C.n := by
          intro v hv
          simp only [List.mem_toFinset] at hv
          simp only [Finset.mem_range]
          exact hp.clbound v hv
        have h3 := Finset.card_le_card h2
        simpa [List.toFinset_card_of_nodup hp.clnodup] using h3
      have hidxu : cl.indexOf u < cl.length := List.indexOf_lt_length.mpr humem
      obtain ⟨n', hn'⟩ : ∃ n', C.n = n' + 1 := ⟨C.n - 1, by omega⟩
      rw [hn']
      rw [buildPath_succ, hpu, List.reverse_cons]
      obtain ⟨hw, hh, hl⟩ :=
        recon C st cl hp n' u (Or.inr ⟨humem, by omega⟩) gu hgu
      obtain ⟨hw2, hh2, hl2⟩ := walk_append hw hl hedge
      have hgeeq : ge = gv' := Option.some.inj (hge.symm.trans hgv')
      refine ⟨?_, by rw [hh2, hh], hl2⟩
      rw [hgeeq, heqv]
      exact hw2

/-- Degree sum over all vertex indices equals the adjacency size sum. -/
theorem sum_range_deg (adj : List (List (ℕ × α))) :
    ((List.range adj.length).map (fun v => 1 + (adjGet adj v).length)).sum
      = adj.length + (adj.map List.length).sum := by
  induction adj with
  | nil => rfl
  | cons a tl ih =>
      show ((List.range (tl.length + 1)).map
        (fun v => 1 + (adjGet (a :: tl) v).length)).sum = _
      rw [List.range_succ_eq_map]
      simp only [List.map_cons, List.sum_cons, List.map_map]
      have hcomp : (List.range tl.length).map
          ((fun v => 1 + (adjGet (a :: tl) v).length) ∘ Nat.succ)
          = (List.range tl.length).map (fun v => 1 + (adjGet tl v).length) := by
        refine List.map_congr_left ?_
        intro v _
        rfl
      rw [hcomp, ih]
      have ha : adjGet (a :: tl) 0 = a := rfl
      rw [ha]
      simp only [List.length_cons, List.map_cons, List.sum_cons]
      omega

/-- The initial state of `shortestPath` satisfies the core invariant with
no closed vertices. -/
theorem astar_init (C : AStarCtx α) (hs : C.start < C.n)
    (st0 : AStarState α)
    (h0 : st0 = { heap := heapPush [] C.start (C.h C.start),
                  gScore := Function.update (fun _ => none) C.start (some 0),
                  fScore := Function.update (fun _ => none) C.start
                    (some (C.h C.start)),
                  prev := fun _ => none,
                  closed := fun _ => false }) :
    AInvC C st0 [] := by
  have hheap : st0.heap = [(C.start, C.h C.start)] := by rw [h0]; rfl
  have hg : st0.gScore = Function.update (fun _ => none) C.start (some 0) := by
    rw [h0]
  have hprev : st0.prev = fun _ => none := by rw [h0]
  have hcl : st0.closed = fun _ => false := by rw [h0]
  constructor
  · rw [hheap]
    simp
  · intro i h1 h2
    rw [hheap] at h2
    simp only [List.length_cons, List.length_nil] at h2
    omega
  · intro e he
    rw [hheap] at he
    have heq : e = (C.start, C.h C.start) := List.mem_singleton.mp he
    subst heq
    refine ⟨by rw [hcl], hs, 0, ?_, ?_⟩
    · rw [hg]
      exact Function.update_same _ _ _
    · exact (zero_add _).symm
  · intro v hv hgv
    rw [hg] at hgv
    by_cases hvs : v = C.start
    · rw [hvs, hheap]
      simp
    · rw [Function.update_noteq hvs] at hgv
      exact absurd rfl hgv
  · rw [hg]
    exact Function.update_same _ _ _
  · intro v x hx
    rw [hg] at hx
    by_cases hvs : v = C.start
    · rw [hvs, Function.update_same] at hx
      have : x = 0 := (Option.some.inj hx).symm
      rw [this]
    · rw [Function.update_noteq hvs] at hx
      exact Option.noConfusion hx
  · intro v
    rw [hcl]
    exact ⟨fun h => Bool.noConfusion h, fun h => absurd h (List.not_mem_nil v)⟩
  · exact List.nodup_nil
  · intro v hv
    exact absurd hv (List.not_mem_nil v)
  · rw [hcl]
  · intro c hc
    exact absurd hc (List.not_mem_nil c)
  · intro v u hpv
    rw [hprev] at hpv
    exact Option.noConfusion hpv
  · intro v u hpv hvc
    exact absurd hvc (List.not_mem_nil v)
  · rw [hprev]
  · intro v hvs hgv
    rw [hg, Function.update_noteq hvs] at hgv
    exact absurd rfl hgv

/-- The fuel chosen by `shortestPath` covers the initial potential. -/
theorem astar_init_phi (C : AStarCtx α) (hlen : C.adj.length = C.n)
    (st0 : AStarState α)
    (h0 : st0 = { heap := heapPush [] C.start (C.h C.start),
                  gScore := Function.update (fun _ => none) C.start (some 0),
                  fScore := Function.update (fun _ => none) C.start
                    (some (C.h C.start)),
                  prev := fun _ => none,
                  closed := fun _ => false }) :
    phiA C st0 ≤ aStarFuel C.adj C.n := by
  have hheap : st0.heap = [(C.start, C.h C.start)] := by rw [h0]; rfl
  have hcl : st0.closed = fun _ => false := by rw [h0]
  have hphi : phiA C st0 = st0.heap.length + unSum C st0.closed := rfl
  have hun : unSum C st0.closed = C.n + (C.adj.map List.length).sum := by
    rw [hcl]
    show (((List.range C.n).filter (fun v => ! false)).map
      (fun v => 1 + (adjGet C.adj v).length)).sum = _
    have hfil : (List.range C.n).filter (fun v => ! false) = List.range C.n := by
      simp
    rw [hfil, ← hlen]
    exact sum_range_deg C.adj
  have hfuel : aStarFuel C.adj C.n = 2 + C.n + (C.adj.map List.length).sum := rfl
  rw [hphi, hun, hheap, hfuel]
  simp only [List.length_cons, List.length_nil]
  omega

/-- A full `shortestPath` run on a reachable target: the final `prev`
reaches the end vertex and reconstruction yields a start-to-end walk of
minimal cost. -/
theorem astar_main (C : AStarCtx α) (hlen : C.adj.length = C.n)
    (hs : C.start < C.n) (hreach : Reach C.adj C.start C.endV)
    (hnse : C.start ≠ C.endV) (st0 fin : AStarState α)
    (h0 : st0 = { heap := heapPush [] C.start (C.h C.start),
                  gScore := Function.update (fun _ => none) C.start (some 0),
                  fScore := Function.update (fun _ => none) C.start
                    (some (C.h C.start)),
                  prev := fun _ => none,
                  closed := fun _ => false })
    (hfin : fin = aStarLoop C.h C.adj C.endV (aStarFuel C.adj C.n) st0) :
    fin.prev C.endV ≠ none ∧
    ∃ gc, WalkL C.adj (buildPath fin.prev (C.n + 1) C.endV).reverse gc ∧
      (buildPath fin.prev (C.n + 1) C.endV).reverse.head? = some C.start ∧
      (buildPath fin.prev (C.n + 1) C.endV).reverse.getLast? = some C.endV ∧
      ∀ q c', WalkL C.adj q c' → q.head? = some C.start →
        q.getLast? = some C.endV → gc ≤ c' := by
  have hinv0 := astar_init C hs st0 h0
  have hphi0 := astar_init_phi C hlen st0 h0
  obtain ⟨clF, gc, hPinv, hgend, hopt⟩ :=
    aStarLoop_opt C hreach (aStarFuel C.adj C.n) st0 []
      hinv0 (fun c hc => absurd hc (List.not_mem_nil c)) hphi0
  rw [← hfin] at hPinv hgend
  have hgne : fin.gScore C.endV ≠ none := by
    rw [hgend]
    exact Option.noConfusion
  have hpne : fin.prev C.endV ≠ none :=
    hPinv.prevset C.endV (Ne.symm hnse) hgne
  obtain ⟨hw, hh, hl⟩ := recon_end C fin clF hPinv (Ne.symm hnse) gc hgend
  exact ⟨hpne, gc, hw, hh, hl, hopt⟩

/-- C1: for every pair of vertices in the same connected component of a
well-formed mesh graph (adjacency targets in range, one adjacency list
per vertex, edge weights equal to the vertex distances of a metric-like
`dist`), `shortestPath` returns a walk from `start` to `endV` whose total
edge weight is minimal among all start-to-end walks — the Dijkstra
optimum. -/
theorem C1_astar_optimal (dist : Vec3 α → Vec3 α → α) (g : MeshGraphBuilder α)
    (start endV : ℕ)
    (hdnn : ∀ a b, 0 ≤ dist a b)
    (htri : ∀ a b c, dist a c ≤ dist a b + dist b c)
    (hlen : g.adjacency.length = g.positions.length)
    (hb : ∀ u, ∀ e ∈ adjGet g.adjacency u, e.1 < g.positions.length)
    (hwdist : ∀ u, ∀ e ∈ adjGet g.adjacency u,
      e.2 = dist (g.positions.getD u ⟨0, 0, 0⟩) (g.positions.getD e.1 ⟨0, 0, 0⟩))
    (hs : start < g.positions.length) (he : endV < g.positions.length)
    (hreach : Reach g.adjacency start endV) :
    ∃ c, WalkL g.adjacency (MeshGraphBuilder.shortestPath dist g start endV) c ∧
      (MeshGraphBuilder.shortestPath dist g start endV).head? = some start ∧
      (MeshGraphBuilder.shortestPath dist g start endV).getLast? = some endV ∧
      ∀ q c', WalkL g.adjacency q c' → q.head? = some start →
        q.getLast? = some endV → c ≤ c' := by
  have hwnn : ∀ u, ∀ e ∈ adjGet g.adjacency u, 0 ≤ e.2 := by
    intro u e he2
    rw [hwdist u e he2]
    exact hdnn _ _
  rw [shortestPath_eq]
  rw [if_neg (show ¬ (g.positions.length ≤ start ∨ g.positions.length ≤ endV)
    by omega)]
  by_cases hse : start = endV
  · rw [if_pos hse]
    subst hse
    refine ⟨0, WalkL.single start, rfl, rfl, ?_⟩
    intro q c' hw _ _
    exact walk_cost_nonneg hwnn hw
  · rw [if_neg hse]
    have hcons : ∀ u, ∀ e ∈ adjGet g.adjacency u,
        (fun v => dist (g.positions.getD v ⟨0, 0, 0⟩)
          (g.positions.getD endV ⟨0, 0, 0⟩)) u
        ≤ e.2 + (fun v => dist (g.positions.getD v ⟨0, 0, 0⟩)
          (g.positions.getD endV ⟨0, 0, 0⟩)) e.1 := by
      intro u e he2
      simp only []
      rw [hwdist u e he2]
      exact htri _ _ _
    obtain ⟨hpne, gc, hw, hh, hl, hopt⟩ :=
      astar_main
        ⟨g.adjacency, g.positions.length,
          fun v => dist (g.positions.getD v ⟨0, 0, 0⟩)
            (g.positions.getD endV ⟨0, 0, 0⟩),
          start, endV, hb, hwnn, hcons⟩
        hlen hs hreach hse _ (aStarRun dist g start endV) rfl rfl
    rw [if_neg (show ¬ ((aStarRun dist g start endV).prev endV = none ∧
      start ≠ endV) from fun hcond => hpne hcond.1)]
    exact ⟨gc, hw, hh, hl, hopt⟩

/-- A two-vertex graph with one symmetric unit edge, matching the L1
distance of its positions. -/
def gC1 : MeshGraphBuilder ℚ :=
  ⟨[⟨0, 0, 0⟩, ⟨1, 0, 0⟩], [[(1, 1)], [(0, 1)]], [0, 1], 1⟩

/-- Witness for C1 on the two-vertex unit-edge graph. -/
theorem C1_astar_optimal_witness :
    ∃ c, WalkL gC1.adjacency (MeshGraphBuilder.shortestPath distL1 gC1 0 1) c ∧
      (MeshGraphBuilder.shortestPath distL1 gC1 0 1).head? = some 0 ∧
      (MeshGraphBuilder.shortestPath distL1 gC1 0 1).getLast? = some 1 ∧
      ∀ q c', WalkL gC1.adjacency q c' → q.head? = some 0 →
        q.getLast? = some 1 → c ≤ c' := by
  refine C1_astar_optimal distL1 gC1 0 1 distL1_nonneg distL1_triangle rfl
    ?_ ?_ (by decide) (by decide) ?_
  · intro u e he2
    match u with
    | 0 =>
        have h3 : adjGet gC1.adjacency 0 = [((1 : ℕ), (1 : ℚ))] := rfl
        rw [h3, List.mem_singleton] at he2
        rw [he2]
        decide
    | 1 =>
        have h3 : adjGet gC1.adjacency 1 = [((0 : ℕ), (1 : ℚ))] := rfl
        rw [h3, List.mem_singleton] at he2
        rw [he2]
        decide
    | n + 2 =>
        have h3 : adjGet gC1.adjacency (n + 2) = [] := rfl
        rw [h3] at he2
        exact absurd he2 (List.not_mem_nil e)
  · intro u e he2
    match u with
    | 0 =>
        have h3 : adjGet gC1.adjacency 0 = [((1 : ℕ), (1 : ℚ))] := rfl
        rw [h3, List.mem_singleton] at he2
        rw [he2]
        norm_num [gC1, distL1, List.getD_cons_zero, List.getD_cons_succ]
    | 1 =>
        have h3 : adjGet gC1.adjacency 1 = [((0 : ℕ), (1 : ℚ))] := rfl
        rw [h3, List.mem_singleton] at he2
        rw [he2]
        norm_num [gC1, distL1, List.getD_cons_zero, List.getD_cons_succ]
    | n + 2 =>
        have h3 : adjGet gC1.adjacency (n + 2) = [] := rfl
        rw [h3] at he2
        exact absurd he2 (List.not_mem_nil e)
  · exact Reach.step Reach.refl
      (show ((1 : ℕ), (1 : ℚ)) ∈ adjGet gC1.adjacency 0 from
        List.mem_singleton_self _)

end UVTrial